import Mathlib

/-!
EventDrivenSchedulingAlgo: FCFS and Round-Robin simulation.

Shallow embedding of `Source.cpp` (struct `Process`, class `Simulator`,
`Simulator::runFCFS`, `Simulator::runRR`).

Modelling conventions.

* Arithmetic comes in two versions.  `runFCFS`, `runRR` and their parts
  compute in exact (unbounded) integers: they describe the passes as long as
  no value leaves the range of the 32-bit `int` of the source.  `runFCFS32`,
  `runRR32` and their parts compute as the source does on the usual targets:
  an `int` sum or difference is reduced modulo `2^32` (`wrapInt`), and a
  `double` converted to `int` out of range gives `INT_MIN` (`doubleToInt`).
  Both are undefined behaviour in C++; the 32-bit version records what the
  compiled program does.  The two versions agree on every run that stays in
  range (`runFCFS32_eq_runFCFS`, `runRR32_eq_runRR`).
* `cpu_time` and `remaining_burst` are `double` in the source, but
  `readInput` reads every service time into an `int` before the constructor
  widens it, and `runRR` only ever subtracts an `int` from `remaining_burst`.
  Both fields therefore always hold integers and are modelled by `Int`;
  `static_cast<int>` is the identity on them.
* `std::sort` is library code.  `runFCFS` takes the sorting function as a
  parameter; `StdSortContract` states what the C++ standard guarantees about
  it (the result is a permutation of the range, ordered by the comparator).
  The standard gives no guarantee about the order of equivalent elements.
  `stdSort` is the algorithm of GNU libstdc++ (introsort down to ranges of 16
  elements, then insertion sort), used where the order of tied records matters.
* Console output (`pauseAndInspect`, `displayReadyQueue`) and the two queues
  `ready_queue_fcfs` / `finish_queue_fcfs`, which `updateQueues` rebuilds only
  for that output, are not part of the model: no record field and no
  accumulator depends on them.
* The dispatch loop of `runRR` need not terminate for every argument, so it
  is modelled with an explicit iteration budget (`fuel`) and returns
  `Option`.
* Of `displayResults` the accumulation loop is modelled (`displayTotals`); its
  two divisions are carried out in floating point and are represented by their
  operands.
-/

namespace EventDrivenSchedulingAlgo

/-! ## Data model -/

/-- Context-switch cost, `const int SWITCH_TIME = 2`. -/
def SWITCH_TIME : Int := 2

/-- Record of one process, `struct Process`. -/
structure Process where
  process_number : Int
  arrival_time : Int
  cpu_time : Int
  remaining_burst : Int
  execution_time : Int
  waiting_time : Int
  finish_time : Int
  turnaround_time : Int
  finished : Bool
  deriving DecidableEq

/-- Constructor `Process(int num, int arrival, double cpu)`. -/
def Process.new (num arrival cpu : Int) : Process :=
  { process_number := num, arrival_time := arrival, cpu_time := cpu,
    remaining_burst := cpu, execution_time := 0, waiting_time := 0,
    finish_time := 0, turnaround_time := 0, finished := false }

/-- Static description of a record: `(process_number, arrival_time, cpu_time)`. -/
def Process.static (p : Process) : Int × Int × Int :=
  (p.process_number, p.arrival_time, p.cpu_time)

/-- Data members of `class Simulator` that the schedulers read or write. -/
structure Simulator where
  processes : List Process
  ready_queue_rr : List Nat
  finish_queue_rr : List Nat
  total_switch_time : Int
  deriving DecidableEq

/-- State after `Simulator(filename)`: the records built by `readInput` from
the `(process_number, arrival_time, cpu_time)` triples of the file. -/
def Simulator.load (input : List (Int × Int × Int)) : Simulator :=
  { processes := input.map (fun t => Process.new t.1 t.2.1 t.2.2),
    ready_queue_rr := [], finish_queue_rr := [], total_switch_time := 0 }

/-! ## FCFS -/

/-- Field reset at the top of `runFCFS` (lines 157-163); `remaining_burst`
is not touched. -/
def fcfsReset (p : Process) : Process :=
  { p with finished := false, execution_time := 0, waiting_time := 0,
           finish_time := 0, turnaround_time := 0 }

/-- Comparator of the `sort` call in `runFCFS`: `a.arrival_time < b.arrival_time`. -/
def arrivalLess (a b : Process) : Bool := decide (a.arrival_time < b.arrival_time)

/-- What the C++ standard guarantees about `std::sort(first, last, comp)` with
the comparator `arrivalLess`: the result is a permutation of the input and no
element is `comp`-less than an element before it. -/
def StdSortContract (sort : List Process → List Process) : Prop :=
  ∀ l, (sort l).Perm l ∧ (sort l).Pairwise (fun a b => arrivalLess b a = false)

/-- Clock value at dispatch (lines 174-176). -/
def fcfsDispatchTime (currentTime : Int) (p : Process) : Int :=
  if currentTime < p.arrival_time then p.arrival_time else currentTime

/-- Field updates of one iteration of the FCFS loop (lines 181-186), with
`t` the clock value at dispatch. -/
def fcfsRun (t : Int) (p : Process) : Process :=
  { p with execution_time := t,
           waiting_time := t - p.arrival_time,
           finish_time := t + p.cpu_time,
           turnaround_time := t + p.cpu_time - p.arrival_time,
           finished := true }

/-- The loop `for (auto& process : processes)` of `runFCFS` (lines 173-195),
started with clock `currentTime` and accumulator `total_switch_time = sw` on
the records still to be visited.  Returns the updated records and the final
accumulator.  `&process != &processes.back()` holds exactly when records
remain after the current one. -/
def fcfsLoop : Int → Int → List Process → List Process × Int
  | _, sw, [] => ([], sw)
  | currentTime, sw, p :: rest =>
    let t := fcfsDispatchTime currentTime p
    let p1 := fcfsRun t p
    let t1 := t + p.cpu_time
    if rest ≠ [] then
      let r := fcfsLoop (t1 + SWITCH_TIME) (sw + SWITCH_TIME) rest
      (p1 :: r.1, r.2)
    else
      let r := fcfsLoop t1 sw rest
      (p1 :: r.1, r.2)

/-- `Simulator::runFCFS`, with `std::sort` passed as `sort`. -/
def runFCFS (sort : List Process → List Process) (s : Simulator) : Simulator :=
  let r := fcfsLoop 0 0 (sort (s.processes.map fcfsReset))
  { s with processes := r.1, total_switch_time := r.2 }

/-- Insertion sort by `arrival_time`: one function meeting `StdSortContract`
(it is what common `std::sort` implementations run on short ranges). -/
def insertionSortByArrival (l : List Process) : List Process :=
  l.insertionSort (fun a b => a.arrival_time ≤ b.arrival_time)

/-! ## Round-Robin -/

/-- Field reset at the top of `runRR` (lines 204-211). -/
def rrReset (p : Process) : Process :=
  { p with finished := false, execution_time := 0, waiting_time := 0,
           finish_time := 0, turnaround_time := 0, remaining_burst := p.cpu_time }

/-- Variables of `runRR` while its loops run: the data members it writes and
the locals `currentTime` and `nextProcessToCheck`. -/
structure RRState where
  processes : List Process
  ready_queue_rr : List Nat
  finish_queue_rr : List Nat
  total_switch_time : Int
  currentTime : Int
  nextProcessToCheck : Nat
  deriving DecidableEq

/-- The admission loop
`while (next < processes.size() && processes[next].arrival_time <= currentTime)`
(lines 216-219 and 255-258), run over the records from index `next` on.
Returns the new cursor and the new ready queue. -/
def admissionLoop (currentTime : Int) : List Process → Nat → List Nat → Nat × List Nat
  | [], next, queue => (next, queue)
  | p :: ps, next, queue =>
    if p.arrival_time ≤ currentTime then
      admissionLoop currentTime ps (next + 1) (queue ++ [next])
    else (next, queue)

/-- The admission loop applied to the state. -/
def runAdmission (s : RRState) : RRState :=
  let r := admissionLoop s.currentTime (s.processes.drop s.nextProcessToCheck)
    s.nextProcessToCheck s.ready_queue_rr
  { s with nextProcessToCheck := r.1, ready_queue_rr := r.2 }

/-- Lines 246-249: the switch is charged when the ready queue is not empty or
the dispatched job has burst left. -/
def chargeSwitch (remaining : Int) (s : RRState) : RRState :=
  if s.ready_queue_rr ≠ [] ∨ 0 < remaining then
    { s with currentTime := s.currentTime + SWITCH_TIME,
             total_switch_time := s.total_switch_time + SWITCH_TIME }
  else s

/-- Lines 222-253: one pass through the `if (!ready_queue_rr.empty()) ... else`
of the dispatch loop.  An index outside the vector is never queued; the model
leaves the state unchanged in that case. -/
def rrDispatch (time_quantum : Int) (s : RRState) : RRState :=
  match s.ready_queue_rr with
  | [] => { s with currentTime := s.currentTime + 1 }
  | processIndex :: queue =>
    match s.processes[processIndex]? with
    | none => s
    | some job =>
      let timeSpent := min time_quantum job.remaining_burst
      let remaining := job.remaining_burst - timeSpent
      let currentTime := s.currentTime + timeSpent
      if 0 < remaining then
        chargeSwitch remaining
          { s with processes := s.processes.set processIndex { job with remaining_burst := remaining },
                   ready_queue_rr := queue ++ [processIndex],
                   currentTime := currentTime }
      else
        chargeSwitch remaining
          { s with processes := s.processes.set processIndex
                     { job with remaining_burst := remaining,
                                finish_time := currentTime,
                                turnaround_time := currentTime - job.arrival_time,
                                waiting_time := currentTime - job.arrival_time - job.cpu_time,
                                finished := true },
                   ready_queue_rr := queue,
                   finish_queue_rr := s.finish_queue_rr ++ [processIndex],
                   currentTime := currentTime }

/-- One iteration of `while (finish_queue_rr.size() < processes.size())`:
the dispatch step followed by the admission loop. -/
def rrStep (time_quantum : Int) (s : RRState) : RRState :=
  runAdmission (rrDispatch time_quantum s)

/-- The dispatch loop (lines 221-259), run for at most `fuel` iterations;
`none` when the loop condition still holds after `fuel` iterations. -/
def rrLoop (time_quantum : Int) : Nat → RRState → Option RRState
  | 0, s => if s.finish_queue_rr.length < s.processes.length then none else some s
  | fuel + 1, s =>
    if s.finish_queue_rr.length < s.processes.length then
      rrLoop time_quantum fuel (rrStep time_quantum s)
    else some s

/-- State of `runRR` when the dispatch loop is first reached (lines 199-219). -/
def rrInit (s : Simulator) : RRState :=
  runAdmission
    { processes := s.processes.map rrReset, ready_queue_rr := [], finish_queue_rr := [],
      total_switch_time := 0, currentTime := 0, nextProcessToCheck := 0 }

/-- Data members left by `runRR` when its loop exits in state `r`. -/
def RRState.toSimulator (r : RRState) : Simulator :=
  { processes := r.processes, ready_queue_rr := r.ready_queue_rr,
    finish_queue_rr := r.finish_queue_rr, total_switch_time := r.total_switch_time }

/-- `Simulator::runRR(time_quantum)` with an iteration budget for the dispatch loop. -/
def runRR (time_quantum : Int) (fuel : Nat) (s : Simulator) : Option Simulator :=
  (rrLoop time_quantum fuel (rrInit s)).map RRState.toSimulator

/-- Largest `arrival_time` of the records, or `0` if that is larger. -/
def maxArrival (l : List Process) : Int :=
  l.foldr (fun p m => max p.arrival_time m) 0

/-- Iteration budget that suffices for `runRR` when the quantum is positive and
no service time is negative: one iteration per unit of service, one per record,
and one idle tick per time unit up to the last arrival. -/
def rrFuel (s : Simulator) : Nat :=
  (s.processes.map (fun p => p.cpu_time.toNat)).sum + s.processes.length
    + (maxArrival s.processes).toNat

/-! ## Invariants of the dispatch loop -/

/-- A record that `runRR` has driven to completion. -/
def RRDone (p : Process) : Prop :=
  p.finished = true ∧ p.remaining_burst = 0 ∧
  p.turnaround_time = p.finish_time - p.arrival_time ∧
  p.waiting_time = p.turnaround_time - p.cpu_time ∧
  p.arrival_time + p.cpu_time ≤ p.finish_time

/-- What holds of the variables of `runRR` between any two statements of its
dispatch loop: the cursor is within the vector; the ready queue and the finish
queue together hold the indices below the cursor, each once; remaining bursts
stay within `[0, cpu_time]`; `M` bounds the arrival times; a queued record has
been served only after its arrival; a record in the finish queue is complete;
a record at or above the cursor is untouched. -/
structure RRCore (M : Int) (s : RRState) : Prop where
  next_le : s.nextProcessToCheck ≤ s.processes.length
  perm : (s.ready_queue_rr ++ s.finish_queue_rr).Perm (List.range s.nextProcessToCheck)
  rem_bounds : ∀ (i : Nat) (p : Process), s.processes[i]? = some p →
    0 ≤ p.remaining_burst ∧ p.remaining_burst ≤ p.cpu_time
  arr_le : ∀ (i : Nat) (p : Process), s.processes[i]? = some p → p.arrival_time ≤ M
  ready : ∀ i ∈ s.ready_queue_rr, ∀ p : Process, s.processes[i]? = some p →
    p.arrival_time + (p.cpu_time - p.remaining_burst) ≤ s.currentTime
  done : ∀ i ∈ s.finish_queue_rr, ∀ p : Process, s.processes[i]? = some p → RRDone p
  fresh : ∀ (i : Nat) (p : Process), s.nextProcessToCheck ≤ i →
    s.processes[i]? = some p → p.remaining_burst = p.cpu_time

/-- Invariant at the head of the dispatch loop: `RRCore`, and the admission
loop has just run, so the record at the cursor (if any) has not arrived. -/
def RRInv (M : Int) (s : RRState) : Prop :=
  RRCore M s ∧
  ∀ p : Process, s.processes[s.nextProcessToCheck]? = some p → s.currentTime < p.arrival_time

/-- Variant of the dispatch loop: service still owed, queued records, records
not yet admitted, and time left until the bound `M` on the arrival times. -/
def rrMeasure (M : Int) (s : RRState) : Nat :=
  (s.processes.map (fun p => p.remaining_burst.toNat)).sum + s.ready_queue_rr.length
    + (s.processes.length - s.nextProcessToCheck) + (M - s.currentTime).toNat

/-! ## Reporting -/

/-- Accumulators of `displayResults` (lines 86-88). -/
structure Totals where
  total_time : Int
  total_waiting_time : Int
  total_execution_time : Int
  deriving DecidableEq

/-- The accumulation loop of `displayResults` (lines 86-94). -/
def displayTotals (l : List Process) : Totals :=
  l.foldl
    (fun t p =>
      { total_time := max t.total_time p.finish_time,
        total_waiting_time := t.total_waiting_time + p.waiting_time,
        total_execution_time := t.total_execution_time + p.cpu_time })
    { total_time := 0, total_waiting_time := 0, total_execution_time := 0 }

/-- Dividend and divisor of line 96,
`static_cast<double>(total_waiting_time) / processes.size()`.  The division is
carried out in floating point; the model keeps its two operands. -/
def averageWaitingOperands (s : Simulator) : Int × Nat :=
  ((displayTotals s.processes).total_waiting_time, s.processes.length)

/-- Dividend and divisor of line 97,
`total_execution_time / (total_execution_time + total_switch_time)`, kept as
operands as well. -/
def cpuEfficiencyOperands (s : Simulator) : Int × Int :=
  ((displayTotals s.processes).total_execution_time,
    (displayTotals s.processes).total_execution_time + s.total_switch_time)

/-- Time by which lines 174-176 of `runFCFS` advance the clock to reach an
arrival, summed over the records: `max 0 (arrival_time - currentTime)` for each
record, with `currentTime` evolving as in `fcfsLoop`. -/
def fcfsIdleGaps : Int → List Process → Int
  | _, [] => 0
  | currentTime, p :: rest =>
    let t := fcfsDispatchTime currentTime p
    let t1 := t + p.cpu_time
    if rest ≠ [] then
      max 0 (p.arrival_time - currentTime) + fcfsIdleGaps (t1 + SWITCH_TIME) rest
    else
      max 0 (p.arrival_time - currentTime) + fcfsIdleGaps t1 rest

/-- Number of slices of at most `Q` needed for `s` units of service,
`ceil (s / Q)`, for `Q > 0`. -/
def ceilDiv (s Q : Int) : Int := (s + Q - 1) / Q

/-- What keeps the dispatch loop running under a quantum `Q ≤ 0`: the queues
hold the indices below the cursor, each once, and the record at index `i` has
burst left and is not in the finish queue. -/
structure RRStuck (i : Nat) (s : RRState) : Prop where
  next_le : s.nextProcessToCheck ≤ s.processes.length
  perm : (s.ready_queue_rr ++ s.finish_queue_rr).Perm (List.range s.nextProcessToCheck)
  lt : i < s.processes.length
  not_finished : i ∉ s.finish_queue_rr
  burst_left : ∃ p, s.processes[i]? = some p ∧ 0 < p.remaining_burst

/-- State of `runRR Q` on a workload whose records have all arrived at time 0,
when the records at the indices below `j` have had their first slice and the
others none: the cursor is at the end of the vector, the ready queue holds the
indices from `j` on followed by the preempted records, the records from `j` on
are untouched, and the clock has advanced by a slice and a switch for each
record below `j`. -/
structure RRFirstRound (Q : Int) (sim : Simulator) (j : Nat) (s : RRState) : Prop where
  inv : RRInv (maxArrival sim.processes) s
  static : s.processes.map Process.static = sim.processes.map Process.static
  cursor : s.nextProcessToCheck = s.processes.length
  queue : ∃ tail, s.ready_queue_rr = List.range' j (s.processes.length - j) ++ tail
  untouched : ∀ (m : Nat) (p : Process), j ≤ m → s.processes[m]? = some p →
    p.remaining_burst = p.cpu_time
  clock : s.currentTime
    = ((sim.processes.take j).map (fun p => min Q p.cpu_time + SWITCH_TIME)).sum
  finished_le : s.finish_queue_rr.length ≤ j

/-- State of `runRR Q` at the loop head on a workload whose records all arrived
at time 0 with at least one unit of service each: every queued record has burst
left, the clock is the service given so far plus the switches charged, no
`finish_time` exceeds the clock, and the switches charged so far plus one for
each slice still to come add up to `SWITCH_TIME * D0`; once the queue is empty
exactly one switch is missing from that total and some record finished at the
current clock value. -/
structure RRBatch (Q M D0 : Int) (s : RRState) : Prop where
  inv : RRInv M s
  cursor : s.nextProcessToCheck = s.processes.length
  queued_pos : ∀ i ∈ s.ready_queue_rr, ∀ p : Process, s.processes[i]? = some p →
    1 ≤ p.remaining_burst
  clock : s.currentTime
    = (s.processes.map (fun p => p.cpu_time - p.remaining_burst)).sum + s.total_switch_time
  clock_nonneg : 0 ≤ s.currentTime
  finished_le : ∀ i ∈ s.finish_queue_rr, ∀ p : Process, s.processes[i]? = some p →
    p.finish_time ≤ s.currentTime
  switches :
    (s.ready_queue_rr ≠ [] ∧
      s.total_switch_time
        + SWITCH_TIME * (s.processes.map (fun p => ceilDiv p.remaining_burst Q)).sum
        = SWITCH_TIME * D0) ∨
    (s.ready_queue_rr = [] ∧ s.total_switch_time + SWITCH_TIME = SWITCH_TIME * D0 ∧
      ∃ p ∈ s.processes, p.finish_time = s.currentTime)

/-! ## `std::sort` as implemented by GNU libstdc++ -/

/-- Value of `comp(first + i, first + j)` for the comparator of line 168 on the
elements at the positions `i` and `j`; `false` when a position is outside the
range (the library never compares there). -/
def compAt (l : List Process) (i j : Nat) : Bool :=
  match l[i]?, l[j]? with
  | some a, some b => arrivalLess a b
  | _, _ => false

/-- `std::iter_swap` on the positions `i` and `j`. -/
def iterSwap (l : List Process) (i j : Nat) : List Process :=
  match l[i]?, l[j]? with
  | some a, some b => (l.set i b).set j a
  | _, _ => l

/-- Assignment `*(first + i) = *(first + j)`. -/
def assignFrom (l : List Process) (i j : Nat) : List Process :=
  match l[j]? with
  | some x => l.set i x
  | none => l

/-- `std::__unguarded_linear_insert(last)` with `val` the element taken from
position `last`: elements before `last` move up while `comp(val, *next)`. -/
def unguardedLinearInsert (val : Process) : Nat → List Process → List Process
  | 0, l => l.set 0 val
  | last + 1, l =>
    match l[last]? with
    | some next =>
      if arrivalLess val next then unguardedLinearInsert val last (l.set (last + 1) next)
      else l.set (last + 1) val
    | none => l.set (last + 1) val

/-- `std::move_backward(first, i, i + 1)`: the elements at `first .. i - 1`
move up by one position, the highest first. -/
def moveBackward (first : Nat) : Nat → List Process → List Process
  | 0, l => l
  | k + 1, l =>
    if first ≤ k then moveBackward first k (assignFrom l (k + 1) k) else l

/-- Body of the loop of `std::__insertion_sort(first, last)` for the position `i`. -/
def insertionStep (first i : Nat) (l : List Process) : List Process :=
  match l[i]?, l[first]? with
  | some val, some front =>
    if arrivalLess val front then (moveBackward first i l).set first val
    else unguardedLinearInsert val i l
  | _, _ => l

/-- The loop `for (i = first + 1; i != last; ++i)` of `std::__insertion_sort`,
with `n` iterations left. -/
def insertionLoop (first : Nat) : Nat → Nat → List Process → List Process
  | 0, _, l => l
  | n + 1, i, l => insertionLoop first n (i + 1) (insertionStep first i l)

/-- `std::__insertion_sort(first, last)`. -/
def insertionSortRange (first last : Nat) (l : List Process) : List Process :=
  if first = last then l else insertionLoop first (last - (first + 1)) (first + 1) l

/-- The loop of `std::__unguarded_insertion_sort`, with `n` iterations left. -/
def unguardedInsertionLoop : Nat → Nat → List Process → List Process
  | 0, _, l => l
  | n + 1, i, l =>
    match l[i]? with
    | some val => unguardedInsertionLoop n (i + 1) (unguardedLinearInsert val i l)
    | none => l

/-- `std::__unguarded_insertion_sort(first, last)`. -/
def unguardedInsertionSort (first last : Nat) (l : List Process) : List Process :=
  unguardedInsertionLoop (last - first) first l

/-- `_S_threshold`, the range length up to which libstdc++ sorts by insertion. -/
def S_threshold : Nat := 16

/-- `std::__final_insertion_sort(first, last)`. -/
def finalInsertionSort (first last : Nat) (l : List Process) : List Process :=
  if last - first > S_threshold then
    unguardedInsertionSort (first + S_threshold) last
      (insertionSortRange first (first + S_threshold) l)
  else insertionSortRange first last l

/-- `std::__move_median_to_first(result, a, b, c)`. -/
def moveMedianToFirst (l : List Process) (result a b c : Nat) : List Process :=
  if compAt l a b then
    if compAt l b c then iterSwap l result b
    else if compAt l a c then iterSwap l result c
    else iterSwap l result a
  else if compAt l a c then iterSwap l result a
  else if compAt l b c then iterSwap l result c
  else iterSwap l result b

/-- The loop `while (comp(first, pivot)) ++first` of `std::__unguarded_partition`,
with `n` steps left. -/
def scanUp (l : List Process) (pivot : Nat) : Nat → Nat → Nat
  | 0, first => first
  | n + 1, first => if compAt l first pivot then scanUp l pivot n (first + 1) else first

/-- The loop `while (comp(pivot, last)) --last` of `std::__unguarded_partition`. -/
def scanDown (l : List Process) (pivot : Nat) : Nat → Nat
  | 0 => 0
  | last + 1 => if compAt l pivot (last + 1) then scanDown l pivot last else last + 1

/-- `std::__unguarded_partition(first, last, pivot)`, with `n` rounds of its
outer loop left; returns the cut position and the rearranged range. -/
def unguardedPartition (pivot : Nat) : Nat → Nat → Nat → List Process → Nat × List Process
  | 0, first, _, l => (first, l)
  | n + 1, first, last, l =>
    let first1 := scanUp l pivot l.length first
    let last1 := scanDown l pivot (last - 1)
    if first1 < last1 then
      unguardedPartition pivot n (first1 + 1) last1 (iterSwap l first1 last1)
    else (first1, l)

/-- `std::__unguarded_partition_pivot(first, last)`. -/
def unguardedPartitionPivot (first last : Nat) (l : List Process) : Nat × List Process :=
  let mid := first + (last - first) / 2
  let l1 := moveMedianToFirst l first (first + 1) mid (last - 1)
  unguardedPartition first l1.length (first + 1) last l1

/-- `std::__push_heap(first, holeIndex, topIndex, value)`, with `n` steps left. -/
def pushHeap (first topIndex : Nat) (value : Process) :
    Nat → Nat → List Process → List Process
  | 0, holeIndex, l => l.set (first + holeIndex) value
  | n + 1, holeIndex, l =>
    let parent := (holeIndex - 1) / 2
    match l[first + parent]? with
    | some up =>
      if topIndex < holeIndex ∧ arrivalLess up value = true then
        pushHeap first topIndex value n parent (l.set (first + holeIndex) up)
      else l.set (first + holeIndex) value
    | none => l.set (first + holeIndex) value

/-- The loop `while (secondChild < (len - 1) / 2)` of `std::__adjust_heap`, with
`n` steps left; the hole is at `secondChild` whenever the loop head is reached. -/
def adjustLoop (first len : Nat) : Nat → Nat → List Process → Nat × List Process
  | 0, secondChild, l => (secondChild, l)
  | n + 1, secondChild, l =>
    if secondChild < (len - 1) / 2 then
      let child := 2 * (secondChild + 1)
      let child1 := if compAt l (first + child) (first + (child - 1)) then child - 1 else child
      adjustLoop first len n child1 (assignFrom l (first + secondChild) (first + child1))
    else (secondChild, l)

/-- `std::__adjust_heap(first, holeIndex, len, value)`. -/
def adjustHeap (first holeIndex len : Nat) (value : Process) (l : List Process) :
    List Process :=
  let r := adjustLoop first len len holeIndex l
  if len % 2 = 0 ∧ r.1 = (len - 2) / 2 then
    pushHeap first holeIndex value len (2 * (r.1 + 1) - 1)
      (assignFrom r.2 (first + r.1) (first + (2 * (r.1 + 1) - 1)))
  else pushHeap first holeIndex value len r.1 r.2

/-- The loop of `std::__make_heap(first, last)`, from `parent` down to `0`. -/
def makeHeapLoop (first len : Nat) : Nat → List Process → List Process
  | 0, l =>
    match l[first]? with
    | some value => adjustHeap first 0 len value l
    | none => l
  | parent + 1, l =>
    match l[first + (parent + 1)]? with
    | some value => makeHeapLoop first len parent (adjustHeap first (parent + 1) len value l)
    | none => l

/-- `std::__make_heap(first, last)`. -/
def makeHeap (first last : Nat) (l : List Process) : List Process :=
  if last - first < 2 then l else makeHeapLoop first (last - first) ((last - first - 2) / 2) l

/-- `std::__pop_heap(first, last, result)`. -/
def popHeap (first last result : Nat) (l : List Process) : List Process :=
  match l[result]?, l[first]? with
  | some value, some top => adjustHeap first 0 (last - first) value (l.set result top)
  | _, _ => l

/-- The loop `while (last - first > 1)` of `std::__sort_heap`, on a heap of
`n` elements. -/
def sortHeapLoop (first : Nat) : Nat → List Process → List Process
  | 0, l => l
  | n + 1, l =>
    if n + 1 > 1 then sortHeapLoop first n (popHeap first (first + n) (first + n) l) else l

/-- `std::__partial_sort(first, last, last)`: `__heap_select` (with an empty
tail, `__make_heap` only) followed by `__sort_heap`. -/
def partialSort (first last : Nat) (l : List Process) : List Process :=
  sortHeapLoop first (last - first) (makeHeap first last l)

/-- `std::__introsort_loop(first, last, depth_limit)`.  Each round of its
`while` loop lowers `depth_limit` by one, recurses on the upper part and goes
on with the lower part. -/
def introsortLoop : Nat → Nat → Nat → List Process → List Process
  | 0, first, last, l => if last - first > S_threshold then partialSort first last l else l
  | depth + 1, first, last, l =>
    if last - first > S_threshold then
      let r := unguardedPartitionPivot first last l
      introsortLoop depth first r.1 (introsortLoop depth r.1 last r.2)
    else l

/-- `std::__lg`: the floor of the binary logarithm, with `fuel` halvings allowed. -/
def lgAux : Nat → Nat → Nat
  | 0, _ => 0
  | fuel + 1, n => if 2 ≤ n then lgAux fuel (n / 2) + 1 else 0

/-- `std::sort(processes.begin(), processes.end(), comp)` as GNU libstdc++
(`bits/stl_algo.h`) carries it out, with the comparator of line 168:
introsort down to ranges of 16 elements, then insertion sort. -/
def stdSort (l : List Process) : List Process :=
  if l.length = 0 then l
  else finalInsertionSort 0 l.length
    (introsortLoop (2 * lgAux l.length l.length) 0 l.length l)

/-! ## The passes in 32-bit `int` arithmetic -/

/-- Value that an `int` addition or subtraction with the exact result `x` leaves
on a two's-complement target: `x` reduced modulo `2^32` into
`[-2147483648, 2147483647]`.  (Signed overflow is undefined behaviour in C++;
this is what the usual targets compute.) -/
def wrapInt (x : Int) : Int := (x + 2147483648) % 4294967296 - 2147483648

/-- Conversion to `int` of a `double` that holds the integer `x`: `x` itself
when it is in the range of `int`, and `INT_MIN` otherwise (the result on
x86-64; the conversion is undefined behaviour in C++ when out of range). -/
def doubleToInt (x : Int) : Int :=
  if -2147483648 ≤ x ∧ x ≤ 2147483647 then x else -2147483648

/-- Lines 181-186 in `int` arithmetic: `waiting_time` and `turnaround_time` are
`int` differences, `currentTime += process.cpu_time` adds in `double` and
converts back to `int`. -/
def fcfsRun32 (t : Int) (p : Process) : Process :=
  { p with execution_time := t,
           waiting_time := wrapInt (t - p.arrival_time),
           finish_time := doubleToInt (t + p.cpu_time),
           turnaround_time := wrapInt (doubleToInt (t + p.cpu_time) - p.arrival_time),
           finished := true }

/-- The loop of `runFCFS` (lines 173-195) in `int` arithmetic. -/
def fcfsLoop32 : Int → Int → List Process → List Process × Int
  | _, sw, [] => ([], sw)
  | currentTime, sw, p :: rest =>
    let t := fcfsDispatchTime currentTime p
    let p1 := fcfsRun32 t p
    let t1 := doubleToInt (t + p.cpu_time)
    if rest ≠ [] then
      let r := fcfsLoop32 (wrapInt (t1 + SWITCH_TIME)) (wrapInt (sw + SWITCH_TIME)) rest
      (p1 :: r.1, r.2)
    else
      let r := fcfsLoop32 t1 sw rest
      (p1 :: r.1, r.2)

/-- `Simulator::runFCFS` in `int` arithmetic, with `std::sort` passed as `sort`. -/
def runFCFS32 (sort : List Process → List Process) (s : Simulator) : Simulator :=
  let r := fcfsLoop32 0 0 (sort (s.processes.map fcfsReset))
  { s with processes := r.1, total_switch_time := r.2 }

/-- Lines 246-249 in `int` arithmetic. -/
def chargeSwitch32 (remaining : Int) (s : RRState) : RRState :=
  if s.ready_queue_rr ≠ [] ∨ 0 < remaining then
    { s with currentTime := wrapInt (s.currentTime + SWITCH_TIME),
             total_switch_time := wrapInt (s.total_switch_time + SWITCH_TIME) }
  else s

/-- Lines 222-253 in `int` arithmetic: `static_cast<int>(job.remaining_burst)`
and the assignment to `waiting_time` convert from `double`, the clock and
`turnaround_time` are `int` sums and differences, and `remaining_burst` stays a
`double`. -/
def rrDispatch32 (time_quantum : Int) (s : RRState) : RRState :=
  match s.ready_queue_rr with
  | [] => { s with currentTime := wrapInt (s.currentTime + 1) }
  | processIndex :: queue =>
    match s.processes[processIndex]? with
    | none => s
    | some job =>
      let timeSpent := min time_quantum (doubleToInt job.remaining_burst)
      let remaining := job.remaining_burst - timeSpent
      let currentTime := wrapInt (s.currentTime + timeSpent)
      if 0 < remaining then
        chargeSwitch32 remaining
          { s with processes := s.processes.set processIndex { job with remaining_burst := remaining },
                   ready_queue_rr := queue ++ [processIndex],
                   currentTime := currentTime }
      else
        chargeSwitch32 remaining
          { s with processes := s.processes.set processIndex
                     { job with remaining_burst := remaining,
                                finish_time := currentTime,
                                turnaround_time := wrapInt (currentTime - job.arrival_time),
                                waiting_time :=
                                  doubleToInt (wrapInt (currentTime - job.arrival_time)
                                    - job.cpu_time),
                                finished := true },
                   ready_queue_rr := queue,
                   finish_queue_rr := s.finish_queue_rr ++ [processIndex],
                   currentTime := currentTime }

/-- One iteration of the dispatch loop in `int` arithmetic. -/
def rrStep32 (time_quantum : Int) (s : RRState) : RRState :=
  runAdmission (rrDispatch32 time_quantum s)

/-- The dispatch loop (lines 221-259) in `int` arithmetic, for at most `fuel`
iterations. -/
def rrLoop32 (time_quantum : Int) : Nat → RRState → Option RRState
  | 0, s => if s.finish_queue_rr.length < s.processes.length then none else some s
  | fuel + 1, s =>
    if s.finish_queue_rr.length < s.processes.length then
      rrLoop32 time_quantum fuel (rrStep32 time_quantum s)
    else some s

/-- `Simulator::runRR(time_quantum)` in `int` arithmetic. -/
def runRR32 (time_quantum : Int) (fuel : Nat) (s : Simulator) : Option Simulator :=
  (rrLoop32 time_quantum fuel (rrInit s)).map RRState.toSimulator

/-- Workload of 17 records that all arrive at time 0 with one unit of service,
numbered 1 to 17 in insertion order. -/
def seventeenTied : List (Int × Int × Int) :=
  (List.range 17).map (fun i => ((i : Int) + 1, 0, 1))

/-- Range condition on a state of the dispatch loop, sufficient for the rest of
the run to stay within `int`: the clock and the switch accumulator are not
negative, the accumulator is at most the clock, no arrival time is negative,
and the later of the clock and the bound `M` on the arrival times, plus three
times the service still owed, plus one `SWITCH_TIME` per record not in the
finish queue, is at most `INT_MAX`. -/
structure RRRange (M : Int) (s : RRState) : Prop where
  clock_nonneg : 0 ≤ s.currentTime
  switch_nonneg : 0 ≤ s.total_switch_time
  switch_le : s.total_switch_time ≤ s.currentTime
  arr_nonneg : ∀ (i : Nat) (p : Process), s.processes[i]? = some p → 0 ≤ p.arrival_time
  bound : max s.currentTime M + 3 * (s.processes.map (fun p => p.remaining_burst)).sum
    + SWITCH_TIME * ((s.processes.length : Int) - (s.finish_queue_rr.length : Int))
      ≤ 2147483647

/-! ## Properties of the FCFS loop -/

theorem fcfsDispatchTime_eq_max (c : Int) (p : Process) :
    fcfsDispatchTime c p = max c p.arrival_time := by
  unfold fcfsDispatchTime
  split
  · rw [max_eq_right]; omega
  · rw [max_eq_left]; omega

theorem fcfsLoop_cons_fst (c sw : Int) (p : Process) (rest : List Process) :
    ∃ c1 sw1, (fcfsLoop c sw (p :: rest)).1
        = fcfsRun (fcfsDispatchTime c p) p :: (fcfsLoop c1 sw1 rest).1
      ∧ (rest ≠ [] → c1 = fcfsDispatchTime c p + p.cpu_time + SWITCH_TIME) := by
  by_cases h : rest = []
  · exact ⟨fcfsDispatchTime c p + p.cpu_time, sw, by simp [fcfsLoop, h], fun h1 => absurd h h1⟩
  · exact ⟨fcfsDispatchTime c p + p.cpu_time + SWITCH_TIME, sw + SWITCH_TIME,
      by simp [fcfsLoop, h], fun _ => rfl⟩

theorem fcfsLoop_nil_fst (c sw : Int) : (fcfsLoop c sw []).1 = [] := by
  simp [fcfsLoop]

theorem fcfsLoop_head (c sw : Int) (l : List Process) (q : Process)
    (h : (fcfsLoop c sw l).1.head? = some q) :
    q.execution_time = max c q.arrival_time := by
  cases l with
  | nil => simp [fcfsLoop] at h
  | cons p rest =>
    obtain ⟨c1, sw1, hc, _⟩ := fcfsLoop_cons_fst c sw p rest
    rw [hc] at h
    simp only [List.head?_cons, Option.some.injEq] at h
    subst h
    simp [fcfsRun, fcfsDispatchTime_eq_max]

theorem fcfsLoop_consecutive (l : List Process) :
    ∀ (c sw : Int) (i : Nat) (p q : Process),
      (fcfsLoop c sw l).1[i]? = some p → (fcfsLoop c sw l).1[i + 1]? = some q →
      q.execution_time = max (p.finish_time + SWITCH_TIME) q.arrival_time := by
  induction l with
  | nil => intro c sw i p q h; simp [fcfsLoop] at h
  | cons p0 rest ih =>
    intro c sw i p q hp hq
    obtain ⟨c1, sw1, hc, hc1⟩ := fcfsLoop_cons_fst c sw p0 rest
    rw [hc] at hp hq
    cases i with
    | zero =>
      simp only [List.getElem?_cons_zero, Option.some.injEq] at hp
      simp only [zero_add, List.getElem?_cons_succ] at hq
      have hne : rest ≠ [] := by
        intro h0
        subst h0
        simp [fcfsLoop] at hq
      have hhead : (fcfsLoop c1 sw1 rest).1.head? = some q := by
        rw [← hq]
        cases (fcfsLoop c1 sw1 rest).1 <;> simp
      have := fcfsLoop_head c1 sw1 rest q hhead
      rw [this, hc1 hne, ← hp]
      simp [fcfsRun]
    | succ j =>
      simp only [List.getElem?_cons_succ] at hp hq
      exact ih c1 sw1 j p q hp hq

theorem fcfsLoop_record (l : List Process) :
    ∀ (c sw : Int) (p : Process), p ∈ (fcfsLoop c sw l).1 →
      ∃ p0 ∈ l, ∃ t, p = fcfsRun t p0 ∧ p0.arrival_time ≤ t := by
  induction l with
  | nil => intro c sw p h; simp [fcfsLoop] at h
  | cons p0 rest ih =>
    intro c sw p hp
    obtain ⟨c1, sw1, hc, _⟩ := fcfsLoop_cons_fst c sw p0 rest
    rw [hc] at hp
    rcases List.mem_cons.mp hp with h | h
    · refine ⟨p0, List.mem_cons_self _ _, fcfsDispatchTime c p0, h, ?_⟩
      rw [fcfsDispatchTime_eq_max]
      exact le_max_right _ _
    · obtain ⟨p1, hp1, t, ht, hle⟩ := ih c1 sw1 p h
      exact ⟨p1, List.mem_cons_of_mem _ hp1, t, ht, hle⟩

theorem fcfsLoop_map_static (l : List Process) :
    ∀ (c sw : Int), (fcfsLoop c sw l).1.map Process.static = l.map Process.static := by
  induction l with
  | nil => intro c sw; simp [fcfsLoop]
  | cons p0 rest ih =>
    intro c sw
    obtain ⟨c1, sw1, hc, _⟩ := fcfsLoop_cons_fst c sw p0 rest
    rw [hc]
    simp [ih c1 sw1, fcfsRun, Process.static]

theorem fcfsLoop_map_remaining (l : List Process) :
    ∀ (c sw : Int), (fcfsLoop c sw l).1.map (fun p => p.remaining_burst)
      = l.map (fun p => p.remaining_burst) := by
  induction l with
  | nil => intro c sw; simp [fcfsLoop]
  | cons p0 rest ih =>
    intro c sw
    obtain ⟨c1, sw1, hc, _⟩ := fcfsLoop_cons_fst c sw p0 rest
    rw [hc]
    simp [ih c1 sw1, fcfsRun]

/-! ## Insertion sort meets the contract of `std::sort` -/

theorem insertionSortByArrival_contract : StdSortContract insertionSortByArrival := by
  intro l
  refine ⟨List.perm_insertionSort _ l, ?_⟩
  have hs : (l.insertionSort (fun a b : Process => a.arrival_time ≤ b.arrival_time)).Sorted
      (fun a b : Process => a.arrival_time ≤ b.arrival_time) := by
    haveI : IsTotal Process (fun a b : Process => a.arrival_time ≤ b.arrival_time) :=
      ⟨fun a b => le_total a.arrival_time b.arrival_time⟩
    haveI : IsTrans Process (fun a b : Process => a.arrival_time ≤ b.arrival_time) :=
      ⟨fun a b c h1 h2 => le_trans h1 h2⟩
    exact List.sorted_insertionSort _ l
  refine List.Pairwise.imp ?_ hs
  intro a b hab
  simp [arrivalLess, hab]

/-! ## Auxiliary facts about lists -/

theorem getElem?_set_cases (l : List Process) (i j : Nat) (x p : Process)
    (h : (l.set i x)[j]? = some p) :
    (j = i ∧ p = x) ∨ (j ≠ i ∧ l[j]? = some p) := by
  rw [List.getElem?_set] at h
  by_cases hij : i = j
  · left
    rw [if_pos hij] at h
    split at h
    · exact ⟨hij.symm, (Option.some.inj h).symm⟩
    · exact absurd h (by simp)
  · right
    rw [if_neg hij] at h
    exact ⟨fun h1 => hij h1.symm, h⟩

theorem sum_map_set (f : Process → Nat) (l : List Process) :
    ∀ (i : Nat) (p x : Process), l[i]? = some p →
      ((l.set i x).map f).sum + f p = (l.map f).sum + f x := by
  induction l with
  | nil => intro i p x h; simp at h
  | cons a rest ih =>
    intro i p x h
    cases i with
    | zero =>
      simp only [List.getElem?_cons_zero, Option.some.injEq] at h
      subst h
      simp only [List.set_cons_zero, List.map_cons, List.sum_cons]
      omega
    | succ j =>
      simp only [List.getElem?_cons_succ] at h
      have := ih j p x h
      simp only [List.set_cons_succ, List.map_cons, List.sum_cons]
      omega

theorem le_maxArrival (l : List Process) : ∀ p ∈ l, p.arrival_time ≤ maxArrival l := by
  induction l with
  | nil => intro p h; simp at h
  | cons a rest ih =>
    intro p hp
    have hunf : maxArrival (a :: rest) = max a.arrival_time (maxArrival rest) := rfl
    rw [hunf]
    rcases List.mem_cons.mp hp with h | h
    · subst h; exact le_max_left _ _
    · exact le_trans (ih p h) (le_max_right _ _)

/-! ## The admission loop -/

theorem admissionLoop_spec (c : Int) (l : List Process) :
    ∀ (next : Nat) (q : List Nat), ∃ k, k ≤ l.length ∧
      admissionLoop c l next q = (next + k, q ++ List.range' next k) ∧
      (∀ (j : Nat) (p : Process), j < k → l[j]? = some p → p.arrival_time ≤ c) ∧
      (∀ p : Process, l[k]? = some p → c < p.arrival_time) := by
  induction l with
  | nil =>
    intro next q
    exact ⟨0, le_refl _, by simp [admissionLoop], by intro j p hj; omega, by intro p h; simp at h⟩
  | cons a rest ih =>
    intro next q
    by_cases ha : a.arrival_time ≤ c
    · obtain ⟨k, hk, heq, hlt, hge⟩ := ih (next + 1) (q ++ [next])
      refine ⟨k + 1, by simp; omega, ?_, ?_, ?_⟩
      · simp only [admissionLoop, if_pos ha, heq, List.range'_succ]
        simp [Nat.add_assoc, Nat.add_comm 1 k]
      · intro j p hj hp
        cases j with
        | zero =>
          simp only [List.getElem?_cons_zero, Option.some.injEq] at hp
          subst hp; exact ha
        | succ j =>
          simp only [List.getElem?_cons_succ] at hp
          exact hlt j p (by omega) hp
      · intro p hp
        simp only [List.getElem?_cons_succ] at hp
        exact hge p hp
    · refine ⟨0, by omega, by simp [admissionLoop, if_neg ha], by intro j p hj; omega, ?_⟩
      intro p hp
      simp only [List.getElem?_cons_zero, Option.some.injEq] at hp
      subst hp; omega

/-- Effect of the admission loop on the state: `k` records are appended to the
ready queue in index order, each with `arrival_time ≤ currentTime`, and the
record at the new cursor, if any, has not arrived yet. -/
theorem runAdmission_spec (s : RRState) :
    ∃ k, s.nextProcessToCheck + k ≤ max s.nextProcessToCheck s.processes.length ∧
      runAdmission s =
        { s with nextProcessToCheck := s.nextProcessToCheck + k,
                 ready_queue_rr := s.ready_queue_rr ++ List.range' s.nextProcessToCheck k } ∧
      (∀ (j : Nat) (p : Process), s.nextProcessToCheck ≤ j → j < s.nextProcessToCheck + k →
        s.processes[j]? = some p → p.arrival_time ≤ s.currentTime) ∧
      (∀ p : Process, s.processes[s.nextProcessToCheck + k]? = some p →
        s.currentTime < p.arrival_time) := by
  obtain ⟨k, hk, heq, hlt, hge⟩ := admissionLoop_spec s.currentTime
    (s.processes.drop s.nextProcessToCheck) s.nextProcessToCheck s.ready_queue_rr
  refine ⟨k, ?_, ?_, ?_, ?_⟩
  · simp only [List.length_drop] at hk
    omega
  · simp [runAdmission, heq]
  · intro j p h1 h2 hp
    refine hlt (j - s.nextProcessToCheck) p (by omega) ?_
    rw [List.getElem?_drop]
    rw [show s.nextProcessToCheck + (j - s.nextProcessToCheck) = j by omega]
    exact hp
  · intro p hp
    refine hge p ?_
    rw [List.getElem?_drop]
    exact hp

/-! ## The dispatch step, case by case -/

theorem rrDispatch_idle (Q : Int) (s : RRState) (h : s.ready_queue_rr = []) :
    rrDispatch Q s = { s with currentTime := s.currentTime + 1 } := by
  simp [rrDispatch, h]

theorem rrDispatch_preempt (Q : Int) (s : RRState) (i : Nat) (q : List Nat) (job : Process)
    (hq : s.ready_queue_rr = i :: q) (hjob : s.processes[i]? = some job)
    (hrem : 0 < job.remaining_burst - min Q job.remaining_burst) :
    rrDispatch Q s =
      { s with processes := s.processes.set i
                 { job with remaining_burst := job.remaining_burst - min Q job.remaining_burst },
               ready_queue_rr := q ++ [i],
               currentTime := s.currentTime + min Q job.remaining_burst + SWITCH_TIME,
               total_switch_time := s.total_switch_time + SWITCH_TIME } := by
  simp [rrDispatch, hq, hjob, hrem, chargeSwitch]

theorem rrDispatch_finish (Q : Int) (s : RRState) (i : Nat) (q : List Nat) (job : Process)
    (hq : s.ready_queue_rr = i :: q) (hjob : s.processes[i]? = some job)
    (hrem : ¬ 0 < job.remaining_burst - min Q job.remaining_burst) :
    rrDispatch Q s =
      { s with processes := s.processes.set i
                 { job with remaining_burst := job.remaining_burst - min Q job.remaining_burst,
                            finish_time := s.currentTime + min Q job.remaining_burst,
                            turnaround_time :=
                              s.currentTime + min Q job.remaining_burst - job.arrival_time,
                            waiting_time :=
                              s.currentTime + min Q job.remaining_burst - job.arrival_time
                                - job.cpu_time,
                            finished := true },
               ready_queue_rr := q,
               finish_queue_rr := s.finish_queue_rr ++ [i],
               currentTime := s.currentTime + min Q job.remaining_burst
                 + (if q ≠ [] then SWITCH_TIME else 0),
               total_switch_time := s.total_switch_time
                 + (if q ≠ [] then SWITCH_TIME else 0) } := by
  by_cases hne : q = []
  · simp [rrDispatch, hq, hjob, hrem, chargeSwitch, hne]
  · simp [rrDispatch, hq, hjob, hrem, chargeSwitch, hne]

/-! ## Preservation of the invariant -/

theorem RRCore.head_lt {M : Int} {s : RRState} (h : RRCore M s) {i : Nat} {q : List Nat}
    (hq : s.ready_queue_rr = i :: q) : i < s.nextProcessToCheck := by
  have hmem : i ∈ s.ready_queue_rr ++ s.finish_queue_rr := by simp [hq]
  exact List.mem_range.mp ((h.perm.mem_iff).mp hmem)

theorem RRCore.head_job {M : Int} {s : RRState} (h : RRCore M s) {i : Nat} {q : List Nat}
    (hq : s.ready_queue_rr = i :: q) : ∃ job, s.processes[i]? = some job := by
  have hlt := h.head_lt hq
  have hle := h.next_le
  exact ⟨s.processes[i], List.getElem?_eq_getElem (by omega)⟩

theorem RRCore.head_not_finished {M : Int} {s : RRState} (h : RRCore M s) {i : Nat}
    {q : List Nat} (hq : s.ready_queue_rr = i :: q) : i ∉ s.finish_queue_rr := by
  have hnd : (s.ready_queue_rr ++ s.finish_queue_rr).Nodup :=
    (h.perm.nodup_iff).mpr (List.nodup_range _)
  rw [hq] at hnd
  intro hmem
  have := (List.nodup_cons.mp hnd).1
  exact this (List.mem_append_right _ hmem)

theorem rrDispatch_core (Q M : Int) (hQ : 0 < Q) (s : RRState) (h : RRCore M s) :
    RRCore M (rrDispatch Q s) := by
  have hsw : SWITCH_TIME = 2 := rfl
  cases hq : s.ready_queue_rr with
  | nil =>
    rw [rrDispatch_idle Q s hq]
    refine ⟨h.next_le, h.perm, h.rem_bounds, h.arr_le, ?_, h.done, h.fresh⟩
    intro i hi
    simp only [hq, List.not_mem_nil] at hi
  | cons i q =>
    obtain ⟨job, hjob⟩ := h.head_job hq
    have hb := h.rem_bounds i job hjob
    have harr := h.arr_le i job hjob
    have hrdy := h.ready i (by simp [hq]) job hjob
    have hlt := h.head_lt hq
    have hnf := h.head_not_finished hq
    by_cases hrem : 0 < job.remaining_burst - min Q job.remaining_burst
    · rw [rrDispatch_preempt Q s i q job hq hjob hrem]
      refine ⟨?_, ?_, ?_, ?_, ?_, ?_, ?_⟩
      · simpa using h.next_le
      · have := h.perm
        rw [hq] at this
        refine List.Perm.trans ?_ this
        simp
      · intro j p hp
        rcases getElem?_set_cases _ _ _ _ _ hp with ⟨_, hpx⟩ | ⟨_, hpo⟩
        · subst hpx
          dsimp only
          omega
        · exact h.rem_bounds j p hpo
      · intro j p hp
        rcases getElem?_set_cases _ _ _ _ _ hp with ⟨_, hpx⟩ | ⟨_, hpo⟩
        · subst hpx; exact harr
        · exact h.arr_le j p hpo
      · intro j hj p hp
        rcases getElem?_set_cases _ _ _ _ _ hp with ⟨_, hpx⟩ | ⟨hji, hpo⟩
        · subst hpx
          dsimp only
          omega
        · have hjq : j ∈ s.ready_queue_rr := by
            rw [hq]
            rcases List.mem_append.mp hj with h1 | h1
            · exact List.mem_cons_of_mem _ h1
            · simp only [List.mem_singleton] at h1
              exact absurd h1 hji
          have := h.ready j hjq p hpo
          dsimp only
          omega
      · intro j hj p hp
        rcases getElem?_set_cases _ _ _ _ _ hp with ⟨hji, _⟩ | ⟨_, hpo⟩
        · subst hji
          exact absurd hj hnf
        · exact h.done j hj p hpo
      · intro j p hj hp
        rcases getElem?_set_cases _ _ _ _ _ hp with ⟨hji, _⟩ | ⟨_, hpo⟩
        · dsimp only at hj
          omega
        · exact h.fresh j p hj hpo
    · rw [rrDispatch_finish Q s i q job hq hjob hrem]
      have hsw0 : (0 : Int) ≤ (if q ≠ [] then SWITCH_TIME else 0) := by
        split <;> simp [hsw]
      refine ⟨?_, ?_, ?_, ?_, ?_, ?_, ?_⟩
      · simpa using h.next_le
      · have := h.perm
        rw [hq] at this
        refine List.Perm.trans ?_ this
        have h1 : (q ++ (s.finish_queue_rr ++ [i])).Perm (q ++ (i :: s.finish_queue_rr)) :=
          List.Perm.append_left q (by simp)
        exact h1.trans List.perm_middle
      · intro j p hp
        rcases getElem?_set_cases _ _ _ _ _ hp with ⟨_, hpx⟩ | ⟨_, hpo⟩
        · subst hpx
          dsimp only
          omega
        · exact h.rem_bounds j p hpo
      · intro j p hp
        rcases getElem?_set_cases _ _ _ _ _ hp with ⟨_, hpx⟩ | ⟨_, hpo⟩
        · subst hpx; exact harr
        · exact h.arr_le j p hpo
      · intro j hj p hp
        rcases getElem?_set_cases _ _ _ _ _ hp with ⟨_, hpx⟩ | ⟨hji, hpo⟩
        · subst hpx
          dsimp only
          omega
        · have hjq : j ∈ s.ready_queue_rr := by
            rw [hq]; exact List.mem_cons_of_mem _ hj
          have := h.ready j hjq p hpo
          dsimp only
          omega
      · intro j hj p hp
        rcases getElem?_set_cases _ _ _ _ _ hp with ⟨_, hpx⟩ | ⟨hji, hpo⟩
        · subst hpx
          refine ⟨rfl, ?_, rfl, rfl, ?_⟩
          · dsimp only; omega
          · dsimp only; omega
        · have hjf : j ∈ s.finish_queue_rr := by
            rcases List.mem_append.mp hj with h1 | h1
            · exact h1
            · simp only [List.mem_singleton] at h1
              exact absurd h1 hji
          exact h.done j hjf p hpo
      · intro j p hj hp
        rcases getElem?_set_cases _ _ _ _ _ hp with ⟨hji, _⟩ | ⟨_, hpo⟩
        · dsimp only at hj
          omega
        · exact h.fresh j p hj hpo

theorem runAdmission_inv (M : Int) (s : RRState) (h : RRCore M s) : RRInv M (runAdmission s) := by
  obtain ⟨k, hk, heq, hlt, hge⟩ := runAdmission_spec s
  have hle := h.next_le
  rw [heq]
  refine ⟨⟨?_, ?_, h.rem_bounds, h.arr_le, ?_, h.done, ?_⟩, ?_⟩
  · dsimp only
    omega
  · dsimp only
    have h1 : List.range (s.nextProcessToCheck + k)
        = List.range s.nextProcessToCheck ++ List.range' s.nextProcessToCheck k := by
      rw [List.range_eq_range', List.range_eq_range']
      have := List.range'_append 0 s.nextProcessToCheck k 1
      simp only [Nat.zero_add, Nat.one_mul] at this
      rw [this, Nat.add_comm]
    rw [h1]
    have h2 : (s.ready_queue_rr ++ List.range' s.nextProcessToCheck k ++ s.finish_queue_rr).Perm
        (s.ready_queue_rr ++ s.finish_queue_rr ++ List.range' s.nextProcessToCheck k) := by
      rw [List.append_assoc, List.append_assoc]
      exact List.Perm.append_left _ List.perm_append_comm
    exact h2.trans (List.Perm.append_right _ h.perm)
  · intro j hj p hp
    dsimp only at hj hp ⊢
    rcases List.mem_append.mp hj with h1 | h1
    · exact h.ready j h1 p hp
    · obtain ⟨h2, h3⟩ := List.mem_range'_1.mp h1
      have ha := hlt j p h2 h3 hp
      have hf := h.fresh j p h2 hp
      omega
  · intro j p hj hp
    dsimp only at hj hp
    exact h.fresh j p (by omega) hp
  · intro p hp
    dsimp only at hp ⊢
    exact hge p hp

theorem runAdmission_measure (M : Int) (s : RRState)
    (hle : s.nextProcessToCheck ≤ s.processes.length) :
    rrMeasure M (runAdmission s) = rrMeasure M s := by
  obtain ⟨k, hk, heq, _, _⟩ := runAdmission_spec s
  rw [heq]
  simp only [rrMeasure, List.length_append, List.length_range']
  omega

theorem rrDispatch_measure (Q M : Int) (hQ : 0 < Q) (s : RRState) (h : RRInv M s)
    (hc : s.finish_queue_rr.length < s.processes.length) :
    rrMeasure M (rrDispatch Q s) < rrMeasure M s := by
  have hsw : SWITCH_TIME = 2 := rfl
  obtain ⟨hcore, hpend⟩ := h
  cases hq : s.ready_queue_rr with
  | nil =>
    rw [rrDispatch_idle Q s hq]
    have hlen := hcore.perm.length_eq
    simp only [hq, List.nil_append, List.length_range] at hlen
    have hnext : s.nextProcessToCheck < s.processes.length := by omega
    have hp : s.processes[s.nextProcessToCheck]? = some s.processes[s.nextProcessToCheck] :=
      List.getElem?_eq_getElem hnext
    have h1 := hpend _ hp
    have h2 := hcore.arr_le _ _ hp
    simp only [rrMeasure, hq]
    omega
  | cons i q =>
    obtain ⟨job, hjob⟩ := hcore.head_job hq
    have hb := hcore.rem_bounds i job hjob
    by_cases hrem : 0 < job.remaining_burst - min Q job.remaining_burst
    · rw [rrDispatch_preempt Q s i q job hq hjob hrem]
      have hsum := sum_map_set (fun p => p.remaining_burst.toNat) s.processes i job
        { job with remaining_burst := job.remaining_burst - min Q job.remaining_burst } hjob
      simp only [rrMeasure, hq, List.length_set, List.length_append, List.length_cons,
        List.length_nil]
      dsimp only at hsum
      omega
    · rw [rrDispatch_finish Q s i q job hq hjob hrem]
      have hsw0 : (0 : Int) ≤ (if q ≠ [] then SWITCH_TIME else 0) := by
        split <;> simp [hsw]
      have hsum := sum_map_set (fun p => p.remaining_burst.toNat) s.processes i job
        { job with remaining_burst := job.remaining_burst - min Q job.remaining_burst,
                   finish_time := s.currentTime + min Q job.remaining_burst,
                   turnaround_time :=
                     s.currentTime + min Q job.remaining_burst - job.arrival_time,
                   waiting_time :=
                     s.currentTime + min Q job.remaining_burst - job.arrival_time
                       - job.cpu_time,
                   finished := true } hjob
      simp only [rrMeasure, hq, List.length_set, List.length_cons]
      dsimp only at hsum
      omega

theorem rrStep_inv (Q M : Int) (hQ : 0 < Q) (s : RRState) (h : RRInv M s) :
    RRInv M (rrStep Q s) :=
  runAdmission_inv M _ (rrDispatch_core Q M hQ s h.1)

theorem rrStep_measure (Q M : Int) (hQ : 0 < Q) (s : RRState) (h : RRInv M s)
    (hc : s.finish_queue_rr.length < s.processes.length) :
    rrMeasure M (rrStep Q s) < rrMeasure M s := by
  unfold rrStep
  rw [runAdmission_measure M _ (rrDispatch_core Q M hQ s h.1).next_le]
  exact rrDispatch_measure Q M hQ s h hc

/-! ## The dispatch loop as a whole -/

theorem rrLoop_inv (Q M : Int) (hQ : 0 < Q) :
    ∀ (fuel : Nat) (s r : RRState), RRInv M s → rrLoop Q fuel s = some r →
      RRInv M r ∧ ¬ r.finish_queue_rr.length < r.processes.length := by
  intro fuel
  induction fuel with
  | zero =>
    intro s r h hr
    by_cases hc : s.finish_queue_rr.length < s.processes.length
    · simp [rrLoop, hc] at hr
    · simp only [rrLoop, if_neg hc, Option.some.injEq] at hr
      subst hr
      exact ⟨h, hc⟩
  | succ n ih =>
    intro s r h hr
    by_cases hc : s.finish_queue_rr.length < s.processes.length
    · simp only [rrLoop, if_pos hc] at hr
      exact ih _ r (rrStep_inv Q M hQ s h) hr
    · simp only [rrLoop, if_neg hc, Option.some.injEq] at hr
      subst hr
      exact ⟨h, hc⟩

theorem rrLoop_terminates (Q M : Int) (hQ : 0 < Q) :
    ∀ (fuel : Nat) (s : RRState), RRInv M s → rrMeasure M s ≤ fuel →
      ∃ r, rrLoop Q fuel s = some r := by
  intro fuel
  induction fuel with
  | zero =>
    intro s h hm
    by_cases hc : s.finish_queue_rr.length < s.processes.length
    · have := rrStep_measure Q M hQ s h hc
      omega
    · exact ⟨s, by simp [rrLoop, hc]⟩
  | succ n ih =>
    intro s h hm
    by_cases hc : s.finish_queue_rr.length < s.processes.length
    · have hlt := rrStep_measure Q M hQ s h hc
      obtain ⟨r, hr⟩ := ih (rrStep Q s) (rrStep_inv Q M hQ s h) (by omega)
      exact ⟨r, by simp only [rrLoop, if_pos hc]; exact hr⟩
    · exact ⟨s, by simp [rrLoop, hc]⟩

theorem rrLoop_mono (Q : Int) :
    ∀ (fuel : Nat) (s r : RRState), rrLoop Q fuel s = some r →
      ∀ fuel1, fuel ≤ fuel1 → rrLoop Q fuel1 s = some r := by
  intro fuel
  induction fuel with
  | zero =>
    intro s r hr fuel1 _
    by_cases hc : s.finish_queue_rr.length < s.processes.length
    · simp [rrLoop, hc] at hr
    · simp only [rrLoop, if_neg hc] at hr
      cases fuel1 <;> simp only [rrLoop, if_neg hc] <;> exact hr
  | succ n ih =>
    intro s r hr fuel1 hle
    by_cases hc : s.finish_queue_rr.length < s.processes.length
    · simp only [rrLoop, if_pos hc] at hr
      cases fuel1 with
      | zero => omega
      | succ m =>
        simp only [rrLoop, if_pos hc]
        exact ih _ r hr m (by omega)
    · simp only [rrLoop, if_neg hc] at hr
      cases fuel1 <;> simp only [rrLoop, if_neg hc] <;> exact hr

theorem rrInv_exit (M : Int) (s : RRState) (h : RRInv M s)
    (hc : ¬ s.finish_queue_rr.length < s.processes.length) :
    s.ready_queue_rr = [] ∧ s.nextProcessToCheck = s.processes.length ∧
    ∀ p ∈ s.processes, RRDone p := by
  have hlen := h.1.perm.length_eq
  have hle := h.1.next_le
  simp only [List.length_append, List.length_range] at hlen
  have hr : s.ready_queue_rr = [] := List.length_eq_zero.mp (by omega)
  have hn : s.nextProcessToCheck = s.processes.length := by omega
  refine ⟨hr, hn, ?_⟩
  intro p hp
  obtain ⟨i, hi⟩ := List.mem_iff_getElem?.mp hp
  have hil : i < s.processes.length := by
    obtain ⟨hlt, _⟩ := List.getElem?_eq_some.mp hi
    exact hlt
  have hmem : i ∈ s.ready_queue_rr ++ s.finish_queue_rr :=
    (h.1.perm.mem_iff).mpr (List.mem_range.mpr (by omega))
  rw [hr, List.nil_append] at hmem
  exact h.1.done i hmem p hi

theorem rrInit_inv (sim : Simulator) (hs : ∀ p ∈ sim.processes, 0 ≤ p.cpu_time) :
    RRInv (maxArrival sim.processes) (rrInit sim) ∧
    rrMeasure (maxArrival sim.processes) (rrInit sim) = rrFuel sim := by
  have hget : ∀ (i : Nat) (p : Process), (sim.processes.map rrReset)[i]? = some p →
      ∃ p0 ∈ sim.processes, p = rrReset p0 := by
    intro i p hp
    rw [List.getElem?_map] at hp
    obtain ⟨p0, hp0, hpe⟩ := Option.map_eq_some'.mp hp
    exact ⟨p0, List.mem_iff_getElem?.mpr ⟨i, hp0⟩, hpe.symm⟩
  have hcore : RRCore (maxArrival sim.processes)
      { processes := sim.processes.map rrReset, ready_queue_rr := [], finish_queue_rr := [],
        total_switch_time := 0, currentTime := 0, nextProcessToCheck := 0 } := by
    refine ⟨Nat.zero_le _, by simp, ?_, ?_, ?_, ?_, ?_⟩
    · intro i p hp
      obtain ⟨p0, hp0, hpe⟩ := hget i p hp
      subst hpe
      have := hs p0 hp0
      simp only [rrReset]
      omega
    · intro i p hp
      obtain ⟨p0, hp0, hpe⟩ := hget i p hp
      subst hpe
      exact le_maxArrival _ p0 hp0
    · intro i hi
      simp at hi
    · intro i hi
      simp at hi
    · intro i p _ hp
      obtain ⟨p0, hp0, hpe⟩ := hget i p hp
      subst hpe
      rfl
  refine ⟨runAdmission_inv _ _ hcore, ?_⟩
  unfold rrInit
  rw [runAdmission_measure _ _ (Nat.zero_le _)]
  simp [rrMeasure, rrFuel, List.map_map, Function.comp_def, rrReset]

/-- Summary of the dispatch loop for a positive quantum and non-negative
service times: every budget from `rrFuel` on yields the same final state, in
which the ready queue is empty and every record is complete. -/
theorem rrLoop_total (Q : Int) (hQ : 0 < Q) (sim : Simulator)
    (hs : ∀ p ∈ sim.processes, 0 ≤ p.cpu_time) :
    ∃ r, (∀ fuel, rrFuel sim ≤ fuel → rrLoop Q fuel (rrInit sim) = some r) ∧
      r.ready_queue_rr = [] ∧ ∀ p ∈ r.processes, RRDone p := by
  obtain ⟨hinv, hm⟩ := rrInit_inv sim hs
  obtain ⟨r, hr⟩ := rrLoop_terminates Q _ hQ (rrFuel sim) (rrInit sim) hinv (by omega)
  obtain ⟨hri, hrc⟩ := rrLoop_inv Q _ hQ _ _ r hinv hr
  obtain ⟨h1, _, h3⟩ := rrInv_exit _ r hri hrc
  exact ⟨r, fun fuel hf => rrLoop_mono Q _ _ r hr fuel hf, h1, h3⟩

theorem rrLoop_result_done (Q : Int) (hQ : 0 < Q) (sim : Simulator)
    (hs : ∀ p ∈ sim.processes, 0 ≤ p.cpu_time) (fuel : Nat) (r : RRState)
    (hr : rrLoop Q fuel (rrInit sim) = some r) : ∀ p ∈ r.processes, RRDone p := by
  obtain ⟨hinv, _⟩ := rrInit_inv sim hs
  obtain ⟨hri, hrc⟩ := rrLoop_inv Q _ hQ _ _ r hinv hr
  exact (rrInv_exit _ r hri hrc).2.2

/-! ## The static description is never written -/

theorem map_static_set (l : List Process) :
    ∀ (i : Nat) (job x : Process), l[i]? = some job → x.static = job.static →
      (l.set i x).map Process.static = l.map Process.static := by
  induction l with
  | nil => intro i job x h; simp at h
  | cons a rest ih =>
    intro i job x h hx
    cases i with
    | zero =>
      simp only [List.getElem?_cons_zero, Option.some.injEq] at h
      subst h
      simp [hx]
    | succ n =>
      simp only [List.getElem?_cons_succ] at h
      simp [ih n job x h hx]

theorem rrDispatch_map_static (Q : Int) (s : RRState) :
    (rrDispatch Q s).processes.map Process.static = s.processes.map Process.static := by
  cases hq : s.ready_queue_rr with
  | nil => rw [rrDispatch_idle Q s hq]
  | cons i q =>
    cases hjob : s.processes[i]? with
    | none => simp [rrDispatch, hq, hjob]
    | some job =>
      by_cases hrem : 0 < job.remaining_burst - min Q job.remaining_burst
      · rw [rrDispatch_preempt Q s i q job hq hjob hrem]
        exact map_static_set _ i job _ hjob rfl
      · rw [rrDispatch_finish Q s i q job hq hjob hrem]
        exact map_static_set _ i job _ hjob rfl

theorem runAdmission_processes (s : RRState) : (runAdmission s).processes = s.processes := rfl

theorem rrStep_map_static (Q : Int) (s : RRState) :
    (rrStep Q s).processes.map Process.static = s.processes.map Process.static := by
  unfold rrStep
  rw [runAdmission_processes]
  exact rrDispatch_map_static Q s

theorem rrLoop_map_static (Q : Int) :
    ∀ (fuel : Nat) (s r : RRState), rrLoop Q fuel s = some r →
      r.processes.map Process.static = s.processes.map Process.static := by
  intro fuel
  induction fuel with
  | zero =>
    intro s r hr
    by_cases hc : s.finish_queue_rr.length < s.processes.length
    · simp [rrLoop, hc] at hr
    · simp only [rrLoop, if_neg hc, Option.some.injEq] at hr
      subst hr; rfl
  | succ n ih =>
    intro s r hr
    by_cases hc : s.finish_queue_rr.length < s.processes.length
    · simp only [rrLoop, if_pos hc] at hr
      rw [ih _ r hr, rrStep_map_static]
    · simp only [rrLoop, if_neg hc, Option.some.injEq] at hr
      subst hr; rfl

theorem rrInit_map_static (sim : Simulator) :
    (rrInit sim).processes.map Process.static = sim.processes.map Process.static := by
  unfold rrInit
  rw [runAdmission_processes]
  simp [List.map_map, Function.comp_def, rrReset, Process.static]

theorem runRR_eq_some (Q : Int) (fuel : Nat) (sim out : Simulator)
    (h : runRR Q fuel sim = some out) :
    ∃ r, rrLoop Q fuel (rrInit sim) = some r ∧ out = r.toSimulator := by
  unfold runRR at h
  obtain ⟨r, hr, hro⟩ := Option.map_eq_some'.mp h
  exact ⟨r, hr, hro.symm⟩

/-- For a positive quantum and non-negative service times `runRR` returns, with
the same result for every budget from `rrFuel` on; the ready queue is empty
and every record is complete in that result. -/
theorem runRR_total (Q : Int) (hQ : 0 < Q) (sim : Simulator)
    (hs : ∀ p ∈ sim.processes, 0 ≤ p.cpu_time) :
    ∃ out, (∀ fuel, rrFuel sim ≤ fuel → runRR Q fuel sim = some out) ∧
      out.ready_queue_rr = [] ∧
      out.processes.map Process.static = sim.processes.map Process.static ∧
      ∀ p ∈ out.processes, RRDone p := by
  obtain ⟨r, hr, hq, hd⟩ := rrLoop_total Q hQ sim hs
  refine ⟨r.toSimulator, ?_, hq, ?_, hd⟩
  · intro fuel hf
    simp [runRR, hr fuel hf]
  · have := rrLoop_map_static Q _ _ r (hr _ (le_refl _))
    rw [rrInit_map_static] at this
    exact this

/-! ## `runRR` reads only the static description -/

theorem rrReset_eq_new (p : Process) :
    rrReset p = Process.new p.static.1 p.static.2.1 p.static.2.2 := rfl

theorem map_rrReset_congr (l1 l2 : List Process)
    (h : l1.map Process.static = l2.map Process.static) :
    l1.map rrReset = l2.map rrReset := by
  have key : ∀ l : List Process, l.map rrReset
      = (l.map Process.static).map (fun t => Process.new t.1 t.2.1 t.2.2) := by
    intro l
    rw [List.map_map]
    exact List.map_congr_left (fun p _ => rrReset_eq_new p)
  rw [key l1, key l2, h]

theorem runRR_congr (Q : Int) (fuel : Nat) (s1 s2 : Simulator)
    (h : s1.processes.map Process.static = s2.processes.map Process.static) :
    runRR Q fuel s1 = runRR Q fuel s2 := by
  unfold runRR rrInit
  rw [map_rrReset_congr _ _ h]

theorem load_map_static (input : List (Int × Int × Int)) :
    (Simulator.load input).processes.map Process.static = input := by
  simp [Simulator.load, List.map_map, Function.comp_def, Process.static, Process.new]

theorem runFCFS_record_origin (sort : List Process → List Process)
    (hsort : StdSortContract sort) (sim : Simulator) :
    ∀ p ∈ (runFCFS sort sim).processes, p.finished = true ∧
      ∃ p0 ∈ sim.processes, p.static = p0.static ∧ p.remaining_burst = p0.remaining_burst := by
  intro p hp
  obtain ⟨p1, hp1, t, ht, _⟩ := fcfsLoop_record _ 0 0 p hp
  have hmem : p1 ∈ sim.processes.map fcfsReset := ((hsort _).1.mem_iff).mp hp1
  obtain ⟨p0, hp0, hpe⟩ := List.mem_map.mp hmem
  subst ht
  subst hpe
  exact ⟨rfl, p0, hp0, rfl, rfl⟩

/-! ## `runRR` on a single record -/

/-- The schedule recurrence in exact arithmetic: after `runFCFS` the records, in
their resulting order, satisfy: the first has
`execution_time = max 0 arrival_time`; every later record has
`execution_time = max (finish_time of its predecessor + SWITCH_TIME) arrival_time`;
every record has `finish_time = execution_time + cpu_time`.  For the workload
(arrival 0, service 5), (arrival 0, service 3), with `stdSort` (which leaves
two records of equal arrival time in place) and `SWITCH_TIME = 2`, process 1
gets `finish_time` 5 and process 2 gets `execution_time` 7 and `finish_time` 10.
The recurrence needs no assumption on the sorting function or on the sign of
the service times. -/
theorem runFCFS_schedule (sort : List Process → List Process) (s : Simulator) :
    (∀ p, (runFCFS sort s).processes.head? = some p →
        p.execution_time = max 0 p.arrival_time) ∧
    (∀ (i : Nat) (p q : Process), (runFCFS sort s).processes[i]? = some p →
        (runFCFS sort s).processes[i + 1]? = some q →
        q.execution_time = max (p.finish_time + SWITCH_TIME) q.arrival_time) ∧
    (∀ p ∈ (runFCFS sort s).processes, p.finish_time = p.execution_time + p.cpu_time) ∧
    SWITCH_TIME = 2 ∧
    (runFCFS stdSort (Simulator.load [(1, 0, 5), (2, 0, 3)])).processes.map
        (fun p => (p.process_number, p.execution_time, p.finish_time))
      = [(1, 0, 5), (2, 7, 10)] := by
  refine ⟨?_, ?_, ?_, rfl, by decide⟩
  · intro p hp
    exact fcfsLoop_head 0 0 _ p hp
  · intro i p q hp hq
    exact fcfsLoop_consecutive _ 0 0 i p q hp hq
  · intro p hp
    obtain ⟨p0, _, t, ht, _⟩ := fcfsLoop_record _ 0 0 p hp
    subst ht
    simp [fcfsRun]

/-- C2, as stated, fails.  `seventeenTied` holds 17 records, numbered 1 to 17 in
insertion order, that all arrive at time 0.  With `std::sort` as GNU libstdc++
implements it, `runFCFS` leaves them in the order
9, 17, 16, 15, 14, 13, 12, 11, 10, 1, 8, 7, 6, 5, 4, 3, 2 (the range is longer
than 16, so one partitioning step runs, and it swaps equal elements): the
records with `arrival_time = 0` do not keep their insertion order. -/
theorem runFCFS_tie_order_counterexample :
    (Simulator.load seventeenTied).processes.map Process.static
      = [(1, 0, 1), (2, 0, 1), (3, 0, 1), (4, 0, 1), (5, 0, 1), (6, 0, 1), (7, 0, 1),
         (8, 0, 1), (9, 0, 1), (10, 0, 1), (11, 0, 1), (12, 0, 1), (13, 0, 1), (14, 0, 1),
         (15, 0, 1), (16, 0, 1), (17, 0, 1)] ∧
    (runFCFS stdSort (Simulator.load seventeenTied)).processes.map
        (fun p => p.process_number)
      = [9, 17, 16, 15, 14, 13, 12, 11, 10, 1, 8, 7, 6, 5, 4, 3, 2] ∧
    ¬ (∀ a : Int,
        ((runFCFS stdSort (Simulator.load seventeenTied)).processes.filter
            (fun p => decide (p.arrival_time = a))).map Process.static
          = ((Simulator.load seventeenTied).processes.filter
            (fun p => decide (p.arrival_time = a))).map Process.static) := by
  refine ⟨by decide, by decide, ?_⟩
  intro h
  have h0 := h 0
  revert h0
  decide

/-- C2 (amended): for every sorting function meeting the `std::sort` contract,
after `runFCFS` the records are, as `(process_number, arrival_time, cpu_time)`
triples, a permutation of the input in ascending `arrival_time` order, and
their order is exactly the one the sort produced on the reset records (so the
order of records with equal `arrival_time` is whatever the sort leaves). -/
theorem runFCFS_sorted_perm (sort : List Process → List Process)
    (hsort : StdSortContract sort) (s : Simulator) :
    ((runFCFS sort s).processes.map Process.static).Perm (s.processes.map Process.static) ∧
    (runFCFS sort s).processes.Pairwise (fun a b => a.arrival_time ≤ b.arrival_time) ∧
    (runFCFS sort s).processes.map Process.static
      = (sort (s.processes.map fcfsReset)).map Process.static := by
  obtain ⟨hperm, hsorted⟩ := hsort (s.processes.map fcfsReset)
  have hmap : (runFCFS sort s).processes.map Process.static
      = (sort (s.processes.map fcfsReset)).map Process.static :=
    fcfsLoop_map_static _ 0 0
  have hreset : (s.processes.map fcfsReset).map Process.static
      = s.processes.map Process.static := by
    simp [List.map_map, Function.comp_def, fcfsReset, Process.static]
  refine ⟨?_, ?_, hmap⟩
  · rw [hmap, ← hreset]
    exact hperm.map _
  · have h1 : ((sort (s.processes.map fcfsReset)).map Process.static).Pairwise
        (fun x y : Int × Int × Int => x.2.1 ≤ y.2.1) := by
      rw [List.pairwise_map]
      refine List.Pairwise.imp ?_ hsorted
      intro a b hab
      simpa [arrivalLess, Process.static] using hab
    rw [← hmap, List.pairwise_map] at h1
    exact h1

/-- Evaluation of the amended C2 with insertion sort on a three-record workload. -/
theorem runFCFS_sorted_perm_witness :
    ((runFCFS insertionSortByArrival
        (Simulator.load [(1, 4, 5), (2, 0, 3), (3, 4, 1)])).processes.map Process.static).Perm
      ((Simulator.load [(1, 4, 5), (2, 0, 3), (3, 4, 1)]).processes.map Process.static) ∧
    (runFCFS insertionSortByArrival
        (Simulator.load [(1, 4, 5), (2, 0, 3), (3, 4, 1)])).processes.Pairwise
      (fun a b => a.arrival_time ≤ b.arrival_time) ∧
    (runFCFS insertionSortByArrival
        (Simulator.load [(1, 4, 5), (2, 0, 3), (3, 4, 1)])).processes.map Process.static
      = (insertionSortByArrival
          ((Simulator.load [(1, 4, 5), (2, 0, 3), (3, 4, 1)]).processes.map fcfsReset)).map
          Process.static :=
  runFCFS_sorted_perm insertionSortByArrival insertionSortByArrival_contract
    (Simulator.load [(1, 4, 5), (2, 0, 3), (3, 4, 1)])

/-- The record metrics in exact arithmetic: after `runFCFS` every record has
`finished = true`,
`waiting_time = execution_time - arrival_time ≥ 0`,
`turnaround_time = finish_time - arrival_time = waiting_time + cpu_time`, and
`finish_time ≥ arrival_time + cpu_time`. -/
theorem runFCFS_record_metrics (sort : List Process → List Process) (s : Simulator) :
    ∀ p ∈ (runFCFS sort s).processes,
      p.finished = true ∧
      p.waiting_time = p.execution_time - p.arrival_time ∧ 0 ≤ p.waiting_time ∧
      p.turnaround_time = p.finish_time - p.arrival_time ∧
      p.turnaround_time = p.waiting_time + p.cpu_time ∧
      p.arrival_time + p.cpu_time ≤ p.finish_time := by
  intro p hp
  obtain ⟨p0, _, t, ht, hle⟩ := fcfsLoop_record _ 0 0 p hp
  subst ht
  refine ⟨?_, ?_, ?_, ?_, ?_, ?_⟩ <;> simp only [fcfsRun] <;> omega

/-- Evaluation of the record metrics at the second record that `runFCFS` leaves for the
workload (arrival 0, service 5), (arrival 0, service 3), with insertion sort
as the sorting function. -/
theorem runFCFS_record_metrics_witness :
    fcfsRun 7 (Process.new 2 0 3)
        ∈ (runFCFS insertionSortByArrival (Simulator.load [(1, 0, 5), (2, 0, 3)])).processes ∧
      (fcfsRun 7 (Process.new 2 0 3)).finished = true ∧
      (fcfsRun 7 (Process.new 2 0 3)).waiting_time
        = (fcfsRun 7 (Process.new 2 0 3)).execution_time
          - (fcfsRun 7 (Process.new 2 0 3)).arrival_time ∧
      0 ≤ (fcfsRun 7 (Process.new 2 0 3)).waiting_time ∧
      (fcfsRun 7 (Process.new 2 0 3)).turnaround_time
        = (fcfsRun 7 (Process.new 2 0 3)).finish_time
          - (fcfsRun 7 (Process.new 2 0 3)).arrival_time ∧
      (fcfsRun 7 (Process.new 2 0 3)).turnaround_time
        = (fcfsRun 7 (Process.new 2 0 3)).waiting_time
          + (fcfsRun 7 (Process.new 2 0 3)).cpu_time ∧
      (fcfsRun 7 (Process.new 2 0 3)).arrival_time + (fcfsRun 7 (Process.new 2 0 3)).cpu_time
        ≤ (fcfsRun 7 (Process.new 2 0 3)).finish_time :=
  ⟨by decide,
    runFCFS_record_metrics insertionSortByArrival (Simulator.load [(1, 0, 5), (2, 0, 3)])
      (fcfsRun 7 (Process.new 2 0 3)) (by decide)⟩

/-! ## Claims about `runRR` -/

/-- The record metrics of `runRR` in exact arithmetic: for every `Q > 0` and
every workload with service times `≥ 0`, `runRR Q`
returns, and in the result of any terminating run every record satisfies
`waiting_time + cpu_time = turnaround_time`,
`turnaround_time = finish_time - arrival_time` and
`turnaround_time ≥ cpu_time`, so `waiting_time ≥ 0`. -/
theorem runRR_record_metrics (Q : Int) (hQ : 0 < Q) (sim : Simulator)
    (hs : ∀ p ∈ sim.processes, 0 ≤ p.cpu_time) :
    (∃ out, runRR Q (rrFuel sim) sim = some out) ∧
    ∀ (fuel : Nat) (out : Simulator), runRR Q fuel sim = some out →
      ∀ p ∈ out.processes,
        p.waiting_time + p.cpu_time = p.turnaround_time ∧
        p.turnaround_time = p.finish_time - p.arrival_time ∧
        p.cpu_time ≤ p.turnaround_time ∧ 0 ≤ p.waiting_time := by
  refine ⟨?_, ?_⟩
  · obtain ⟨out, hout, _⟩ := runRR_total Q hQ sim hs
    exact ⟨out, hout _ (le_refl _)⟩
  · intro fuel out hout p hp
    obtain ⟨r, hr, hro⟩ := runRR_eq_some Q fuel sim out hout
    subst hro
    obtain ⟨_, _, h3, h4, h5⟩ := rrLoop_result_done Q hQ sim hs fuel r hr p hp
    refine ⟨?_, h3, ?_, ?_⟩ <;> omega

/-- Evaluation of the record metrics of `runRR` for `Q = 4` on the workload (arrival 0, service 10),
(arrival 3, service 4). -/
theorem runRR_record_metrics_witness :
    (∃ out, runRR 4 (rrFuel (Simulator.load [(1, 0, 10), (2, 3, 4)]))
        (Simulator.load [(1, 0, 10), (2, 3, 4)]) = some out) ∧
    ∀ (fuel : Nat) (out : Simulator),
      runRR 4 fuel (Simulator.load [(1, 0, 10), (2, 3, 4)]) = some out →
      ∀ p ∈ out.processes,
        p.waiting_time + p.cpu_time = p.turnaround_time ∧
        p.turnaround_time = p.finish_time - p.arrival_time ∧
        p.cpu_time ≤ p.turnaround_time ∧ 0 ≤ p.waiting_time :=
  runRR_record_metrics 4 (by decide) (Simulator.load [(1, 0, 10), (2, 3, 4)]) (by decide)

/-- C4: for every `Q > 0` and every workload with service times `≥ 0`, whatever
the arrival times and their order, the dispatch loop of `runRR Q` terminates
(every iteration budget from `rrFuel` on gives the same result), and on exit
every record has `finished = true` and `remaining_burst = 0`, with its static
description unchanged.  Each dispatch takes `min Q remaining_burst`, which is at
most `Q`, off the remaining burst of the dispatched record and nothing off the
others. -/
theorem runRR_terminates (Q : Int) (hQ : 0 < Q) (sim : Simulator)
    (hs : ∀ p ∈ sim.processes, 0 ≤ p.cpu_time) :
    (∃ out, (∀ fuel, rrFuel sim ≤ fuel → runRR Q fuel sim = some out) ∧
      out.processes.map Process.static = sim.processes.map Process.static ∧
      ∀ p ∈ out.processes, p.finished = true ∧ p.remaining_burst = 0) ∧
    (∀ (s : RRState) (i : Nat) (q : List Nat) (job : Process),
      s.ready_queue_rr = i :: q → s.processes[i]? = some job →
      min Q job.remaining_burst ≤ Q ∧
      (∃ job1, (rrDispatch Q s).processes[i]? = some job1 ∧
        job1.remaining_burst = job.remaining_burst - min Q job.remaining_burst) ∧
      ∀ j, j ≠ i → (rrDispatch Q s).processes[j]? = s.processes[j]?) := by
  refine ⟨?_, ?_⟩
  · obtain ⟨out, hout, _, hst, hd⟩ := runRR_total Q hQ sim hs
    exact ⟨out, hout, hst, fun p hp => ⟨(hd p hp).1, (hd p hp).2.1⟩⟩
  · intro s i q job hq hjob
    have hlt : i < s.processes.length := (List.getElem?_eq_some.mp hjob).1
    refine ⟨min_le_left _ _, ?_, ?_⟩
    · by_cases hrem : 0 < job.remaining_burst - min Q job.remaining_burst
      · rw [rrDispatch_preempt Q s i q job hq hjob hrem]
        exact ⟨_, List.getElem?_set_self hlt, rfl⟩
      · rw [rrDispatch_finish Q s i q job hq hjob hrem]
        exact ⟨_, List.getElem?_set_self hlt, rfl⟩
    · intro j hj
      by_cases hrem : 0 < job.remaining_burst - min Q job.remaining_burst
      · rw [rrDispatch_preempt Q s i q job hq hjob hrem]
        exact List.getElem?_set_ne (fun h => hj h.symm)
      · rw [rrDispatch_finish Q s i q job hq hjob hrem]
        exact List.getElem?_set_ne (fun h => hj h.symm)

/-- Evaluation of C4 for `Q = 4` on an unsorted workload with a zero service
time. -/
theorem runRR_terminates_witness :
    ∃ out, (∀ fuel, rrFuel (Simulator.load [(1, 5, 3), (2, 0, 9), (3, 1, 0)]) ≤ fuel →
        runRR 4 fuel (Simulator.load [(1, 5, 3), (2, 0, 9), (3, 1, 0)]) = some out) ∧
      out.processes.map Process.static
        = (Simulator.load [(1, 5, 3), (2, 0, 9), (3, 1, 0)]).processes.map Process.static ∧
      ∀ p ∈ out.processes, p.finished = true ∧ p.remaining_burst = 0 :=
  (runRR_terminates 4 (by decide) (Simulator.load [(1, 5, 3), (2, 0, 9), (3, 1, 0)])
    (by decide)).1

/-- C5, as stated, fails.  For `Q = 4` and the workload (arrival 0, service 10),
(arrival 3, service 4): when the loop is entered only index 0 is queued and
index 1 is not yet admitted; the first slice ends at clock 4, after record 1
has arrived, and record 0 is preempted with 6 units left.  After that
iteration the ready queue is `[0, 1]`, the preempted record first, and the next
iteration runs record 0 again (remaining bursts 2 and 4). -/
theorem rrStep_requeue_counterexample :
    (rrInit (Simulator.load [(1, 0, 10), (2, 3, 4)])).ready_queue_rr = [0] ∧
    (rrInit (Simulator.load [(1, 0, 10), (2, 3, 4)])).nextProcessToCheck = 1 ∧
    (rrInit (Simulator.load [(1, 0, 10), (2, 3, 4)])).currentTime + min 4 10 = 4 ∧
    (rrInit (Simulator.load [(1, 0, 10), (2, 3, 4)])).processes.map
        (fun p => (p.arrival_time, p.remaining_burst)) = [(0, 10), (3, 4)] ∧
    (rrStep 4 (rrInit (Simulator.load [(1, 0, 10), (2, 3, 4)]))).ready_queue_rr = [0, 1] ∧
    (rrStep 4 (rrInit (Simulator.load [(1, 0, 10), (2, 3, 4)]))).processes.map
        (fun p => p.remaining_burst) = [6, 4] ∧
    (rrStep 4 (rrStep 4 (rrInit (Simulator.load [(1, 0, 10), (2, 3, 4)])))).processes.map
        (fun p => p.remaining_burst) = [2, 4] := by
  decide

/-- C5 (amended): when a dispatched record `i` is preempted (burst left after its
slice), it is pushed to the tail of the ready queue at once, behind the
records already queued and ahead of every record not yet admitted.  The
admission loop runs afterwards, at the clock value reached after the slice and
the switch: the `k` records from the cursor on whose `arrival_time` is at most
that value are queued behind `i`, in index order, and the record at the new
cursor, if any, arrives later. -/
theorem rrStep_preempt_queue (Q : Int) (s : RRState) (i : Nat) (q : List Nat) (job : Process)
    (hq : s.ready_queue_rr = i :: q) (hjob : s.processes[i]? = some job)
    (hrem : 0 < job.remaining_burst - min Q job.remaining_burst) :
    ∃ k, (rrStep Q s).ready_queue_rr = q ++ [i] ++ List.range' s.nextProcessToCheck k ∧
      (rrStep Q s).nextProcessToCheck = s.nextProcessToCheck + k ∧
      (rrStep Q s).currentTime = s.currentTime + min Q job.remaining_burst + SWITCH_TIME ∧
      (∀ (j : Nat) (p : Process), s.nextProcessToCheck ≤ j → j < s.nextProcessToCheck + k →
        (rrStep Q s).processes[j]? = some p → p.arrival_time ≤ (rrStep Q s).currentTime) ∧
      (∀ p : Process, (rrStep Q s).processes[s.nextProcessToCheck + k]? = some p →
        (rrStep Q s).currentTime < p.arrival_time) := by
  obtain ⟨k, _, heq, hlt, hge⟩ := runAdmission_spec (rrDispatch Q s)
  have hd := rrDispatch_preempt Q s i q job hq hjob hrem
  have hn : (rrDispatch Q s).nextProcessToCheck = s.nextProcessToCheck := by rw [hd]
  have hr : (rrDispatch Q s).ready_queue_rr = q ++ [i] := by rw [hd]
  have hc : (rrDispatch Q s).currentTime
      = s.currentTime + min Q job.remaining_burst + SWITCH_TIME := by rw [hd]
  rw [hn] at hlt hge
  refine ⟨k, ?_, ?_, ?_, ?_, ?_⟩
  · unfold rrStep; rw [heq]; simp only [hr, hn]
  · unfold rrStep; rw [heq]; simp only [hn]
  · unfold rrStep; rw [heq]; exact hc
  · intro j p h1 h2 hp
    unfold rrStep at hp ⊢
    rw [heq] at hp ⊢
    exact hlt j p h1 h2 hp
  · intro p hp
    unfold rrStep at hp ⊢
    rw [heq] at hp ⊢
    exact hge p hp

/-- Evaluation of the amended C5 at the state in which `runRR 4` enters its loop
on (arrival 0, service 10), (arrival 3, service 4). -/
theorem rrStep_preempt_queue_witness :
    ∃ k, (rrStep 4 (rrInit (Simulator.load [(1, 0, 10), (2, 3, 4)]))).ready_queue_rr
        = [] ++ [0] ++ List.range'
            (rrInit (Simulator.load [(1, 0, 10), (2, 3, 4)])).nextProcessToCheck k ∧
      (rrStep 4 (rrInit (Simulator.load [(1, 0, 10), (2, 3, 4)]))).nextProcessToCheck
        = (rrInit (Simulator.load [(1, 0, 10), (2, 3, 4)])).nextProcessToCheck + k ∧
      (rrStep 4 (rrInit (Simulator.load [(1, 0, 10), (2, 3, 4)]))).currentTime
        = (rrInit (Simulator.load [(1, 0, 10), (2, 3, 4)])).currentTime
          + min 4 (Process.new 1 0 10).remaining_burst + SWITCH_TIME ∧
      (∀ (j : Nat) (p : Process),
        (rrInit (Simulator.load [(1, 0, 10), (2, 3, 4)])).nextProcessToCheck ≤ j →
        j < (rrInit (Simulator.load [(1, 0, 10), (2, 3, 4)])).nextProcessToCheck + k →
        (rrStep 4 (rrInit (Simulator.load [(1, 0, 10), (2, 3, 4)]))).processes[j]? = some p →
        p.arrival_time ≤ (rrStep 4 (rrInit (Simulator.load [(1, 0, 10), (2, 3, 4)]))).currentTime) ∧
      (∀ p : Process,
        (rrStep 4 (rrInit (Simulator.load [(1, 0, 10), (2, 3, 4)]))).processes[
          (rrInit (Simulator.load [(1, 0, 10), (2, 3, 4)])).nextProcessToCheck + k]? = some p →
        (rrStep 4 (rrInit (Simulator.load [(1, 0, 10), (2, 3, 4)]))).currentTime
          < p.arrival_time) :=
  rrStep_preempt_queue 4 (rrInit (Simulator.load [(1, 0, 10), (2, 3, 4)])) 0 []
    (Process.new 1 0 10) (by decide) (by decide) (by decide)

/-- C8, as stated, fails.  On the workload (process 1, arrival 5, service 3),
(process 2, arrival 0, service 3) with `Q = 4`, `runRR` after `runFCFS` gives
process 2 `finish_time` 3 and `total_switch_time` 0, while `runRR` on the
freshly loaded workload gives process 2 `finish_time` 13 and
`total_switch_time` 2.  The arrival times differ, so every sorting function
meeting `StdSortContract` orders the two records as insertion sort does. -/
theorem runRR_after_runFCFS_counterexample :
    (runRR 4 13 (runFCFS insertionSortByArrival
        (Simulator.load [(1, 5, 3), (2, 0, 3)]))).map
      (fun s => (s.processes.map (fun p =>
        (p.process_number, p.finish_time, p.waiting_time, p.turnaround_time)),
        s.total_switch_time))
      = some ([(2, 3, 0, 3), (1, 8, 0, 3)], 0) ∧
    (runRR 4 13 (Simulator.load [(1, 5, 3), (2, 0, 3)])).map
      (fun s => (s.processes.map (fun p =>
        (p.process_number, p.finish_time, p.waiting_time, p.turnaround_time)),
        s.total_switch_time))
      = some ([(1, 8, 0, 3), (2, 13, 10, 13)], 2) := by
  constructor <;> decide

/-- C8 (amended): for every quantum and every workload, `runRR` after `runFCFS`
gives the same result (every record field, both queues, `total_switch_time`) as
`runRR` on the workload freshly loaded in the order in which the sort of
`runFCFS` left the records: the RR pass observes the record order left by the
FCFS pass and nothing else.  When the sort leaves the order of the records
unchanged, that is the result of `runRR` on the workload itself. -/
theorem runRR_after_runFCFS (sort : List Process → List Process) (Q : Int) (fuel : Nat)
    (sim : Simulator) :
    runRR Q fuel (runFCFS sort sim)
      = runRR Q fuel
          (Simulator.load ((sort (sim.processes.map fcfsReset)).map Process.static)) ∧
    (sort (sim.processes.map fcfsReset) = sim.processes.map fcfsReset →
      runRR Q fuel (runFCFS sort sim) = runRR Q fuel sim) := by
  have hmap : (runFCFS sort sim).processes.map Process.static
      = (sort (sim.processes.map fcfsReset)).map Process.static :=
    fcfsLoop_map_static _ 0 0
  refine ⟨?_, ?_⟩
  · apply runRR_congr
    rw [hmap, load_map_static]
  · intro hkeep
    apply runRR_congr
    rw [hmap, hkeep]
    simp [List.map_map, Function.comp_def, fcfsReset, Process.static]

/-- Evaluation of the amended C8 on a workload that is loaded in arrival order. -/
theorem runRR_after_runFCFS_witness :
    runRR 4 20 (runFCFS insertionSortByArrival (Simulator.load [(1, 0, 10), (2, 3, 4)]))
      = runRR 4 20 (Simulator.load [(1, 0, 10), (2, 3, 4)]) :=
  (runRR_after_runFCFS insertionSortByArrival 4 20
    (Simulator.load [(1, 0, 10), (2, 3, 4)])).2 (by decide)

/-- C9, as stated, fails for `runFCFS`: on the freshly loaded workload
(arrival 0, service 5) the record ends with `finished = true` and
`remaining_burst = 5`.  A one-record range is left as it is by every sorting
function meeting `StdSortContract`. -/
theorem runFCFS_finished_remaining_counterexample :
    (runFCFS insertionSortByArrival (Simulator.load [(1, 0, 5)])).processes.map
        (fun p => (p.finished, p.remaining_burst, p.cpu_time)) = [(true, 5, 5)] ∧
    ¬ (∀ p ∈ (runFCFS insertionSortByArrival (Simulator.load [(1, 0, 5)])).processes,
        p.finished = decide (p.remaining_burst = 0)) := by
  decide

/-- C9 (amended): after `runRR Q` with `Q > 0` on a workload with service times
`≥ 0` every record has `finished = true` and `remaining_burst = 0`, hence
`finished = (remaining_burst = 0)` and `0 ≤ remaining_burst ≤ cpu_time`.  After
`runFCFS` every record has `finished = true` and the `remaining_burst` it had
before the pass (`runFCFS` never writes that field), so
`0 ≤ remaining_burst ≤ cpu_time` holds after the pass when it held before. -/
theorem finished_remaining_after_pass (sort : List Process → List Process)
    (hsort : StdSortContract sort) (Q : Int) (hQ : 0 < Q) (sim : Simulator)
    (hs : ∀ p ∈ sim.processes, 0 ≤ p.cpu_time) :
    (∃ out, (∀ fuel, rrFuel sim ≤ fuel → runRR Q fuel sim = some out) ∧
      ∀ p ∈ out.processes, p.finished = true ∧ p.remaining_burst = 0 ∧
        p.finished = decide (p.remaining_burst = 0) ∧
        0 ≤ p.remaining_burst ∧ p.remaining_burst ≤ p.cpu_time) ∧
    (∀ p ∈ (runFCFS sort sim).processes, p.finished = true ∧
      ∃ p0 ∈ sim.processes, p.static = p0.static ∧ p.remaining_burst = p0.remaining_burst) ∧
    ((∀ p0 ∈ sim.processes, 0 ≤ p0.remaining_burst ∧ p0.remaining_burst ≤ p0.cpu_time) →
      ∀ p ∈ (runFCFS sort sim).processes,
        0 ≤ p.remaining_burst ∧ p.remaining_burst ≤ p.cpu_time) := by
  refine ⟨?_, runFCFS_record_origin sort hsort sim, ?_⟩
  · obtain ⟨out, hout, _, hst, hd⟩ := runRR_total Q hQ sim hs
    refine ⟨out, hout, ?_⟩
    intro p hp
    obtain ⟨h1, h2, _, _, _⟩ := hd p hp
    have hmem : p.static ∈ sim.processes.map Process.static := by
      rw [← hst]; exact List.mem_map_of_mem _ hp
    obtain ⟨p0, hp0, hpe⟩ := List.mem_map.mp hmem
    have hc : p.cpu_time = p0.cpu_time := by
      have := congrArg (fun t : Int × Int × Int => t.2.2) hpe
      exact this.symm
    have := hs p0 hp0
    refine ⟨h1, h2, ?_, ?_, ?_⟩
    · simp [h1, h2]
    · omega
    · omega
  · intro hb p hp
    obtain ⟨_, p0, hp0, hst, hr⟩ := runFCFS_record_origin sort hsort sim p hp
    have hc : p.cpu_time = p0.cpu_time := congrArg (fun t : Int × Int × Int => t.2.2) hst
    have := hb p0 hp0
    omega

/-- Evaluation of the amended C9 for `Q = 4` on (arrival 0, service 10),
(arrival 3, service 4), with insertion sort as the sorting function. -/
theorem finished_remaining_after_pass_witness :
    (∃ out, (∀ fuel, rrFuel (Simulator.load [(1, 0, 10), (2, 3, 4)]) ≤ fuel →
        runRR 4 fuel (Simulator.load [(1, 0, 10), (2, 3, 4)]) = some out) ∧
      ∀ p ∈ out.processes, p.finished = true ∧ p.remaining_burst = 0 ∧
        p.finished = decide (p.remaining_burst = 0) ∧
        0 ≤ p.remaining_burst ∧ p.remaining_burst ≤ p.cpu_time) ∧
    (∀ p ∈ (runFCFS insertionSortByArrival
        (Simulator.load [(1, 0, 10), (2, 3, 4)])).processes, p.finished = true ∧
      ∃ p0 ∈ (Simulator.load [(1, 0, 10), (2, 3, 4)]).processes,
        p.static = p0.static ∧ p.remaining_burst = p0.remaining_burst) ∧
    ((∀ p0 ∈ (Simulator.load [(1, 0, 10), (2, 3, 4)]).processes,
        0 ≤ p0.remaining_burst ∧ p0.remaining_burst ≤ p0.cpu_time) →
      ∀ p ∈ (runFCFS insertionSortByArrival
          (Simulator.load [(1, 0, 10), (2, 3, 4)])).processes,
        0 ≤ p.remaining_burst ∧ p.remaining_burst ≤ p.cpu_time) :=
  finished_remaining_after_pass insertionSortByArrival insertionSortByArrival_contract 4
    (by decide) (Simulator.load [(1, 0, 10), (2, 3, 4)]) (by decide)

/-! ## Totals of an FCFS pass -/

theorem fcfsLoop_snd (l : List Process) :
    ∀ (c sw : Int), (fcfsLoop c sw l).2 = sw + SWITCH_TIME * ((l.length - 1 : Nat) : Int) := by
  induction l with
  | nil => intro c sw; simp [fcfsLoop]
  | cons p rest ih =>
    intro c sw
    by_cases h : rest = []
    · subst h; simp [fcfsLoop]
    · have hlen : 1 ≤ rest.length := List.length_pos.mpr h
      simp only [fcfsLoop, if_pos h, ih, List.length_cons, Nat.add_sub_cancel]
      have : ((rest.length - 1 : Nat) : Int) = (rest.length : Int) - 1 := by omega
      rw [this]; ring

theorem displayTotals_foldl (l : List Process) :
    ∀ t : Totals,
      (l.foldl
        (fun t p =>
          { total_time := max t.total_time p.finish_time,
            total_waiting_time := t.total_waiting_time + p.waiting_time,
            total_execution_time := t.total_execution_time + p.cpu_time }) t)
      = { total_time := l.foldl (fun m p => max m p.finish_time) t.total_time,
          total_waiting_time := t.total_waiting_time + (l.map (fun p => p.waiting_time)).sum,
          total_execution_time := t.total_execution_time + (l.map (fun p => p.cpu_time)).sum } := by
  induction l with
  | nil => intro t; simp
  | cons p rest ih =>
    intro t
    simp only [List.foldl_cons, ih, List.map_cons, List.sum_cons]
    simp [add_assoc]

theorem foldl_max_finish (l : List Process) :
    ∀ (m F : Int), m ≤ F → (∀ p ∈ l, p.finish_time ≤ F) →
      (m = F ∨ ∃ p ∈ l, p.finish_time = F) →
      l.foldl (fun m p => max m p.finish_time) m = F := by
  induction l with
  | nil =>
    intro m F _ _ h
    rcases h with h | ⟨p, hp, _⟩
    · simpa using h
    · simp at hp
  | cons a rest ih =>
    intro m F hm hall h
    simp only [List.foldl_cons]
    have ha := hall a (List.mem_cons_self _ _)
    apply ih
    · exact max_le hm ha
    · intro p hp; exact hall p (List.mem_cons_of_mem _ hp)
    · rcases h with h | ⟨p, hp, hpF⟩
      · left; subst h; exact max_eq_left ha
      · rcases List.mem_cons.mp hp with h1 | h1
        · left; subst h1; rw [hpF]; exact max_eq_right hm
        · right; exact ⟨p, h1, hpF⟩

/-- The maximum formed by `displayResults` is `F` when `F ≥ 0` bounds every
`finish_time` and is attained by a record. -/
theorem displayTotals_time (l : List Process) (F : Int) (hF : 0 ≤ F)
    (hall : ∀ p ∈ l, p.finish_time ≤ F) (hex : ∃ p ∈ l, p.finish_time = F) :
    (displayTotals l).total_time = F := by
  unfold displayTotals
  rw [displayTotals_foldl]
  exact foldl_max_finish l 0 F hF hall (Or.inr hex)

theorem fcfsIdleGaps_congr (l1 : List Process) :
    ∀ (l2 : List Process) (c : Int), l1.map Process.static = l2.map Process.static →
      fcfsIdleGaps c l1 = fcfsIdleGaps c l2 := by
  induction l1 with
  | nil =>
    intro l2 c h
    cases l2 with
    | nil => rfl
    | cons b r => simp at h
  | cons a rest ih =>
    intro l2 c h
    cases l2 with
    | nil => simp at h
    | cons b r =>
      simp only [List.map_cons, List.cons.injEq] at h
      obtain ⟨hab, hrest⟩ := h
      have harr : a.arrival_time = b.arrival_time :=
        congrArg (fun t : Int × Int × Int => t.2.1) hab
      have hcpu : a.cpu_time = b.cpu_time :=
        congrArg (fun t : Int × Int × Int => t.2.2) hab
      have hnil : rest = [] ↔ r = [] := by
        constructor
        · intro h1; subst h1
          simpa using hrest.symm
        · intro h1; subst h1
          simpa using hrest
      by_cases hr : rest = []
      · have hr2 := hnil.mp hr
        subst hr; subst hr2
        simp [fcfsIdleGaps, harr]
      · have hr2 : r ≠ [] := fun h1 => hr (hnil.mpr h1)
        simp only [fcfsIdleGaps, if_pos hr, if_pos hr2, fcfsDispatchTime_eq_max, harr, hcpu]
        rw [ih r _ hrest]

theorem fcfsIdleGaps_zero (l : List Process) :
    ∀ c : Int, (∀ p ∈ l, p.arrival_time ≤ c) → (∀ p ∈ l, 0 ≤ p.cpu_time) →
      fcfsIdleGaps c l = 0 := by
  induction l with
  | nil => intro c _ _; rfl
  | cons a rest ih =>
    intro c harr hcpu
    have ha := harr a (List.mem_cons_self _ _)
    have hc := hcpu a (List.mem_cons_self _ _)
    have hsw : SWITCH_TIME = 2 := rfl
    have ht : fcfsDispatchTime c a = c := by
      rw [fcfsDispatchTime_eq_max]; exact max_eq_left ha
    have hgap : max 0 (a.arrival_time - c) = 0 := max_eq_left (by omega)
    have hrest : ∀ c1, c ≤ c1 → fcfsIdleGaps c1 rest = 0 := by
      intro c1 hc1
      apply ih
      · intro p hp; exact le_trans (harr p (List.mem_cons_of_mem _ hp)) hc1
      · intro p hp; exact hcpu p (List.mem_cons_of_mem _ hp)
    by_cases hr : rest = []
    · simp only [fcfsIdleGaps, if_neg (not_not.mpr hr), ht, hgap]
      rw [hrest _ (by omega)]; rfl
    · simp only [fcfsIdleGaps, if_pos hr, ht, hgap]
      rw [hrest _ (by omega)]; rfl

/-- Clock at the end of the FCFS loop started at `c`: it is the `finish_time` of
the last record, bounds every `finish_time`, and is the start value plus
service, switches and idle gaps. -/
theorem fcfsLoop_last_finish (l : List Process) :
    ∀ (c sw : Int), l ≠ [] → (∀ p ∈ l, 0 ≤ p.cpu_time) →
      (∀ p ∈ (fcfsLoop c sw l).1, p.finish_time ≤
        c + (l.map (fun p => p.cpu_time)).sum
          + SWITCH_TIME * ((l.length - 1 : Nat) : Int) + fcfsIdleGaps c l) ∧
      (∃ q, (fcfsLoop c sw l).1.getLast? = some q ∧ q.finish_time =
        c + (l.map (fun p => p.cpu_time)).sum
          + SWITCH_TIME * ((l.length - 1 : Nat) : Int) + fcfsIdleGaps c l) ∧
      c ≤ c + (l.map (fun p => p.cpu_time)).sum
          + SWITCH_TIME * ((l.length - 1 : Nat) : Int) + fcfsIdleGaps c l := by
  induction l with
  | nil => intro c sw h; exact absurd rfl h
  | cons a rest ih =>
    intro c sw _ hcpu
    have hsw : SWITCH_TIME = 2 := rfl
    have hc := hcpu a (List.mem_cons_self _ _)
    obtain ⟨c1, sw1, hout, hc1⟩ := fcfsLoop_cons_fst c sw a rest
    have hfin : (fcfsRun (fcfsDispatchTime c a) a).finish_time
        = c + max 0 (a.arrival_time - c) + a.cpu_time := by
      simp only [fcfsRun, fcfsDispatchTime_eq_max]
      omega
    by_cases hr : rest = []
    · subst hr
      rw [hout, fcfsLoop_nil_fst]
      have hF : c + ([a].map (fun p => p.cpu_time)).sum
          + SWITCH_TIME * (([a].length - 1 : Nat) : Int) + fcfsIdleGaps c [a]
          = c + max 0 (a.arrival_time - c) + a.cpu_time := by
        simp [fcfsIdleGaps]; ring
      rw [hF]
      refine ⟨?_, ⟨_, rfl, hfin⟩, by omega⟩
      intro p hp
      simp only [List.mem_singleton] at hp
      subst hp; rw [hfin]
    · have hlen : 1 ≤ rest.length := List.length_pos.mpr hr
      obtain ⟨h1, ⟨q, hq, hqF⟩, h3⟩ :=
        ih c1 sw1 hr (fun p hp => hcpu p (List.mem_cons_of_mem _ hp))
      have hc1e : c1 = c + max 0 (a.arrival_time - c) + a.cpu_time + SWITCH_TIME := by
        rw [hc1 hr, fcfsDispatchTime_eq_max]; omega
      have hidle : fcfsIdleGaps c (a :: rest)
          = max 0 (a.arrival_time - c) + fcfsIdleGaps c1 rest := by
        simp only [fcfsIdleGaps, if_pos hr]
        rw [hc1 hr]
      have hcast : ((rest.length - 1 : Nat) : Int) = (rest.length : Int) - 1 := by omega
      have hF : c + ((a :: rest).map (fun p => p.cpu_time)).sum
          + SWITCH_TIME * (((a :: rest).length - 1 : Nat) : Int) + fcfsIdleGaps c (a :: rest)
          = c1 + (rest.map (fun p => p.cpu_time)).sum
            + SWITCH_TIME * ((rest.length - 1 : Nat) : Int) + fcfsIdleGaps c1 rest := by
        rw [hidle, hc1e, hcast]
        simp only [List.map_cons, List.sum_cons, List.length_cons, Nat.add_sub_cancel]
        ring
      rw [hF, hout]
      refine ⟨?_, ⟨q, ?_, hqF⟩, by omega⟩
      · intro p hp
        rcases List.mem_cons.mp hp with h | h
        · subst h; rw [hfin]; omega
        · exact h1 p h
      · cases hrl : (fcfsLoop c1 sw1 rest).1 with
        | nil => rw [hrl] at hq; simp at hq
        | cons b r => rw [hrl] at hq; rw [← hq]; simp [List.getLast?_cons_cons]

theorem runFCFS_sorted_facts (sort : List Process → List Process)
    (hsort : StdSortContract sort) (sim : Simulator) :
    (sort (sim.processes.map fcfsReset)).length = sim.processes.length ∧
    ((sort (sim.processes.map fcfsReset)).map (fun p => p.cpu_time)).sum
      = (sim.processes.map (fun p => p.cpu_time)).sum ∧
    ((∀ p ∈ sim.processes, 0 ≤ p.cpu_time) →
      ∀ p ∈ sort (sim.processes.map fcfsReset), 0 ≤ p.cpu_time) ∧
    ((∀ p ∈ sim.processes, p.arrival_time = 0) →
      ∀ p ∈ sort (sim.processes.map fcfsReset), p.arrival_time = 0) := by
  have hperm := (hsort (sim.processes.map fcfsReset)).1
  have horig : ∀ p ∈ sort (sim.processes.map fcfsReset),
      ∃ p0 ∈ sim.processes, p = fcfsReset p0 := by
    intro p hp
    obtain ⟨p0, hp0, hpe⟩ := List.mem_map.mp ((hperm.mem_iff).mp hp)
    exact ⟨p0, hp0, hpe.symm⟩
  refine ⟨?_, ?_, ?_, ?_⟩
  · simpa using hperm.length_eq
  · have h1 := (hperm.map (fun p => p.cpu_time)).sum_eq
    rw [h1]
    simp [List.map_map, Function.comp_def, fcfsReset]
  · intro hs p hp
    obtain ⟨p0, hp0, hpe⟩ := horig p hp
    subst hpe; exact hs p0 hp0
  · intro ha p hp
    obtain ⟨p0, hp0, hpe⟩ := horig p hp
    subst hpe; exact ha p0 hp0

/-- After `runFCFS` on a non-empty workload with service times `≥ 0`: the
maximum formed by `displayResults` is the `finish_time` of the last record and
equals service plus switches plus idle gaps, and `total_switch_time` is
`SWITCH_TIME` times the number of records but one. -/
theorem runFCFS_final_clock (sort : List Process → List Process)
    (hsort : StdSortContract sort) (sim : Simulator) (hne : sim.processes ≠ [])
    (hs : ∀ p ∈ sim.processes, 0 ≤ p.cpu_time) :
    (∃ q, (runFCFS sort sim).processes.getLast? = some q ∧
      (displayTotals (runFCFS sort sim).processes).total_time = q.finish_time) ∧
    (displayTotals (runFCFS sort sim).processes).total_time
      = (sim.processes.map (fun p => p.cpu_time)).sum
        + SWITCH_TIME * ((sim.processes.length - 1 : Nat) : Int)
        + fcfsIdleGaps 0 (runFCFS sort sim).processes ∧
    (runFCFS sort sim).total_switch_time
      = SWITCH_TIME * ((sim.processes.length - 1 : Nat) : Int) := by
  obtain ⟨hlen, hsum, hcpu, _⟩ := runFCFS_sorted_facts sort hsort sim
  have hLne : sort (sim.processes.map fcfsReset) ≠ [] := by
    intro h
    rw [h] at hlen
    exact hne (List.length_eq_zero.mp hlen.symm)
  obtain ⟨h1, ⟨q, hq, hqF⟩, h3⟩ :=
    fcfsLoop_last_finish (sort (sim.processes.map fcfsReset)) 0 0 hLne (hcpu hs)
  have hidle : fcfsIdleGaps 0 (runFCFS sort sim).processes
      = fcfsIdleGaps 0 (sort (sim.processes.map fcfsReset)) :=
    fcfsIdleGaps_congr _ _ 0 (fcfsLoop_map_static _ 0 0)
  rw [hsum, hlen] at h1 hqF h3
  rw [← hidle] at h1 hqF h3
  simp only [zero_add] at h1 hqF h3
  have hmem : q ∈ (runFCFS sort sim).processes := List.mem_of_getLast?_eq_some hq
  have htot : (displayTotals (runFCFS sort sim).processes).total_time
      = (sim.processes.map (fun p => p.cpu_time)).sum
        + SWITCH_TIME * ((sim.processes.length - 1 : Nat) : Int)
        + fcfsIdleGaps 0 (runFCFS sort sim).processes :=
    displayTotals_time _ _ h3 h1 ⟨q, hmem, hqF⟩
  refine ⟨⟨q, hq, ?_⟩, htot, ?_⟩
  · rw [htot, hqF]
  · show (fcfsLoop 0 0 (sort (sim.processes.map fcfsReset))).2 = _
    rw [fcfsLoop_snd, hlen]; simp

/-- C11: for every workload of `n` records, after `runFCFS`
`total_switch_time = SWITCH_TIME * (n - 1)` when `n ≥ 1` and `0` when `n = 0`. -/
theorem runFCFS_total_switch_time (sort : List Process → List Process)
    (hsort : StdSortContract sort) (sim : Simulator) :
    (sim.processes.length = 0 → (runFCFS sort sim).total_switch_time = 0) ∧
    (1 ≤ sim.processes.length → (runFCFS sort sim).total_switch_time
      = SWITCH_TIME * ((sim.processes.length : Int) - 1)) := by
  obtain ⟨hlen, _, _, _⟩ := runFCFS_sorted_facts sort hsort sim
  have htot : (runFCFS sort sim).total_switch_time
      = SWITCH_TIME * ((sim.processes.length - 1 : Nat) : Int) := by
    show (fcfsLoop 0 0 (sort (sim.processes.map fcfsReset))).2 = _
    rw [fcfsLoop_snd, hlen]; simp
  refine ⟨?_, ?_⟩
  · intro h0
    rw [htot, h0]; simp
  · intro h1
    rw [htot]
    have : ((sim.processes.length - 1 : Nat) : Int) = (sim.processes.length : Int) - 1 := by
      omega
    rw [this]

/-- Evaluation of C11 on a workload of three records: two switches. -/
theorem runFCFS_total_switch_time_witness :
    (runFCFS insertionSortByArrival
        (Simulator.load [(1, 4, 5), (2, 0, 3), (3, 4, 1)])).total_switch_time
      = SWITCH_TIME * (((Simulator.load [(1, 4, 5), (2, 0, 3), (3, 4, 1)]).processes.length : Int)
          - 1) :=
  (runFCFS_total_switch_time insertionSortByArrival insertionSortByArrival_contract
    (Simulator.load [(1, 4, 5), (2, 0, 3), (3, 4, 1)])).2 (by decide)

/-- The total time in exact arithmetic: for every non-empty workload with
service times `≥ 0`, after `runFCFS`
the maximum `finish_time` is the `finish_time` of the last record in the
resulting order and equals `sum(service_time) + total_switch_time + idle_gaps`,
with `idle_gaps` the sum over the records of
`max 0 (arrival_time - clock before dispatch)`; when every record arrives at
time 0 it is `sum(service_time) + SWITCH_TIME * (n - 1)`. -/
theorem runFCFS_total_time (sort : List Process → List Process)
    (hsort : StdSortContract sort) (sim : Simulator) (hne : sim.processes ≠ [])
    (hs : ∀ p ∈ sim.processes, 0 ≤ p.cpu_time) :
    (∃ q, (runFCFS sort sim).processes.getLast? = some q ∧
      (displayTotals (runFCFS sort sim).processes).total_time = q.finish_time) ∧
    (displayTotals (runFCFS sort sim).processes).total_time
      = (sim.processes.map (fun p => p.cpu_time)).sum + (runFCFS sort sim).total_switch_time
        + fcfsIdleGaps 0 (runFCFS sort sim).processes ∧
    ((∀ p ∈ sim.processes, p.arrival_time = 0) →
      (displayTotals (runFCFS sort sim).processes).total_time
        = (sim.processes.map (fun p => p.cpu_time)).sum
          + SWITCH_TIME * ((sim.processes.length : Int) - 1)) := by
  obtain ⟨hlast, htot, hsw⟩ := runFCFS_final_clock sort hsort sim hne hs
  obtain ⟨_, _, hcpu, harr⟩ := runFCFS_sorted_facts sort hsort sim
  refine ⟨hlast, ?_, ?_⟩
  · rw [htot, hsw]
  · intro h0
    have hidle : fcfsIdleGaps 0 (runFCFS sort sim).processes = 0 := by
      have hcg := fcfsIdleGaps_congr (runFCFS sort sim).processes
        (sort (sim.processes.map fcfsReset)) 0 (fcfsLoop_map_static _ 0 0)
      rw [hcg]
      apply fcfsIdleGaps_zero
      · intro p hp; rw [harr h0 p hp]
      · exact hcpu hs
    have hpos : 1 ≤ sim.processes.length := List.length_pos.mpr hne
    have hcast : ((sim.processes.length - 1 : Nat) : Int)
        = (sim.processes.length : Int) - 1 := by omega
    rw [htot, hidle, hcast]; ring

/-- Evaluation of the total time on a workload whose records all arrive at time 0. -/
theorem runFCFS_total_time_witness :
    (displayTotals (runFCFS insertionSortByArrival
        (Simulator.load [(1, 0, 5), (2, 0, 3), (3, 0, 4)])).processes).total_time
      = ((Simulator.load [(1, 0, 5), (2, 0, 3), (3, 0, 4)]).processes.map
          (fun p => p.cpu_time)).sum
        + SWITCH_TIME
          * (((Simulator.load [(1, 0, 5), (2, 0, 3), (3, 0, 4)]).processes.length : Int) - 1) :=
  (runFCFS_total_time insertionSortByArrival insertionSortByArrival_contract
    (Simulator.load [(1, 0, 5), (2, 0, 3), (3, 0, 4)]) (by decide) (by decide)).2.2 (by decide)

/-! ## Re-running a pass -/

theorem fcfsLoop_map_fcfsReset (l : List Process) :
    ∀ (c sw : Int), (fcfsLoop c sw l).1.map fcfsReset = l.map fcfsReset := by
  induction l with
  | nil => intro c sw; simp [fcfsLoop]
  | cons p0 rest ih =>
    intro c sw
    obtain ⟨c1, sw1, hc, _⟩ := fcfsLoop_cons_fst c sw p0 rest
    rw [hc]
    simp [ih c1 sw1, fcfsRun, fcfsReset]

theorem map_fcfsReset_sorted (sort : List Process → List Process)
    (hsort : StdSortContract sort) (l : List Process) :
    (sort (l.map fcfsReset)).map fcfsReset = sort (l.map fcfsReset) := by
  have hperm := (hsort (l.map fcfsReset)).1
  have hid : ∀ p ∈ sort (l.map fcfsReset), fcfsReset p = p := by
    intro p hp
    obtain ⟨p0, _, hpe⟩ := List.mem_map.mp ((hperm.mem_iff).mp hp)
    subst hpe; rfl
  calc (sort (l.map fcfsReset)).map fcfsReset
      = (sort (l.map fcfsReset)).map id := List.map_congr_left hid
    _ = sort (l.map fcfsReset) := List.map_id _

/-- A second `runFCFS` changes nothing when the sort leaves the sequence it
produced in the first pass as it is. -/
theorem runFCFS_twice (sort : List Process → List Process) (hsort : StdSortContract sort)
    (sim : Simulator)
    (hkeep : sort (sort (sim.processes.map fcfsReset)) = sort (sim.processes.map fcfsReset)) :
    runFCFS sort (runFCFS sort sim) = runFCFS sort sim := by
  have h1 : (runFCFS sort sim).processes.map fcfsReset = sort (sim.processes.map fcfsReset) := by
    show (fcfsLoop 0 0 (sort (sim.processes.map fcfsReset))).1.map fcfsReset = _
    rw [fcfsLoop_map_fcfsReset, map_fcfsReset_sorted sort hsort]
  show ({ runFCFS sort sim with
      processes := (fcfsLoop 0 0 (sort ((runFCFS sort sim).processes.map fcfsReset))).1,
      total_switch_time :=
        (fcfsLoop 0 0 (sort ((runFCFS sort sim).processes.map fcfsReset))).2 } : Simulator)
    = runFCFS sort sim
  rw [h1, hkeep]
  rfl

/-- With pairwise distinct arrival times the contract of `std::sort` fixes the
result, so sorting a sorted range changes nothing. -/
theorem sort_sorted_of_distinct (sort : List Process → List Process)
    (hsort : StdSortContract sort) (l : List Process)
    (hd : (l.map (fun p => p.arrival_time)).Nodup) :
    sort (sort l) = sort l := by
  obtain ⟨hp1, hs1⟩ := hsort l
  obtain ⟨hp2, hs2⟩ := hsort (sort l)
  have hd1 : ((sort l).map (fun p => p.arrival_time)).Nodup :=
    ((hp1.map _).nodup_iff).mpr hd
  have hd2 : ((sort (sort l)).map (fun p => p.arrival_time)).Nodup :=
    ((hp2.map _).nodup_iff).mpr hd1
  have strict : ∀ m : List Process, (m.map (fun p => p.arrival_time)).Nodup →
      m.Pairwise (fun a b => arrivalLess b a = false) →
      m.Pairwise (fun a b : Process => a.arrival_time < b.arrival_time) := by
    intro m hm hs
    have hne : m.Pairwise (fun a b : Process => a.arrival_time ≠ b.arrival_time) := by
      have := List.pairwise_map.mp hm
      exact this
    refine List.Pairwise.imp ?_ (hs.and hne)
    intro a b hab
    obtain ⟨h1, h2⟩ := hab
    have : ¬ b.arrival_time < a.arrival_time := by simpa [arrivalLess] using h1
    omega
  haveI : IsAntisymm Process (fun a b : Process => a.arrival_time < b.arrival_time) :=
    ⟨fun a b h1 h2 => absurd h1 (not_lt.mpr (le_of_lt h2))⟩
  exact List.eq_of_perm_of_sorted hp2 (strict _ hd2 hs2) (strict _ hd1 hs1)

/-! ## Claims about re-running, frames and reporting -/

/-- C14, as stated, fails for `runFCFS`.  On `seventeenTied` (17 records,
numbered 1 to 17, all with arrival time 0 and service time 1), with `std::sort`
as GNU libstdc++ implements it, one `runFCFS` leaves the records in the order
9, 17, 16, ..., 10, 1, 8, 7, ..., 2 and a second `runFCFS` reorders them to
10, 2, 3, ..., 8, 1, 9, 11, ..., 17: process 9 has `execution_time` 0 and
`finish_time` 1 after one pass and 27 and 28 after two. -/
theorem runFCFS_twice_counterexample :
    (runFCFS stdSort (Simulator.load seventeenTied)).processes.map
        (fun p => (p.process_number, p.execution_time, p.finish_time))
      = [(9, 0, 1), (17, 3, 4), (16, 6, 7), (15, 9, 10), (14, 12, 13), (13, 15, 16),
         (12, 18, 19), (11, 21, 22), (10, 24, 25), (1, 27, 28), (8, 30, 31), (7, 33, 34),
         (6, 36, 37), (5, 39, 40), (4, 42, 43), (3, 45, 46), (2, 48, 49)] ∧
    (runFCFS stdSort (runFCFS stdSort (Simulator.load seventeenTied))).processes.map
        (fun p => (p.process_number, p.execution_time, p.finish_time))
      = [(10, 0, 1), (2, 3, 4), (3, 6, 7), (4, 9, 10), (5, 12, 13), (6, 15, 16),
         (7, 18, 19), (8, 21, 22), (1, 24, 25), (9, 27, 28), (11, 30, 31), (12, 33, 34),
         (13, 36, 37), (14, 39, 40), (15, 42, 43), (16, 45, 46), (17, 48, 49)] ∧
    runFCFS stdSort (runFCFS stdSort (Simulator.load seventeenTied))
      ≠ runFCFS stdSort (Simulator.load seventeenTied) := by
  have h1 : (runFCFS stdSort (Simulator.load seventeenTied)).processes.map
        (fun p => p.process_number)
      = [9, 17, 16, 15, 14, 13, 12, 11, 10, 1, 8, 7, 6, 5, 4, 3, 2] := by decide
  have h2 : (runFCFS stdSort (runFCFS stdSort (Simulator.load seventeenTied))).processes.map
        (fun p => p.process_number)
      = [10, 2, 3, 4, 5, 6, 7, 8, 1, 9, 11, 12, 13, 14, 15, 16, 17] := by decide
  refine ⟨by decide, by decide, ?_⟩
  intro h
  rw [h, h1] at h2
  revert h2
  decide

/-- C14 (amended): `runRR Q` followed by `runRR Q` leaves the same simulator
state as a single `runRR Q` (for `Q > 0` and service times `≥ 0` the pass
returns, and running it again on its result returns that result).  `runFCFS`
followed by `runFCFS` leaves the same state as a single `runFCFS` whenever the
sort leaves the sequence produced by the first pass unchanged; for every
sorting function meeting the `std::sort` contract this is the case when the
arrival times are pairwise distinct. -/
theorem rerun_idempotent (sort : List Process → List Process)
    (hsort : StdSortContract sort) (Q : Int) (hQ : 0 < Q) (sim : Simulator)
    (hs : ∀ p ∈ sim.processes, 0 ≤ p.cpu_time) :
    (∃ out, ∀ fuel, rrFuel sim ≤ fuel →
      runRR Q fuel sim = some out ∧ runRR Q fuel out = some out) ∧
    (∀ (fuel : Nat) (out : Simulator), runRR Q fuel sim = some out →
      ∀ fuel1, runRR Q fuel1 out = runRR Q fuel1 sim) ∧
    (sort (sort (sim.processes.map fcfsReset)) = sort (sim.processes.map fcfsReset) →
      runFCFS sort (runFCFS sort sim) = runFCFS sort sim) ∧
    ((sim.processes.map (fun p => p.arrival_time)).Nodup →
      runFCFS sort (runFCFS sort sim) = runFCFS sort sim) := by
  have hcongr : ∀ (fuel : Nat) (out : Simulator), runRR Q fuel sim = some out →
      ∀ fuel1, runRR Q fuel1 out = runRR Q fuel1 sim := by
    intro fuel out hout fuel1
    obtain ⟨r, hr, hro⟩ := runRR_eq_some Q fuel sim out hout
    apply runRR_congr
    subst hro
    have := rrLoop_map_static Q fuel _ r hr
    rw [rrInit_map_static] at this
    exact this
  refine ⟨?_, hcongr, runFCFS_twice sort hsort sim, ?_⟩
  · obtain ⟨out, hout, _⟩ := runRR_total Q hQ sim hs
    refine ⟨out, fun fuel hf => ⟨hout fuel hf, ?_⟩⟩
    rw [hcongr fuel out (hout fuel hf) fuel]
    exact hout fuel hf
  · intro hd
    apply runFCFS_twice sort hsort sim
    apply sort_sorted_of_distinct sort hsort
    simpa [List.map_map, Function.comp_def, fcfsReset] using hd

/-- Evaluation of the amended C14 on a workload with distinct arrival times. -/
theorem rerun_idempotent_witness :
    runFCFS insertionSortByArrival
        (runFCFS insertionSortByArrival (Simulator.load [(1, 5, 3), (2, 0, 9)]))
      = runFCFS insertionSortByArrival (Simulator.load [(1, 5, 3), (2, 0, 9)]) :=
  (rerun_idempotent insertionSortByArrival insertionSortByArrival_contract 4 (by decide)
    (Simulator.load [(1, 5, 3), (2, 0, 9)]) (by decide)).2.2.2 (by decide)

/-- C15: `runRR Q` leaves the sequence of
`(process_number, arrival_time, cpu_time)` triples unchanged position by
position (in every run that returns, and for `Q > 0` and service times `≥ 0`
it returns), and `runFCFS` leaves it unchanged up to reordering. -/
theorem static_description_preserved (sort : List Process → List Process)
    (hsort : StdSortContract sort) (Q : Int) (hQ : 0 < Q) (sim : Simulator) :
    (∀ (fuel : Nat) (out : Simulator), runRR Q fuel sim = some out →
      out.processes.map Process.static = sim.processes.map Process.static) ∧
    ((∀ p ∈ sim.processes, 0 ≤ p.cpu_time) → ∃ out, runRR Q (rrFuel sim) sim = some out) ∧
    ((runFCFS sort sim).processes.map Process.static).Perm
      (sim.processes.map Process.static) := by
  refine ⟨?_, ?_, ?_⟩
  · intro fuel out hout
    obtain ⟨r, hr, hro⟩ := runRR_eq_some Q fuel sim out hout
    subst hro
    have := rrLoop_map_static Q fuel _ r hr
    rw [rrInit_map_static] at this
    exact this
  · intro hs
    obtain ⟨out, hout, _⟩ := runRR_total Q hQ sim hs
    exact ⟨out, hout _ (le_refl _)⟩
  · have hmap : (runFCFS sort sim).processes.map Process.static
        = (sort (sim.processes.map fcfsReset)).map Process.static :=
      fcfsLoop_map_static _ 0 0
    have hreset : (sim.processes.map fcfsReset).map Process.static
        = sim.processes.map Process.static := by
      simp [List.map_map, Function.comp_def, fcfsReset, Process.static]
    rw [hmap, ← hreset]
    exact ((hsort _).1).map _

/-- Evaluation of C15 for `Q = 4` on an unsorted workload. -/
theorem static_description_preserved_witness :
    (∀ (fuel : Nat) (out : Simulator),
      runRR 4 fuel (Simulator.load [(1, 5, 3), (2, 0, 9)]) = some out →
      out.processes.map Process.static
        = (Simulator.load [(1, 5, 3), (2, 0, 9)]).processes.map Process.static) ∧
    ((∀ p ∈ (Simulator.load [(1, 5, 3), (2, 0, 9)]).processes, 0 ≤ p.cpu_time) →
      ∃ out, runRR 4 (rrFuel (Simulator.load [(1, 5, 3), (2, 0, 9)]))
        (Simulator.load [(1, 5, 3), (2, 0, 9)]) = some out) ∧
    ((runFCFS insertionSortByArrival
        (Simulator.load [(1, 5, 3), (2, 0, 9)])).processes.map Process.static).Perm
      ((Simulator.load [(1, 5, 3), (2, 0, 9)]).processes.map Process.static) :=
  static_description_preserved insertionSortByArrival insertionSortByArrival_contract 4
    (by decide) (Simulator.load [(1, 5, 3), (2, 0, 9)])

/-- C17, as stated, fails.  For the empty workload, before a pass as well as
after `runFCFS`, `displayResults` raises no error: the division of line 96 has
the operands `0` and `N = 0`, the division of line 97 the operands `0` and
`0 + 0`. -/
theorem displayResults_empty_counterexample :
    averageWaitingOperands (Simulator.load []) = (0, 0) ∧
    cpuEfficiencyOperands (Simulator.load []) = (0, 0) ∧
    averageWaitingOperands (runFCFS insertionSortByArrival (Simulator.load [])) = (0, 0) ∧
    cpuEfficiencyOperands (runFCFS insertionSortByArrival (Simulator.load [])) = (0, 0) := by
  decide

/-- C17 (amended): computing the aggregate metrics for an empty workload raises
no error; `displayResults` performs both divisions with a zero divisor.  After
`runFCFS`, and after `runRR` (which returns at once for every quantum), the
operands of `total_waiting_time / N` are `0` and `0`, and those of
`total_execution_time / (total_execution_time + total_switch_time)` are `0`
and `0`. -/
theorem displayResults_empty (sort : List Process → List Process)
    (hsort : StdSortContract sort) (Q : Int) (fuel : Nat) (sim : Simulator)
    (hempty : sim.processes = []) :
    averageWaitingOperands (runFCFS sort sim) = (0, 0) ∧
    cpuEfficiencyOperands (runFCFS sort sim) = (0, 0) ∧
    ∃ out, runRR Q fuel sim = some out ∧
      averageWaitingOperands out = (0, 0) ∧ cpuEfficiencyOperands out = (0, 0) := by
  have hsorted : sort (sim.processes.map fcfsReset) = [] := by
    have := (hsort (sim.processes.map fcfsReset)).1
    rw [hempty] at this ⊢
    simpa using this
  have hf : (runFCFS sort sim).processes = [] ∧ (runFCFS sort sim).total_switch_time = 0 := by
    simp [runFCFS, hsorted, fcfsLoop]
  have hinit : rrInit sim =
      { processes := [], ready_queue_rr := [], finish_queue_rr := [],
        total_switch_time := 0, currentTime := 0, nextProcessToCheck := 0 } := by
    simp [rrInit, hempty, runAdmission, admissionLoop]
  have hrun : runRR Q fuel sim = some
      { processes := [], ready_queue_rr := [], finish_queue_rr := [],
        total_switch_time := 0 } := by
    unfold runRR
    rw [hinit]
    cases fuel <;> simp [rrLoop, RRState.toSimulator]
  refine ⟨?_, ?_, _, hrun, ?_, ?_⟩
  · simp [averageWaitingOperands, hf.1, displayTotals]
  · simp [cpuEfficiencyOperands, hf.1, hf.2, displayTotals]
  · simp [averageWaitingOperands, displayTotals]
  · simp [cpuEfficiencyOperands, displayTotals]

/-- Evaluation of the amended C17 on the freshly loaded empty workload, with
the quantum 50 of the driver. -/
theorem displayResults_empty_witness :
    averageWaitingOperands (runFCFS insertionSortByArrival (Simulator.load [])) = (0, 0) ∧
    cpuEfficiencyOperands (runFCFS insertionSortByArrival (Simulator.load [])) = (0, 0) ∧
    ∃ out, runRR 50 0 (Simulator.load []) = some out ∧
      averageWaitingOperands out = (0, 0) ∧ cpuEfficiencyOperands out = (0, 0) :=
  displayResults_empty insertionSortByArrival insertionSortByArrival_contract 50 0
    (Simulator.load []) (by decide)

/-! ## A quantum that is not positive -/

theorem rrDispatch_no_job (Q : Int) (s : RRState) (i : Nat) (q : List Nat)
    (hq : s.ready_queue_rr = i :: q) (hjob : s.processes[i]? = none) :
    rrDispatch Q s = s := by
  simp [rrDispatch, hq, hjob]

theorem rrDispatch_stuck (Q : Int) (hQ : Q ≤ 0) (i : Nat) (s : RRState) (h : RRStuck i s) :
    RRStuck i (rrDispatch Q s) := by
  obtain ⟨p, hp, hpos⟩ := h.burst_left
  cases hq : s.ready_queue_rr with
  | nil =>
    rw [rrDispatch_idle Q s hq]
    exact ⟨h.next_le, h.perm, h.lt, h.not_finished, h.burst_left⟩
  | cons k q =>
    cases hjob : s.processes[k]? with
    | none => rw [rrDispatch_no_job Q s k q hq hjob]; exact h
    | some job =>
      by_cases hrem : 0 < job.remaining_burst - min Q job.remaining_burst
      · rw [rrDispatch_preempt Q s k q job hq hjob hrem]
        refine ⟨?_, ?_, ?_, h.not_finished, ?_⟩
        · simpa using h.next_le
        · have := h.perm
          rw [hq] at this
          refine List.Perm.trans ?_ this
          simp
        · simpa using h.lt
        · by_cases hki : k = i
          · subst hki
            refine ⟨_, List.getElem?_set_self h.lt, ?_⟩
            exact hrem
          · exact ⟨p, by rw [List.getElem?_set_ne hki]; exact hp, hpos⟩
      · rw [rrDispatch_finish Q s k q job hq hjob hrem]
        have hki : k ≠ i := by
          intro hki
          subst hki
          rw [hp] at hjob
          have := Option.some.inj hjob
          subst this
          omega
        refine ⟨?_, ?_, ?_, ?_, ?_⟩
        · simpa using h.next_le
        · have := h.perm
          rw [hq] at this
          refine List.Perm.trans ?_ this
          have h1 : (q ++ (s.finish_queue_rr ++ [k])).Perm (q ++ (k :: s.finish_queue_rr)) :=
            List.Perm.append_left q (by simp)
          exact h1.trans List.perm_middle
        · simpa using h.lt
        · intro hmem
          rcases List.mem_append.mp hmem with h1 | h1
          · exact h.not_finished h1
          · simp only [List.mem_singleton] at h1
            exact hki h1.symm
        · exact ⟨p, by rw [List.getElem?_set_ne hki]; exact hp, hpos⟩

theorem runAdmission_stuck (i : Nat) (s : RRState) (h : RRStuck i s) :
    RRStuck i (runAdmission s) := by
  obtain ⟨k, hk, heq, _, _⟩ := runAdmission_spec s
  have hle := h.next_le
  rw [heq]
  refine ⟨?_, ?_, h.lt, h.not_finished, h.burst_left⟩
  · dsimp only; omega
  · dsimp only
    have h1 : List.range (s.nextProcessToCheck + k)
        = List.range s.nextProcessToCheck ++ List.range' s.nextProcessToCheck k := by
      rw [List.range_eq_range', List.range_eq_range']
      have := List.range'_append 0 s.nextProcessToCheck k 1
      simp only [Nat.zero_add, Nat.one_mul] at this
      rw [this, Nat.add_comm]
    rw [h1]
    have h2 : (s.ready_queue_rr ++ List.range' s.nextProcessToCheck k ++ s.finish_queue_rr).Perm
        (s.ready_queue_rr ++ s.finish_queue_rr ++ List.range' s.nextProcessToCheck k) := by
      rw [List.append_assoc, List.append_assoc]
      exact List.Perm.append_left _ List.perm_append_comm
    exact h2.trans (List.Perm.append_right _ h.perm)

theorem RRStuck.keeps_running {i : Nat} {s : RRState} (h : RRStuck i s) :
    s.finish_queue_rr.length < s.processes.length := by
  have hnd : (s.ready_queue_rr ++ s.finish_queue_rr).Nodup :=
    (h.perm.nodup_iff).mpr (List.nodup_range _)
  have hfn : s.finish_queue_rr.Nodup := (List.nodup_append.mp hnd).2.1
  have hsub : s.finish_queue_rr ⊆ (List.range s.processes.length).erase i := by
    intro x hx
    have hx1 : x ∈ List.range s.nextProcessToCheck :=
      (h.perm.mem_iff).mp (List.mem_append_right _ hx)
    have hx2 : x < s.nextProcessToCheck := List.mem_range.mp hx1
    have hle := h.next_le
    have hne : x ≠ i := fun hxi => h.not_finished (hxi ▸ hx)
    exact ((List.nodup_range _).mem_erase_iff).mpr ⟨hne, List.mem_range.mpr (by omega)⟩
  have hlen := (List.subperm_of_subset hfn hsub).length_le
  have herase : ((List.range s.processes.length).erase i).length = s.processes.length - 1 := by
    rw [List.length_erase_of_mem (List.mem_range.mpr h.lt), List.length_range]
  have := h.lt
  omega

theorem rrLoop_stuck (Q : Int) (hQ : Q ≤ 0) (i : Nat) :
    ∀ (fuel : Nat) (s : RRState), RRStuck i s → rrLoop Q fuel s = none := by
  intro fuel
  induction fuel with
  | zero =>
    intro s h
    simp [rrLoop, h.keeps_running]
  | succ n ih =>
    intro s h
    simp only [rrLoop, if_pos h.keeps_running]
    exact ih _ (runAdmission_stuck i _ (rrDispatch_stuck Q hQ i s h))

theorem rrInit_stuck (sim : Simulator) (i : Nat) (p : Process)
    (hp : sim.processes[i]? = some p) (hpos : 0 < p.cpu_time) : RRStuck i (rrInit sim) := by
  unfold rrInit
  apply runAdmission_stuck
  have hlt : i < sim.processes.length := (List.getElem?_eq_some.mp hp).1
  refine ⟨Nat.zero_le _, by simp, by simpa using hlt, by simp, rrReset p, ?_, hpos⟩
  simp [List.getElem?_map, hp]

/-- C16, as stated, fails.  `runRR 0` on the workload (arrival 0, service 5) is
not rejected: the loop is entered (one record, empty finish queue), its first
iteration charges a switch and moves the clock, and no error is ever raised;
the loop is still running after 50 iterations.  On (arrival 0, service 0),
`runRR 0` returns normally with the record finished. -/
theorem runRR_zero_quantum_counterexample :
    (rrInit (Simulator.load [(1, 0, 5)])).finish_queue_rr.length
      < (rrInit (Simulator.load [(1, 0, 5)])).processes.length ∧
    (rrStep 0 (rrInit (Simulator.load [(1, 0, 5)]))).total_switch_time = 2 ∧
    (rrStep 0 (rrInit (Simulator.load [(1, 0, 5)]))).currentTime = 2 ∧
    runRR 0 50 (Simulator.load [(1, 0, 5)]) = none ∧
    (runRR 0 1 (Simulator.load [(1, 0, 0)])).map
        (fun s => s.processes.map (fun p => (p.finished, p.finish_time))) = some [(true, 0)] := by
  refine ⟨by decide, by decide, by decide, by decide, by decide⟩

/-- C16 (amended): `runRR` does not check its quantum and raises no error.
Called with `Q ≤ 0` on a workload that holds a record with `cpu_time > 0`, it
resets the records, enters the dispatch loop and never leaves it: no number of
iterations brings that record to completion, because a slice of
`min Q remaining_burst ≤ 0` takes nothing off its remaining burst. -/
theorem runRR_nonpositive_quantum (Q : Int) (hQ : Q ≤ 0) (sim : Simulator) (p : Process)
    (hp : p ∈ sim.processes) (hpos : 0 < p.cpu_time) :
    ∀ fuel, runRR Q fuel sim = none := by
  intro fuel
  obtain ⟨i, hi⟩ := List.mem_iff_getElem?.mp hp
  unfold runRR
  rw [rrLoop_stuck Q hQ i fuel _ (rrInit_stuck sim i p hi hpos)]
  rfl

/-- Evaluation of the amended C16 for `Q = -3` on a two-record workload. -/
theorem runRR_nonpositive_quantum_witness :
    runRR (-3) 1000 (Simulator.load [(1, 0, 0), (2, 4, 5)]) = none :=
  runRR_nonpositive_quantum (-3) (by decide) (Simulator.load [(1, 0, 0), (2, 4, 5)])
    (Process.new 2 4 5) (by decide) (by decide) 1000

/-! ## The admission cursor on a sorted workload -/

theorem rrDispatch_next (Q : Int) (s : RRState) :
    (rrDispatch Q s).nextProcessToCheck = s.nextProcessToCheck := by
  cases hq : s.ready_queue_rr with
  | nil => rw [rrDispatch_idle Q s hq]
  | cons i q =>
    cases hjob : s.processes[i]? with
    | none => rw [rrDispatch_no_job Q s i q hq hjob]
    | some job =>
      by_cases hrem : 0 < job.remaining_burst - min Q job.remaining_burst
      · rw [rrDispatch_preempt Q s i q job hq hjob hrem]
      · rw [rrDispatch_finish Q s i q job hq hjob hrem]

theorem iterate_rrStep_inv (Q M : Int) (hQ : 0 < Q) (s : RRState) (h : RRInv M s) :
    ∀ k : Nat, RRInv M (Nat.iterate (rrStep Q) k s) := by
  intro k
  induction k with
  | zero => exact h
  | succ n ih =>
    rw [Function.iterate_succ_apply']
    exact rrStep_inv Q M hQ _ ih

theorem iterate_rrStep_map_static (Q : Int) (s : RRState) :
    ∀ k : Nat, (Nat.iterate (rrStep Q) k s).processes.map Process.static
      = s.processes.map Process.static := by
  intro k
  induction k with
  | zero => rfl
  | succ n ih =>
    rw [Function.iterate_succ_apply', rrStep_map_static, ih]

theorem pairwise_arrival_of_map_static (l1 l2 : List Process)
    (h : l1.map Process.static = l2.map Process.static)
    (hs : l2.Pairwise (fun a b => a.arrival_time ≤ b.arrival_time)) :
    l1.Pairwise (fun a b => a.arrival_time ≤ b.arrival_time) := by
  have h2 : (l2.map Process.static).Pairwise
      (fun x y : Int × Int × Int => x.2.1 ≤ y.2.1) := by
    rw [List.pairwise_map]
    exact hs
  rw [← h, List.pairwise_map] at h2
  exact h2

theorem rrInv_arrived_below_cursor (M : Int) (s : RRState) (h : RRInv M s)
    (hsorted : s.processes.Pairwise (fun a b => a.arrival_time ≤ b.arrival_time)) :
    ∀ (i : Nat) (p : Process), s.processes[i]? = some p →
      p.arrival_time ≤ s.currentTime → i < s.nextProcessToCheck := by
  intro i p hp harr
  by_contra hge
  obtain ⟨hil, hpe⟩ := List.getElem?_eq_some.mp hp
  have hnl : s.nextProcessToCheck < s.processes.length := by omega
  have hpend := h.2 _ (List.getElem?_eq_getElem hnl)
  by_cases heq : i = s.nextProcessToCheck
  · subst heq
    rw [hpe] at hpend
    omega
  · have hlt : s.nextProcessToCheck < i := by omega
    have := (List.pairwise_iff_getElem.mp hsorted) _ _ hnl hil hlt
    rw [hpe] at this
    omega

/-! ## Claim about the admission cursor -/

/-- C18: for every `Q > 0` and every workload sorted by `arrival_time` with
service times `≥ 0`, in the state at every evaluation of the loop head of
`runRR` (after any number `k` of iterations): every record with
`arrival_time ≤ currentTime` has its index below the admission cursor; the
indices below the cursor are exactly those in the ready queue or in the finish
queue, none of them twice, and the records in the finish queue are finished.
Admission is in index order, each record once: the queue starts as the indices
`0 .. m - 1` with the cursor at `m`, and each iteration appends the indices from
the cursor up to the new cursor. -/
theorem runRR_admission_invariant (Q : Int) (hQ : 0 < Q) (sim : Simulator)
    (hs : ∀ p ∈ sim.processes, 0 ≤ p.cpu_time)
    (hsorted : sim.processes.Pairwise (fun a b => a.arrival_time ≤ b.arrival_time))
    (k : Nat) :
    (∀ (i : Nat) (p : Process),
      (Nat.iterate (rrStep Q) k (rrInit sim)).processes[i]? = some p →
      p.arrival_time ≤ (Nat.iterate (rrStep Q) k (rrInit sim)).currentTime →
      i < (Nat.iterate (rrStep Q) k (rrInit sim)).nextProcessToCheck) ∧
    (∀ i : Nat, i < (Nat.iterate (rrStep Q) k (rrInit sim)).nextProcessToCheck ↔
      (i ∈ (Nat.iterate (rrStep Q) k (rrInit sim)).ready_queue_rr ∨
        i ∈ (Nat.iterate (rrStep Q) k (rrInit sim)).finish_queue_rr)) ∧
    ((Nat.iterate (rrStep Q) k (rrInit sim)).ready_queue_rr
      ++ (Nat.iterate (rrStep Q) k (rrInit sim)).finish_queue_rr).Nodup ∧
    (∀ i ∈ (Nat.iterate (rrStep Q) k (rrInit sim)).finish_queue_rr, ∀ p : Process,
      (Nat.iterate (rrStep Q) k (rrInit sim)).processes[i]? = some p → p.finished = true) ∧
    (∃ m, (rrInit sim).ready_queue_rr = List.range' 0 m ∧
      (rrInit sim).nextProcessToCheck = m) ∧
    (∃ m, (rrStep Q (Nat.iterate (rrStep Q) k (rrInit sim))).nextProcessToCheck
        = (Nat.iterate (rrStep Q) k (rrInit sim)).nextProcessToCheck + m ∧
      (rrStep Q (Nat.iterate (rrStep Q) k (rrInit sim))).ready_queue_rr
        = (rrDispatch Q (Nat.iterate (rrStep Q) k (rrInit sim))).ready_queue_rr
          ++ List.range' (Nat.iterate (rrStep Q) k (rrInit sim)).nextProcessToCheck m) := by
  obtain ⟨hinit, _⟩ := rrInit_inv sim hs
  have hinv := iterate_rrStep_inv Q _ hQ _ hinit k
  have hstat := iterate_rrStep_map_static Q (rrInit sim) k
  rw [rrInit_map_static] at hstat
  have hsort := pairwise_arrival_of_map_static _ _ hstat hsorted
  refine ⟨rrInv_arrived_below_cursor _ _ hinv hsort, ?_, ?_, ?_, ?_, ?_⟩
  · intro i
    rw [← List.mem_append, (hinv.1.perm.mem_iff), List.mem_range]
  · exact (hinv.1.perm.nodup_iff).mpr (List.nodup_range _)
  · intro i hi p hp
    exact (hinv.1.done i hi p hp).1
  · obtain ⟨m, _, heq, _, _⟩ := runAdmission_spec
      { processes := sim.processes.map rrReset, ready_queue_rr := [], finish_queue_rr := [],
        total_switch_time := 0, currentTime := 0, nextProcessToCheck := 0 }
    refine ⟨m, ?_, ?_⟩
    · unfold rrInit; rw [heq]; simp
    · unfold rrInit; rw [heq]; simp
  · obtain ⟨m, _, heq, _, _⟩ :=
      runAdmission_spec (rrDispatch Q (Nat.iterate (rrStep Q) k (rrInit sim)))
    have hstep : rrStep Q (Nat.iterate (rrStep Q) k (rrInit sim))
        = runAdmission (rrDispatch Q (Nat.iterate (rrStep Q) k (rrInit sim))) := rfl
    refine ⟨m, ?_, ?_⟩
    · rw [hstep, heq]; simp only [rrDispatch_next]
    · rw [hstep, heq]; simp only [rrDispatch_next]

/-- Evaluation of C18 for `Q = 4` on the sorted workload (arrival 0, service
10), (arrival 3, service 4), (arrival 40, service 2) after three iterations. -/
theorem runRR_admission_invariant_witness :
    (∀ (i : Nat) (p : Process),
      (Nat.iterate (rrStep 4) 3
        (rrInit (Simulator.load [(1, 0, 10), (2, 3, 4), (3, 40, 2)]))).processes[i]? = some p →
      p.arrival_time ≤ (Nat.iterate (rrStep 4) 3
        (rrInit (Simulator.load [(1, 0, 10), (2, 3, 4), (3, 40, 2)]))).currentTime →
      i < (Nat.iterate (rrStep 4) 3
        (rrInit (Simulator.load [(1, 0, 10), (2, 3, 4), (3, 40, 2)]))).nextProcessToCheck) ∧
    ((Nat.iterate (rrStep 4) 3
        (rrInit (Simulator.load [(1, 0, 10), (2, 3, 4), (3, 40, 2)]))).ready_queue_rr
      ++ (Nat.iterate (rrStep 4) 3
        (rrInit (Simulator.load [(1, 0, 10), (2, 3, 4), (3, 40, 2)]))).finish_queue_rr).Nodup :=
  ⟨(runRR_admission_invariant 4 (by decide) (Simulator.load [(1, 0, 10), (2, 3, 4), (3, 40, 2)])
      (by decide) (by decide) 3).1,
    (runRR_admission_invariant 4 (by decide) (Simulator.load [(1, 0, 10), (2, 3, 4), (3, 40, 2)])
      (by decide) (by decide) 3).2.2.1⟩

/-! ## Workloads whose records all arrive at time 0 -/

theorem runAdmission_full (s : RRState) (h : s.nextProcessToCheck = s.processes.length) :
    runAdmission s = s := by
  unfold runAdmission
  rw [h, List.drop_length]
  simp only [admissionLoop]
  rw [← h]

theorem rrDispatch_length (Q : Int) (s : RRState) :
    (rrDispatch Q s).processes.length = s.processes.length := by
  have := congrArg List.length (rrDispatch_map_static Q s)
  simpa using this

theorem rrStep_full (Q : Int) (s : RRState) (h : s.nextProcessToCheck = s.processes.length) :
    rrStep Q s = rrDispatch Q s := by
  unfold rrStep
  apply runAdmission_full
  rw [rrDispatch_next, rrDispatch_length, h]

theorem rrInit_all_arrived (sim : Simulator) (h0 : ∀ p ∈ sim.processes, p.arrival_time ≤ 0) :
    rrInit sim =
      { processes := sim.processes.map rrReset,
        ready_queue_rr := List.range' 0 sim.processes.length,
        finish_queue_rr := [], total_switch_time := 0, currentTime := 0,
        nextProcessToCheck := sim.processes.length } := by
  obtain ⟨k, hk, heq, _, hge⟩ := runAdmission_spec
    { processes := sim.processes.map rrReset, ready_queue_rr := [], finish_queue_rr := [],
      total_switch_time := 0, currentTime := 0, nextProcessToCheck := 0 }
  have hkn : k = sim.processes.length := by
    by_contra hne
    have hlt : k < sim.processes.length := by
      simp only [List.length_map, Nat.zero_add] at hk
      omega
    have hget : (sim.processes.map rrReset)[0 + k]? = some (rrReset sim.processes[k]) := by
      rw [Nat.zero_add, List.getElem?_map, List.getElem?_eq_getElem hlt]
      rfl
    have h1 := hge _ hget
    have h2 := h0 _ (List.getElem_mem hlt)
    have h3 : (rrReset sim.processes[k]).arrival_time = sim.processes[k].arrival_time := rfl
    rw [h3] at h1
    dsimp only at h1
    omega
  unfold rrInit
  rw [heq, hkn]
  simp

theorem rrStep_finished_frozen (Q M : Int) (s : RRState) (h : RRInv M s) (i : Nat)
    (hi : i ∈ s.finish_queue_rr) :
    i ∈ (rrStep Q s).finish_queue_rr ∧ (rrStep Q s).processes[i]? = s.processes[i]? := by
  obtain ⟨k, _, heq, _, _⟩ := runAdmission_spec (rrDispatch Q s)
  have hstep : rrStep Q s = runAdmission (rrDispatch Q s) := rfl
  rw [hstep, heq]
  dsimp only
  cases hq : s.ready_queue_rr with
  | nil =>
    rw [rrDispatch_idle Q s hq]
    exact ⟨hi, rfl⟩
  | cons a q =>
    obtain ⟨job, hjob⟩ := h.1.head_job hq
    have hne : a ≠ i := fun hai => h.1.head_not_finished hq (hai ▸ hi)
    by_cases hrem : 0 < job.remaining_burst - min Q job.remaining_burst
    · rw [rrDispatch_preempt Q s a q job hq hjob hrem]
      exact ⟨hi, List.getElem?_set_ne hne⟩
    · rw [rrDispatch_finish Q s a q job hq hjob hrem]
      exact ⟨List.mem_append_left _ hi, List.getElem?_set_ne hne⟩

theorem rrLoop_finished_frozen (Q M : Int) (hQ : 0 < Q) (i : Nat) :
    ∀ (fuel : Nat) (s res : RRState), RRInv M s → i ∈ s.finish_queue_rr →
      rrLoop Q fuel s = some res → res.processes[i]? = s.processes[i]? := by
  intro fuel
  induction fuel with
  | zero =>
    intro s res _ _ hr
    by_cases hc : s.finish_queue_rr.length < s.processes.length
    · simp [rrLoop, hc] at hr
    · simp only [rrLoop, if_neg hc, Option.some.injEq] at hr
      subst hr; rfl
  | succ n ih =>
    intro s res h hi hr
    by_cases hc : s.finish_queue_rr.length < s.processes.length
    · simp only [rrLoop, if_pos hc] at hr
      obtain ⟨h1, h2⟩ := rrStep_finished_frozen Q M s h i hi
      rw [ih _ res (rrStep_inv Q M hQ s h) h1 hr, h2]
    · simp only [rrLoop, if_neg hc, Option.some.injEq] at hr
      subst hr; rfl

theorem RRFirstRound.head {Q : Int} {sim : Simulator} {j : Nat} {s : RRState}
    (h : RRFirstRound Q sim j s) (hj : j < s.processes.length) :
    ∃ tail job pj,
      s.ready_queue_rr
        = j :: (List.range' (j + 1) (s.processes.length - j - 1) ++ tail) ∧
      s.processes[j]? = some job ∧ sim.processes[j]? = some pj ∧
      job.remaining_burst = pj.cpu_time ∧ 0 ≤ pj.cpu_time ∧
      ((sim.processes.take (j + 1)).map (fun p => min Q p.cpu_time + SWITCH_TIME)).sum
        = ((sim.processes.take j).map (fun p => min Q p.cpu_time + SWITCH_TIME)).sum
          + (min Q pj.cpu_time + SWITCH_TIME) := by
  obtain ⟨tail, htail⟩ := h.queue
  have hlen : sim.processes.length = s.processes.length := by
    have := congrArg List.length h.static
    simpa using this.symm
  have hjs : j < sim.processes.length := by omega
  have hjob : s.processes[j]? = some s.processes[j] := List.getElem?_eq_getElem hj
  have hpj : sim.processes[j]? = some sim.processes[j] := List.getElem?_eq_getElem hjs
  have hst : (s.processes[j]).static = (sim.processes[j]).static := by
    have h1 : (s.processes.map Process.static)[j]? = (sim.processes.map Process.static)[j]? := by
      rw [h.static]
    rw [List.getElem?_map, List.getElem?_map, hjob, hpj] at h1
    exact Option.some.inj h1
  have hcpu : (s.processes[j]).cpu_time = (sim.processes[j]).cpu_time :=
    congrArg (fun t : Int × Int × Int => t.2.2) hst
  have hunt := h.untouched j _ (le_refl _) hjob
  have hb := h.inv.1.rem_bounds j _ hjob
  refine ⟨tail, s.processes[j], sim.processes[j], ?_, hjob, hpj, ?_, ?_, ?_⟩
  · rw [htail]
    have : s.processes.length - j = (s.processes.length - j - 1) + 1 := by omega
    rw [this, List.range'_succ]
    simp
  · rw [hunt, hcpu]
  · rw [← hcpu, ← hunt]; exact hb.1
  · have htake : sim.processes.take (j + 1)
        = sim.processes.take j ++ [sim.processes[j]] := by
      rw [List.take_succ, hpj]; rfl
    rw [htake, List.map_append, List.sum_append]
    simp

theorem RRFirstRound.round_running {Q : Int} {sim : Simulator} {j : Nat} {s : RRState}
    (h : RRFirstRound Q sim j s) (hj : j < s.processes.length) :
    s.finish_queue_rr.length < s.processes.length :=
  lt_of_le_of_lt h.finished_le hj

theorem RRFirstRound.round_step {Q : Int} {sim : Simulator} {j : Nat} {s : RRState}
    (h : RRFirstRound Q sim j s) (hQ : 0 < Q) (hj : j + 1 < s.processes.length) :
    RRFirstRound Q sim (j + 1) (rrStep Q s) := by
  obtain ⟨tail, job, pj, hq, hjob, _, hrb, hpos, hsum⟩ := h.head (by omega)
  have hinv := rrStep_inv Q _ hQ s h.inv
  have hstat := (rrStep_map_static Q s).trans h.static
  have hfull := rrStep_full Q s h.cursor
  have hclock := h.clock
  have hfin := h.finished_le
  by_cases hrem : 0 < job.remaining_burst - min Q job.remaining_burst
  · have heq := hfull.trans (rrDispatch_preempt Q s j _ job hq hjob hrem)
    refine ⟨hinv, hstat, ?_, ?_, ?_, ?_, ?_⟩
    · rw [heq]; simpa using h.cursor
    · rw [heq]
      refine ⟨tail ++ [j], ?_⟩
      simp [Nat.sub_add_eq]
    · intro m p hm hp
      rw [heq] at hp
      dsimp only at hp
      rw [List.getElem?_set_ne (by omega)] at hp
      exact h.untouched m p (by omega) hp
    · rw [heq, hsum]
      dsimp only
      rw [hclock, hrb]
      ring
    · rw [heq]; dsimp only; omega
  · have hne : List.range' (j + 1) (s.processes.length - j - 1) ++ tail ≠ [] := by
      have : s.processes.length - j - 1 = (s.processes.length - j - 2) + 1 := by omega
      rw [this, List.range'_succ]
      simp
    have heq := hfull.trans (rrDispatch_finish Q s j _ job hq hjob hrem)
    rw [if_pos hne] at heq
    refine ⟨hinv, hstat, ?_, ?_, ?_, ?_, ?_⟩
    · rw [heq]; simpa using h.cursor
    · rw [heq]
      refine ⟨tail, ?_⟩
      simp [Nat.sub_add_eq]
    · intro m p hm hp
      rw [heq] at hp
      dsimp only at hp
      rw [List.getElem?_set_ne (by omega)] at hp
      exact h.untouched m p (by omega) hp
    · rw [heq, hsum]
      dsimp only
      rw [hclock, hrb]
      ring
    · rw [heq]; simp; omega

theorem RRFirstRound.finish {Q : Int} {sim : Simulator} {i : Nat} {s : RRState}
    (h : RRFirstRound Q sim i s) (p0 : Process) (hp0 : sim.processes[i]? = some p0)
    (hle : p0.cpu_time ≤ Q) :
    i < s.processes.length ∧ i ∈ (rrStep Q s).finish_queue_rr ∧
    ∃ p, (rrStep Q s).processes[i]? = some p ∧ p.finished = true ∧
      p.finish_time
        = ((sim.processes.take i).map (fun p => min Q p.cpu_time + SWITCH_TIME)).sum
          + p0.cpu_time := by
  have hlen : sim.processes.length = s.processes.length := by
    have := congrArg List.length h.static
    simpa using this.symm
  have hi : i < s.processes.length := by
    have := (List.getElem?_eq_some.mp hp0).1
    omega
  obtain ⟨tail, job, pj, hq, hjob, hpj, hrb, hpos, _⟩ := h.head hi
  rw [hp0] at hpj
  have hpe := Option.some.inj hpj
  subst hpe
  have hmin : min Q job.remaining_burst = p0.cpu_time := by
    rw [hrb]; exact min_eq_right hle
  have hrem : ¬ 0 < job.remaining_burst - min Q job.remaining_burst := by
    rw [hmin, hrb]; omega
  have heq := (rrStep_full Q s h.cursor).trans (rrDispatch_finish Q s i _ job hq hjob hrem)
  refine ⟨hi, ?_, ?_⟩
  · rw [heq]; simp
  · rw [heq]
    refine ⟨_, List.getElem?_set_self hi, rfl, ?_⟩
    dsimp only
    rw [hmin, h.clock]

theorem rrLoop_first_round (Q : Int) (hQ : 0 < Q) (sim : Simulator) (i : Nat) (p0 : Process)
    (hp0 : sim.processes[i]? = some p0) (hle : p0.cpu_time ≤ Q) :
    ∀ (d j : Nat) (s : RRState), j + d = i → RRFirstRound Q sim j s →
      ∀ (fuel : Nat) (res : RRState), rrLoop Q fuel s = some res →
        ∃ p, res.processes[i]? = some p ∧ p.finished = true ∧
          p.finish_time
            = ((sim.processes.take i).map (fun p => min Q p.cpu_time + SWITCH_TIME)).sum
              + p0.cpu_time := by
  intro d
  induction d with
  | zero =>
    intro j s hji h fuel res hr
    have hji1 : j = i := by omega
    subst hji1
    obtain ⟨hi, hmem, p, hp, hfin, hft⟩ := h.finish p0 hp0 hle
    have hc := h.round_running hi
    cases fuel with
    | zero => simp [rrLoop, hc] at hr
    | succ f =>
      simp only [rrLoop, if_pos hc] at hr
      have := rrLoop_finished_frozen Q _ hQ j f _ res (rrStep_inv Q _ hQ s h.inv) hmem hr
      exact ⟨p, by rw [this]; exact hp, hfin, hft⟩
  | succ d ih =>
    intro j s hji h fuel res hr
    have hlen : sim.processes.length = s.processes.length := by
      have := congrArg List.length h.static
      simpa using this.symm
    have hi : i < s.processes.length := by
      have := (List.getElem?_eq_some.mp hp0).1
      omega
    have hc := h.round_running (show j < s.processes.length by omega)
    cases fuel with
    | zero => simp [rrLoop, hc] at hr
    | succ f =>
      simp only [rrLoop, if_pos hc] at hr
      exact ih (j + 1) _ (by omega) (h.round_step hQ (by omega)) f res hr

theorem rrInit_first_round (Q : Int) (sim : Simulator)
    (h0 : ∀ p ∈ sim.processes, p.arrival_time = 0 ∧ 0 ≤ p.cpu_time) :
    RRFirstRound Q sim 0 (rrInit sim) := by
  have hinit := rrInit_all_arrived sim (fun p hp => le_of_eq (h0 p hp).1)
  obtain ⟨hinv, _⟩ := rrInit_inv sim (fun p hp => (h0 p hp).2)
  refine ⟨hinv, rrInit_map_static sim, ?_, ?_, ?_, ?_, ?_⟩
  · rw [hinit]; simp
  · rw [hinit]; exact ⟨[], by simp⟩
  · intro m p _ hp
    rw [hinit] at hp
    dsimp only at hp
    rw [List.getElem?_map] at hp
    obtain ⟨q, _, hq⟩ := Option.map_eq_some'.mp hp
    subst hq; rfl
  · rw [hinit]; simp
  · rw [hinit]; simp

/-! ## Claim about the first round -/

/-- The first round in exact arithmetic: for every `Q > 0` and every workload
whose records all arrive at time 0
with service times `≥ 0`, a record at position `i` with `cpu_time ≤ Q` is
finished by `runRR Q` at its first dispatch, with
`finish_time = sum over j < i of (min Q cpu_time_j + SWITCH_TIME) + cpu_time_i`.
For `Q = 4` and the workload (arrival 0, service 10), (arrival 0, service 4),
process 2 gets `finish_time = 10` and process 1 finishes later, at 20. -/
theorem runRR_first_round (Q : Int) (hQ : 0 < Q) (sim : Simulator)
    (h0 : ∀ p ∈ sim.processes, p.arrival_time = 0 ∧ 0 ≤ p.cpu_time)
    (i : Nat) (p0 : Process) (hp0 : sim.processes[i]? = some p0) (hle : p0.cpu_time ≤ Q) :
    (∃ out p, (∀ fuel, rrFuel sim ≤ fuel → runRR Q fuel sim = some out) ∧
      out.processes[i]? = some p ∧ p.finished = true ∧
      p.finish_time
        = ((sim.processes.take i).map (fun q => min Q q.cpu_time + SWITCH_TIME)).sum
          + p0.cpu_time) ∧
    (runRR 4 (rrFuel (Simulator.load [(1, 0, 10), (2, 0, 4)]))
        (Simulator.load [(1, 0, 10), (2, 0, 4)])).map
      (fun s => s.processes.map (fun p => (p.process_number, p.finish_time)))
      = some [(1, 20), (2, 10)] := by
  refine ⟨?_, by decide⟩
  obtain ⟨r, hr, _, _⟩ := rrLoop_total Q hQ sim (fun p hp => (h0 p hp).2)
  obtain ⟨p, hp, hfin, hft⟩ :=
    rrLoop_first_round Q hQ sim i p0 hp0 hle i 0 (rrInit sim) (by omega)
      (rrInit_first_round Q sim h0) (rrFuel sim) r (hr _ (le_refl _))
  refine ⟨r.toSimulator, p, ?_, hp, hfin, hft⟩
  intro fuel hf
  simp [runRR, hr fuel hf]

/-- Evaluation of the first round for `Q = 4` at the third record of a workload of three. -/
theorem runRR_first_round_witness :
    ∃ out p, (∀ fuel, rrFuel (Simulator.load [(1, 0, 10), (2, 0, 0), (3, 0, 3)]) ≤ fuel →
        runRR 4 fuel (Simulator.load [(1, 0, 10), (2, 0, 0), (3, 0, 3)]) = some out) ∧
      out.processes[2]? = some p ∧ p.finished = true ∧
      p.finish_time
        = (((Simulator.load [(1, 0, 10), (2, 0, 0), (3, 0, 3)]).processes.take 2).map
            (fun q => min 4 q.cpu_time + SWITCH_TIME)).sum
          + (Process.new 3 0 3).cpu_time :=
  (runRR_first_round 4 (by decide) (Simulator.load [(1, 0, 10), (2, 0, 0), (3, 0, 3)])
    (by decide) 2 (Process.new 3 0 3) (by decide) (by decide)).1

/-! ## Switch count of a batch that arrives at time 0 -/

theorem ceilDiv_zero (Q : Int) (hQ : 0 < Q) : ceilDiv 0 Q = 0 := by
  unfold ceilDiv
  exact Int.ediv_eq_zero_of_lt (by omega) (by omega)

theorem ceilDiv_small (Q r : Int) (hQ : 0 < Q) (h1 : 1 ≤ r) (h2 : r ≤ Q) : ceilDiv r Q = 1 := by
  unfold ceilDiv
  have : r + Q - 1 = (r - 1) + 1 * Q := by ring
  rw [this, Int.add_mul_ediv_right _ _ (ne_of_gt hQ),
    Int.ediv_eq_zero_of_lt (by omega) (by omega)]
  rfl

theorem ceilDiv_sub (Q r : Int) (hQ : 0 < Q) : ceilDiv (r - Q) Q = ceilDiv r Q - 1 := by
  unfold ceilDiv
  have : r + Q - 1 = (r - Q + Q - 1) + 1 * Q := by ring
  rw [this, Int.add_mul_ediv_right _ _ (ne_of_gt hQ)]
  ring

theorem sum_map_set_int (f : Process → Int) (l : List Process) :
    ∀ (i : Nat) (p x : Process), l[i]? = some p →
      ((l.set i x).map f).sum = (l.map f).sum - f p + f x := by
  induction l with
  | nil => intro i p x h; simp at h
  | cons a rest ih =>
    intro i p x h
    cases i with
    | zero =>
      simp only [List.getElem?_cons_zero, Option.some.injEq] at h
      subst h
      simp only [List.set_cons_zero, List.map_cons, List.sum_cons]
      ring
    | succ j =>
      simp only [List.getElem?_cons_succ] at h
      have := ih j p x h
      simp only [List.set_cons_succ, List.map_cons, List.sum_cons, this]
      ring

theorem sum_ceilDiv_done (Q : Int) (hQ : 0 < Q) (l : List Process)
    (h : ∀ p ∈ l, p.remaining_burst = 0) :
    (l.map (fun p => ceilDiv p.remaining_burst Q)).sum = 0 := by
  induction l with
  | nil => simp
  | cons a rest ih =>
    simp only [List.map_cons, List.sum_cons, h a (List.mem_cons_self _ _), ceilDiv_zero Q hQ,
      ih (fun p hp => h p (List.mem_cons_of_mem _ hp))]
    rfl

theorem sum_served_done (l : List Process) (h : ∀ p ∈ l, p.remaining_burst = 0) :
    (l.map (fun p => p.cpu_time - p.remaining_burst)).sum
      = (l.map (fun p => p.cpu_time)).sum := by
  apply congrArg List.sum
  apply List.map_congr_left
  intro p hp
  rw [h p hp]; ring

theorem RRInv.all_finished {M : Int} {s : RRState} (h : RRInv M s)
    (hc : s.nextProcessToCheck = s.processes.length) (hr : s.ready_queue_rr = []) :
    ¬ s.finish_queue_rr.length < s.processes.length := by
  have hlen := h.1.perm.length_eq
  simp only [hr, List.nil_append, List.length_range] at hlen
  omega

theorem RRBatch.batch_step {Q M D0 : Int} {s : RRState} (h : RRBatch Q M D0 s) (hQ : 0 < Q)
    (hc : s.finish_queue_rr.length < s.processes.length) :
    RRBatch Q M D0 (rrStep Q s) := by
  have hsw : SWITCH_TIME = 2 := rfl
  have hinv := rrStep_inv Q M hQ s h.inv
  have hfull := rrStep_full Q s h.cursor
  have hclock := h.clock
  have hnn := h.clock_nonneg
  rcases h.switches with ⟨hne, hD⟩ | ⟨hempty, _, _⟩
  swap
  · exact absurd hc (h.inv.all_finished h.cursor hempty)
  cases hq : s.ready_queue_rr with
  | nil => exact absurd hq hne
  | cons k q =>
    obtain ⟨job, hjob⟩ := h.inv.1.head_job hq
    have hb := h.inv.1.rem_bounds k job hjob
    have hpos := h.queued_pos k (by simp [hq]) job hjob
    have hnf := h.inv.1.head_not_finished hq
    have hlt : k < s.processes.length := (List.getElem?_eq_some.mp hjob).1
    have hnd : (s.ready_queue_rr ++ s.finish_queue_rr).Nodup :=
      (h.inv.1.perm.nodup_iff).mpr (List.nodup_range _)
    have hkq : k ∉ q := by
      rw [hq] at hnd
      intro hmem
      exact (List.nodup_cons.mp hnd).1 (List.mem_append_left _ hmem)
    by_cases hrem : 0 < job.remaining_burst - min Q job.remaining_burst
    · have hQr : Q < job.remaining_burst := by omega
      have hmin : min Q job.remaining_burst = Q := min_eq_left (le_of_lt hQr)
      have heq := hfull.trans (rrDispatch_preempt Q s k q job hq hjob hrem)
      rw [hmin] at heq
      have hs1 := sum_map_set_int (fun p => p.cpu_time - p.remaining_burst) s.processes k job
        { job with remaining_burst := job.remaining_burst - Q } hjob
      have hs2 := sum_map_set_int (fun p => ceilDiv p.remaining_burst Q) s.processes k job
        { job with remaining_burst := job.remaining_burst - Q } hjob
      dsimp only at hs1 hs2
      rw [ceilDiv_sub Q _ hQ] at hs2
      refine ⟨hinv, ?_, ?_, ?_, ?_, ?_, ?_⟩
      · rw [heq]; simpa using h.cursor
      · intro i hi p hp
        rw [heq] at hi hp
        dsimp only at hi hp
        rcases getElem?_set_cases _ _ _ _ _ hp with ⟨_, hpx⟩ | ⟨hik, hpo⟩
        · subst hpx; dsimp only; omega
        · refine h.queued_pos i ?_ p hpo
          rw [hq]
          rcases List.mem_append.mp hi with h1 | h1
          · exact List.mem_cons_of_mem _ h1
          · simp only [List.mem_singleton] at h1
            exact absurd h1 hik
      · rw [heq]; dsimp only
        rw [hs1, hclock, hsw]; ring
      · rw [heq]; dsimp only; rw [hsw]; omega
      · intro i hi p hp
        rw [heq] at hi hp ⊢
        dsimp only at hi hp ⊢
        rcases getElem?_set_cases _ _ _ _ _ hp with ⟨hik, _⟩ | ⟨_, hpo⟩
        · subst hik; exact absurd hi hnf
        · have := h.finished_le i hi p hpo
          rw [hsw]; omega
      · left
        rw [heq]; dsimp only
        refine ⟨by simp, ?_⟩
        rw [hs2]
        rw [hsw] at hD ⊢
        omega
    · have hrQ : job.remaining_burst ≤ Q := by omega
      have hmin : min Q job.remaining_burst = job.remaining_burst := min_eq_right hrQ
      have heq := hfull.trans (rrDispatch_finish Q s k q job hq hjob hrem)
      rw [hmin] at heq
      have hs1 := sum_map_set_int (fun p => p.cpu_time - p.remaining_burst) s.processes k job
        { job with remaining_burst := job.remaining_burst - job.remaining_burst,
                   finish_time := s.currentTime + job.remaining_burst,
                   turnaround_time := s.currentTime + job.remaining_burst - job.arrival_time,
                   waiting_time := s.currentTime + job.remaining_burst - job.arrival_time
                     - job.cpu_time,
                   finished := true } hjob
      have hs2 := sum_map_set_int (fun p => ceilDiv p.remaining_burst Q) s.processes k job
        { job with remaining_burst := job.remaining_burst - job.remaining_burst,
                   finish_time := s.currentTime + job.remaining_burst,
                   turnaround_time := s.currentTime + job.remaining_burst - job.arrival_time,
                   waiting_time := s.currentTime + job.remaining_burst - job.arrival_time
                     - job.cpu_time,
                   finished := true } hjob
      dsimp only at hs1 hs2
      have hcd : ceilDiv (job.remaining_burst - job.remaining_burst) Q = 0 := by
        rw [sub_self]; exact ceilDiv_zero Q hQ
      rw [hcd, ceilDiv_small Q _ hQ hpos hrQ] at hs2
      have hsw0 : (0 : Int) ≤ (if q ≠ [] then SWITCH_TIME else 0) := by
        split <;> simp [hsw]
      refine ⟨hinv, ?_, ?_, ?_, ?_, ?_, ?_⟩
      · rw [heq]; simpa using h.cursor
      · intro i hi p hp
        rw [heq] at hi hp
        dsimp only at hi hp
        rcases getElem?_set_cases _ _ _ _ _ hp with ⟨hik, _⟩ | ⟨_, hpo⟩
        · subst hik; exact absurd hi hkq
        · exact h.queued_pos i (by rw [hq]; exact List.mem_cons_of_mem _ hi) p hpo
      · rw [heq]; dsimp only
        rw [hs1, hclock]; ring
      · rw [heq]; dsimp only; omega
      · intro i hi p hp
        rw [heq] at hi hp ⊢
        dsimp only at hi hp ⊢
        rcases getElem?_set_cases _ _ _ _ _ hp with ⟨_, hpx⟩ | ⟨hik, hpo⟩
        · subst hpx; dsimp only; omega
        · have hif : i ∈ s.finish_queue_rr := by
            rcases List.mem_append.mp hi with h1 | h1
            · exact h1
            · simp only [List.mem_singleton] at h1
              exact absurd h1 hik
          have := h.finished_le i hif p hpo
          omega
      · by_cases hqe : q = []
        · right
          have hcur : (rrStep Q s).nextProcessToCheck = (rrStep Q s).processes.length := by
            rw [heq]; simpa using h.cursor
          have hrq : (rrStep Q s).ready_queue_rr = [] := by rw [heq]; exact hqe
          have hdone := (rrInv_exit M _ hinv (hinv.all_finished hcur hrq)).2.2
          have hzero := sum_ceilDiv_done Q hQ _ (fun p hp => (hdone p hp).2.1)
          rw [heq] at hzero
          dsimp only at hzero
          rw [hs2] at hzero
          rw [heq]; dsimp only
          refine ⟨hqe, ?_, _, List.mem_iff_getElem?.mpr ⟨k, List.getElem?_set_self hlt⟩, ?_⟩
          · rw [if_neg (not_not.mpr hqe)]
            rw [hsw] at hD ⊢
            omega
          · rw [if_neg (not_not.mpr hqe)]; simp
        · left
          rw [heq]; dsimp only
          refine ⟨hqe, ?_⟩
          rw [hs2, if_pos hqe]
          rw [hsw] at hD ⊢
          omega

theorem rrLoop_batch (Q M D0 : Int) (hQ : 0 < Q) :
    ∀ (fuel : Nat) (s res : RRState), RRBatch Q M D0 s → rrLoop Q fuel s = some res →
      RRBatch Q M D0 res ∧ ¬ res.finish_queue_rr.length < res.processes.length := by
  intro fuel
  induction fuel with
  | zero =>
    intro s res h hr
    by_cases hc : s.finish_queue_rr.length < s.processes.length
    · simp [rrLoop, hc] at hr
    · simp only [rrLoop, if_neg hc, Option.some.injEq] at hr
      subst hr
      exact ⟨h, hc⟩
  | succ n ih =>
    intro s res h hr
    by_cases hc : s.finish_queue_rr.length < s.processes.length
    · simp only [rrLoop, if_pos hc] at hr
      exact ih _ res (h.batch_step hQ hc) hr
    · simp only [rrLoop, if_neg hc, Option.some.injEq] at hr
      subst hr
      exact ⟨h, hc⟩

theorem rrInit_batch (Q : Int) (sim : Simulator) (hne : sim.processes ≠ [])
    (h0 : ∀ p ∈ sim.processes, p.arrival_time = 0 ∧ 1 ≤ p.cpu_time) :
    RRBatch Q (maxArrival sim.processes)
      (sim.processes.map (fun p => ceilDiv p.cpu_time Q)).sum (rrInit sim) := by
  have hinit := rrInit_all_arrived sim (fun p hp => le_of_eq (h0 p hp).1)
  obtain ⟨hinv, _⟩ := rrInit_inv sim (fun p hp => by have := (h0 p hp).2; omega)
  have hget : ∀ (i : Nat) (p : Process), (sim.processes.map rrReset)[i]? = some p →
      ∃ p0 ∈ sim.processes, p = rrReset p0 := by
    intro i p hp
    rw [List.getElem?_map] at hp
    obtain ⟨p0, hp0, hpe⟩ := Option.map_eq_some'.mp hp
    exact ⟨p0, List.mem_iff_getElem?.mpr ⟨i, hp0⟩, hpe.symm⟩
  have hpos : 0 < sim.processes.length := List.length_pos.mpr hne
  refine ⟨hinv, ?_, ?_, ?_, ?_, ?_, ?_⟩
  · rw [hinit]; simp
  · intro i _ p hp
    rw [hinit] at hp
    obtain ⟨p0, hp0, hpe⟩ := hget i p hp
    subst hpe
    exact (h0 p0 hp0).2
  · rw [hinit]
    simp [List.map_map, Function.comp_def, rrReset]
  · rw [hinit]
  · intro i hi
    rw [hinit] at hi
    simp at hi
  · left
    rw [hinit]
    refine ⟨?_, ?_⟩
    · intro hnil
      dsimp only at hnil
      have := congrArg List.length hnil
      rw [List.length_range', List.length_nil] at this
      omega
    · simp [List.map_map, Function.comp_def, rrReset]

/-! ## Claim about the switch count of a batch -/

/-- The batch totals in exact arithmetic: for every `Q > 0` and every non-empty
workload whose records all arrive
at time 0 with service times `s_i ≥ 1`, `runRR Q` returns with
`total_switch_time = SWITCH_TIME * (sum of ceil (s_i / Q) - 1)`, a switch after
every dispatch but the last, and the maximum `finish_time` equals
`sum(s_i) + total_switch_time`. -/
theorem runRR_batch_totals (Q : Int) (hQ : 0 < Q) (sim : Simulator)
    (hne : sim.processes ≠ [])
    (h0 : ∀ p ∈ sim.processes, p.arrival_time = 0 ∧ 1 ≤ p.cpu_time) :
    ∃ out, (∀ fuel, rrFuel sim ≤ fuel → runRR Q fuel sim = some out) ∧
      out.total_switch_time
        = SWITCH_TIME * ((sim.processes.map (fun p => ceilDiv p.cpu_time Q)).sum - 1) ∧
      (displayTotals out.processes).total_time
        = (sim.processes.map (fun p => p.cpu_time)).sum + out.total_switch_time := by
  have hsw : SWITCH_TIME = 2 := rfl
  obtain ⟨r, hr, hrq, hdone⟩ :=
    rrLoop_total Q hQ sim (fun p hp => by have := (h0 p hp).2; omega)
  have hrun := hr _ (le_refl _)
  obtain ⟨hb, hc⟩ := rrLoop_batch Q _ _ hQ _ _ r (rrInit_batch Q sim hne h0) hrun
  have hstat := rrLoop_map_static Q _ _ r hrun
  rw [rrInit_map_static] at hstat
  have hcpu : (r.processes.map (fun p => p.cpu_time)).sum
      = (sim.processes.map (fun p => p.cpu_time)).sum := by
    have := congrArg (List.map (fun t : Int × Int × Int => t.2.2)) hstat
    simp only [List.map_map] at this
    exact congrArg List.sum this
  have hclock := hb.clock
  rw [sum_served_done _ (fun p hp => (hdone p hp).2.1), hcpu] at hclock
  rcases hb.switches with ⟨hne1, _⟩ | ⟨_, htot, p, hp, hpf⟩
  · exact absurd hrq hne1
  · have hall : ∀ q ∈ r.processes, q.finish_time ≤ r.currentTime := by
      intro q hq
      obtain ⟨i, hi⟩ := List.mem_iff_getElem?.mp hq
      have hil : i < r.processes.length := (List.getElem?_eq_some.mp hi).1
      have hmem : i ∈ r.ready_queue_rr ++ r.finish_queue_rr :=
        (hb.inv.1.perm.mem_iff).mpr (List.mem_range.mpr (by rw [hb.cursor]; exact hil))
      rw [hrq, List.nil_append] at hmem
      exact hb.finished_le i hmem q hi
    have htime := displayTotals_time r.processes r.currentTime hb.clock_nonneg hall ⟨p, hp, hpf⟩
    refine ⟨r.toSimulator, ?_, ?_, ?_⟩
    · intro fuel hf
      simp [runRR, hr fuel hf]
    · show r.total_switch_time = _
      rw [hsw] at htot ⊢
      omega
    · show (displayTotals r.processes).total_time = _ + r.total_switch_time
      rw [htime, hclock]

/-- Evaluation of the batch totals for `Q = 4` on the workload (arrival 0, service 10),
(arrival 0, service 4). -/
theorem runRR_batch_totals_witness :
    ∃ out, (∀ fuel, rrFuel (Simulator.load [(1, 0, 10), (2, 0, 4)]) ≤ fuel →
        runRR 4 fuel (Simulator.load [(1, 0, 10), (2, 0, 4)]) = some out) ∧
      out.total_switch_time
        = SWITCH_TIME * (((Simulator.load [(1, 0, 10), (2, 0, 4)]).processes.map
            (fun p => ceilDiv p.cpu_time 4)).sum - 1) ∧
      (displayTotals out.processes).total_time
        = ((Simulator.load [(1, 0, 10), (2, 0, 4)]).processes.map (fun p => p.cpu_time)).sum
          + out.total_switch_time :=
  runRR_batch_totals 4 (by decide) (Simulator.load [(1, 0, 10), (2, 0, 4)]) (by decide)
    (by decide)

/-! ## The 32-bit passes inside the range of `int` -/

theorem wrapInt_of_range (x : Int) (h1 : -2147483648 ≤ x) (h2 : x ≤ 2147483647) :
    wrapInt x = x := by
  unfold wrapInt
  omega

theorem doubleToInt_of_range (x : Int) (h1 : -2147483648 ≤ x) (h2 : x ≤ 2147483647) :
    doubleToInt x = x := by
  unfold doubleToInt
  rw [if_pos ⟨h1, h2⟩]

/-- One iteration of the FCFS loop computes the same fields in `int` arithmetic
as in exact arithmetic when the record has arrived by the dispatch time `t`,
its arrival and service times are not negative, and `t + cpu_time` is within
the range of `int`. -/
theorem fcfsRun32_eq (t : Int) (p : Process) (h0 : 0 ≤ p.arrival_time)
    (h1 : p.arrival_time ≤ t) (h2 : 0 ≤ p.cpu_time) (h3 : t + p.cpu_time ≤ 2147483647) :
    fcfsRun32 t p = fcfsRun t p := by
  unfold fcfsRun32 fcfsRun
  rw [doubleToInt_of_range _ (by omega) h3, wrapInt_of_range _ (by omega) (by omega),
    wrapInt_of_range _ (by omega) (by omega)]

/-- The FCFS loop in `int` arithmetic agrees with the loop in exact arithmetic
as long as the clock cannot leave the range of `int`: `M` bounds the arrival
times, and the later of `M` and the starting clock, plus all service times,
plus one `SWITCH_TIME` per record, is at most `INT_MAX`. -/
theorem fcfsLoop32_eq (M : Int) : ∀ (l : List Process) (c sw : Int), 0 ≤ c → 0 ≤ sw →
    (∀ p ∈ l, 0 ≤ p.arrival_time ∧ p.arrival_time ≤ M ∧ 0 ≤ p.cpu_time) →
    max c M + (l.map (fun p => p.cpu_time)).sum + SWITCH_TIME * (l.length : Int)
      ≤ 2147483647 →
    sw + SWITCH_TIME * (l.length : Int) ≤ 2147483647 →
    fcfsLoop32 c sw l = fcfsLoop c sw l := by
  have hsw : SWITCH_TIME = 2 := rfl
  intro l
  induction l with
  | nil => intro c sw _ _ _ _ _; rfl
  | cons p rest ih =>
    intro c sw hc hs hv hb hb2
    obtain ⟨hp0, hpM, hpc⟩ := hv p (List.mem_cons_self _ _)
    have hrest : ∀ q ∈ rest, 0 ≤ q.arrival_time ∧ q.arrival_time ≤ M ∧ 0 ≤ q.cpu_time :=
      fun q hq => hv q (List.mem_cons_of_mem _ hq)
    have hsum : 0 ≤ (rest.map (fun p => p.cpu_time)).sum := by
      apply List.sum_nonneg
      intro x hx
      obtain ⟨q, hq, rfl⟩ := List.mem_map.mp hx
      exact (hrest q hq).2.2
    have ht : fcfsDispatchTime c p = max c p.arrival_time := fcfsDispatchTime_eq_max c p
    simp only [List.map_cons, List.sum_cons, List.length_cons, Nat.cast_add, Nat.cast_one,
      hsw] at hb hb2
    have hlen : 0 ≤ (rest.length : Int) := Int.ofNat_nonneg _
    have htM : max c p.arrival_time ≤ max c M := max_le_max (le_refl c) hpM
    have htc : c ≤ max c p.arrival_time := le_max_left _ _
    have hta : p.arrival_time ≤ max c p.arrival_time := le_max_right _ _
    have hrun : fcfsRun32 (fcfsDispatchTime c p) p = fcfsRun (fcfsDispatchTime c p) p := by
      rw [ht]
      exact fcfsRun32_eq _ p hp0 hta hpc (by omega)
    have hfin : doubleToInt (fcfsDispatchTime c p + p.cpu_time)
        = fcfsDispatchTime c p + p.cpu_time := by
      rw [ht]
      exact doubleToInt_of_range _ (by omega) (by omega)
    have hclk : wrapInt (fcfsDispatchTime c p + p.cpu_time + SWITCH_TIME)
        = fcfsDispatchTime c p + p.cpu_time + SWITCH_TIME := by
      rw [ht, hsw]
      exact wrapInt_of_range _ (by omega) (by omega)
    have hacc : wrapInt (sw + SWITCH_TIME) = sw + SWITCH_TIME := by
      rw [hsw]
      exact wrapInt_of_range _ (by omega) (by omega)
    have hmax : max (fcfsDispatchTime c p + p.cpu_time + SWITCH_TIME) M
        ≤ max c M + p.cpu_time + SWITCH_TIME := by
      rw [ht, hsw]
      apply max_le
      · omega
      · have : M ≤ max c M := le_max_right _ _
        omega
    have hmax2 : max (fcfsDispatchTime c p + p.cpu_time) M ≤ max c M + p.cpu_time := by
      rw [ht]
      apply max_le
      · omega
      · have : M ≤ max c M := le_max_right _ _
        omega
    unfold fcfsLoop32 fcfsLoop
    simp only [hrun, hfin, hclk, hacc]
    by_cases hne : rest ≠ []
    · rw [if_pos hne, if_pos hne]
      rw [ih _ _ (by rw [ht, hsw]; omega) (by rw [hsw]; omega) hrest
        (by rw [hsw] at hmax ⊢; omega) (by rw [hsw]; omega)]
    · rw [if_neg hne, if_neg hne]
      rw [ih _ _ (by rw [ht]; omega) hs hrest (by rw [hsw]; omega) (by rw [hsw]; omega)]

/-- In range, `runFCFS` in `int` arithmetic is `runFCFS` in exact arithmetic: for
every sorting function meeting the `std::sort` contract and every workload
with arrival times in `[0, M]` and service times `≥ 0` such that
`M + sum(service_time) + SWITCH_TIME * n ≤ INT_MAX`, the two passes leave the
same simulator state. -/
theorem runFCFS32_eq_runFCFS (sort : List Process → List Process)
    (hsort : StdSortContract sort) (sim : Simulator) (M : Int) (hM : 0 ≤ M)
    (hv : ∀ p ∈ sim.processes, 0 ≤ p.arrival_time ∧ p.arrival_time ≤ M ∧ 0 ≤ p.cpu_time)
    (hb : M + (sim.processes.map (fun p => p.cpu_time)).sum
      + SWITCH_TIME * (sim.processes.length : Int) ≤ 2147483647) :
    runFCFS32 sort sim = runFCFS sort sim := by
  have hsw : SWITCH_TIME = 2 := rfl
  obtain ⟨hperm, _⟩ := hsort (sim.processes.map fcfsReset)
  have hmem : ∀ p ∈ sort (sim.processes.map fcfsReset),
      0 ≤ p.arrival_time ∧ p.arrival_time ≤ M ∧ 0 ≤ p.cpu_time := by
    intro p hp
    obtain ⟨q, hq, rfl⟩ := List.mem_map.mp (hperm.mem_iff.mp hp)
    simpa [fcfsReset] using hv q hq
  have hsum : ((sort (sim.processes.map fcfsReset)).map (fun p => p.cpu_time)).sum
      = (sim.processes.map (fun p => p.cpu_time)).sum := by
    rw [(hperm.map _).sum_eq]
    simp [List.map_map, Function.comp_def, fcfsReset]
  have hlen : (sort (sim.processes.map fcfsReset)).length = sim.processes.length := by
    rw [hperm.length_eq, List.length_map]
  have hl0 : 0 ≤ (sim.processes.length : Int) := Int.ofNat_nonneg _
  unfold runFCFS32 runFCFS
  rw [fcfsLoop32_eq M _ 0 0 (le_refl 0) (le_refl 0) hmem
    (by rw [hsum, hlen, max_eq_right hM]; exact hb)
    (by rw [hlen, hsw]; rw [hsw] at hb
        have : 0 ≤ (sim.processes.map (fun p => p.cpu_time)).sum := by
          apply List.sum_nonneg
          intro x hx
          obtain ⟨q, hq, rfl⟩ := List.mem_map.mp hx
          exact (hv q hq).2.2
        omega)]

/-! ## The dispatch loop inside the range of `int` -/

theorem RRCore.remaining_sum_nonneg {M : Int} {s : RRState} (h : RRCore M s) :
    0 ≤ (s.processes.map (fun p => p.remaining_burst)).sum := by
  apply List.sum_nonneg
  intro x hx
  obtain ⟨q, hq, rfl⟩ := List.mem_map.mp hx
  obtain ⟨i, hi⟩ := List.mem_iff_getElem?.mp hq
  exact (h.rem_bounds i q hi).1

theorem RRCore.remaining_le_sum {M : Int} {s : RRState} (h : RRCore M s) (i : Nat)
    (job : Process) (hjob : s.processes[i]? = some job) :
    job.remaining_burst ≤ (s.processes.map (fun p => p.remaining_burst)).sum := by
  apply List.single_le_sum
  · intro x hx
    obtain ⟨q, hq, rfl⟩ := List.mem_map.mp hx
    obtain ⟨j, hj⟩ := List.mem_iff_getElem?.mp hq
    exact (h.rem_bounds j q hj).1
  · exact List.mem_map.mpr ⟨job, List.mem_iff_getElem?.mpr ⟨i, hjob⟩, rfl⟩

/-- While the loop runs in a state that meets `RRInv` and `RRRange`, the dispatch
step computes the same state in `int` arithmetic as in exact arithmetic. -/
theorem rrDispatch32_eq (Q M : Int) (hQ : 0 < Q) (s : RRState) (h : RRInv M s)
    (hr : RRRange M s) (hc : s.finish_queue_rr.length < s.processes.length) :
    rrDispatch32 Q s = rrDispatch Q s := by
  have hsw : SWITCH_TIME = 2 := rfl
  have hb := hr.bound
  rw [hsw] at hb
  have hc0 := hr.clock_nonneg
  have hs0 := hr.switch_nonneg
  have hsc := hr.switch_le
  have hsum := h.1.remaining_sum_nonneg
  have hcM : s.currentTime ≤ max s.currentTime M := le_max_left _ _
  cases hq : s.ready_queue_rr with
  | nil =>
    rw [rrDispatch_idle Q s hq]
    have hw : wrapInt (s.currentTime + 1) = s.currentTime + 1 :=
      wrapInt_of_range _ (by omega) (by omega)
    simp [rrDispatch32, hq, hw]
  | cons i q =>
    obtain ⟨job, hjob⟩ := h.1.head_job hq
    have hrb := h.1.rem_bounds i job hjob
    have hle := h.1.remaining_le_sum i job hjob
    have hready := h.1.ready i (by rw [hq]; exact List.mem_cons_self _ _) job hjob
    have ha0 := hr.arr_nonneg i job hjob
    have hd : doubleToInt job.remaining_burst = job.remaining_burst :=
      doubleToInt_of_range _ (by omega) (by omega)
    have hclk : wrapInt (s.currentTime + min Q job.remaining_burst)
        = s.currentTime + min Q job.remaining_burst :=
      wrapInt_of_range _ (by omega) (by omega)
    have hclk2 : wrapInt (s.currentTime + min Q job.remaining_burst + SWITCH_TIME)
        = s.currentTime + min Q job.remaining_burst + SWITCH_TIME := by
      rw [hsw]
      exact wrapInt_of_range _ (by omega) (by omega)
    have hacc : wrapInt (s.total_switch_time + SWITCH_TIME)
        = s.total_switch_time + SWITCH_TIME := by
      rw [hsw]
      exact wrapInt_of_range _ (by omega) (by omega)
    have htat : wrapInt (s.currentTime + min Q job.remaining_burst - job.arrival_time)
        = s.currentTime + min Q job.remaining_burst - job.arrival_time :=
      wrapInt_of_range _ (by omega) (by omega)
    by_cases hrem : 0 < job.remaining_burst - min Q job.remaining_burst
    · rw [rrDispatch_preempt Q s i q job hq hjob hrem]
      simp [rrDispatch32, hq, hjob, hd, hclk, hrem, chargeSwitch32, hclk2, hacc]
    · rw [rrDispatch_finish Q s i q job hq hjob hrem]
      have hwait : doubleToInt (s.currentTime + min Q job.remaining_burst - job.arrival_time
            - job.cpu_time)
          = s.currentTime + min Q job.remaining_burst - job.arrival_time - job.cpu_time :=
        doubleToInt_of_range _ (by omega) (by omega)
      by_cases hne : q = []
      · simp [rrDispatch32, hq, hjob, hd, hclk, hrem, chargeSwitch32, htat, hwait, hne]
      · simp [rrDispatch32, hq, hjob, hd, hclk, hrem, chargeSwitch32, hclk2, hacc, htat,
          hwait, hne]

/-- The dispatch step keeps the range condition. -/
theorem rrDispatch_range (Q M : Int) (hQ : 0 < Q) (s : RRState) (h : RRInv M s)
    (hr : RRRange M s) (hc : s.finish_queue_rr.length < s.processes.length) :
    RRRange M (rrDispatch Q s) := by
  have hsw : SWITCH_TIME = 2 := rfl
  have hb := hr.bound
  rw [hsw] at hb
  have hc0 := hr.clock_nonneg
  have hs0 := hr.switch_nonneg
  have hsc := hr.switch_le
  obtain ⟨hcore, hpend⟩ := h
  have hsum := hcore.remaining_sum_nonneg
  have hcM : s.currentTime ≤ max s.currentTime M := le_max_left _ _
  have hMM : M ≤ max s.currentTime M := le_max_right _ _
  cases hq : s.ready_queue_rr with
  | nil =>
    rw [rrDispatch_idle Q s hq]
    have hlen := hcore.perm.length_eq
    simp only [hq, List.nil_append, List.length_range] at hlen
    have hnext : s.nextProcessToCheck < s.processes.length := by omega
    have hp : s.processes[s.nextProcessToCheck]? = some s.processes[s.nextProcessToCheck] :=
      List.getElem?_eq_getElem hnext
    have h1 := hpend _ hp
    have h2 := hcore.arr_le _ _ hp
    refine ⟨?_, hs0, ?_, hr.arr_nonneg, ?_⟩
    · dsimp only
      omega
    · dsimp only
      omega
    · dsimp only
      have hm : max (s.currentTime + 1) M ≤ max s.currentTime M :=
        max_le (by omega) hMM
      rw [hsw]
      omega
  | cons i q =>
    obtain ⟨job, hjob⟩ := hcore.head_job hq
    have hrb := hcore.rem_bounds i job hjob
    have hle := hcore.remaining_le_sum i job hjob
    by_cases hrem : 0 < job.remaining_burst - min Q job.remaining_burst
    · rw [rrDispatch_preempt Q s i q job hq hjob hrem]
      have hs := sum_map_set_int (fun p => p.remaining_burst) s.processes i job
        { job with remaining_burst := job.remaining_burst - min Q job.remaining_burst } hjob
      dsimp only at hs
      refine ⟨?_, ?_, ?_, ?_, ?_⟩
      · dsimp only
        rw [hsw]
        omega
      · dsimp only
        rw [hsw]
        omega
      · dsimp only
        rw [hsw]
        omega
      · intro j p hp
        dsimp only at hp
        rcases getElem?_set_cases _ _ _ _ _ hp with ⟨_, rfl⟩ | ⟨_, h2⟩
        · exact hr.arr_nonneg i job hjob
        · exact hr.arr_nonneg j p h2
      · dsimp only
        rw [hs, List.length_set, hsw]
        have hm : max (s.currentTime + min Q job.remaining_burst + 2) M
            ≤ max s.currentTime M + min Q job.remaining_burst + 2 :=
          max_le (by omega) (by omega)
        omega
    · rw [rrDispatch_finish Q s i q job hq hjob hrem]
      have hsw0 : (0 : Int) ≤ (if q ≠ [] then SWITCH_TIME else 0) := by
        split <;> simp [hsw]
      have hsw2 : (if q ≠ [] then SWITCH_TIME else 0) ≤ (2 : Int) := by
        split <;> simp [hsw]
      have hs := sum_map_set_int (fun p => p.remaining_burst) s.processes i job
        { job with remaining_burst := job.remaining_burst - min Q job.remaining_burst,
                   finish_time := s.currentTime + min Q job.remaining_burst,
                   turnaround_time :=
                     s.currentTime + min Q job.remaining_burst - job.arrival_time,
                   waiting_time :=
                     s.currentTime + min Q job.remaining_burst - job.arrival_time
                       - job.cpu_time,
                   finished := true } hjob
      dsimp only at hs
      refine ⟨?_, ?_, ?_, ?_, ?_⟩
      · dsimp only
        omega
      · dsimp only
        omega
      · dsimp only
        omega
      · intro j p hp
        dsimp only at hp
        rcases getElem?_set_cases _ _ _ _ _ hp with ⟨_, rfl⟩ | ⟨_, h2⟩
        · exact hr.arr_nonneg i job hjob
        · exact hr.arr_nonneg j p h2
      · dsimp only
        rw [hs, List.length_set, List.length_append, List.length_singleton, hsw]
        have hm : max (s.currentTime + min Q job.remaining_burst
              + (if q ≠ [] then SWITCH_TIME else 0)) M
            ≤ max s.currentTime M + min Q job.remaining_burst + 2 :=
          max_le (by omega) (by omega)
        push_cast
        omega

/-- The admission loop keeps the range condition: it moves the cursor and
extends the ready queue only. -/
theorem runAdmission_range (M : Int) (s : RRState) (hr : RRRange M s) :
    RRRange M (runAdmission s) :=
  ⟨hr.clock_nonneg, hr.switch_nonneg, hr.switch_le, hr.arr_nonneg, hr.bound⟩

theorem rrStep32_eq (Q M : Int) (hQ : 0 < Q) (s : RRState) (h : RRInv M s)
    (hr : RRRange M s) (hc : s.finish_queue_rr.length < s.processes.length) :
    rrStep32 Q s = rrStep Q s := by
  unfold rrStep32 rrStep
  rw [rrDispatch32_eq Q M hQ s h hr hc]

theorem rrStep_range (Q M : Int) (hQ : 0 < Q) (s : RRState) (h : RRInv M s)
    (hr : RRRange M s) (hc : s.finish_queue_rr.length < s.processes.length) :
    RRRange M (rrStep Q s) :=
  runAdmission_range M _ (rrDispatch_range Q M hQ s h hr hc)

/-- From a state that meets `RRInv` and `RRRange`, the dispatch loop in `int`
arithmetic is the dispatch loop in exact arithmetic, for every budget. -/
theorem rrLoop32_eq (Q M : Int) (hQ : 0 < Q) :
    ∀ (fuel : Nat) (s : RRState), RRInv M s → RRRange M s →
      rrLoop32 Q fuel s = rrLoop Q fuel s := by
  intro fuel
  induction fuel with
  | zero => intro s _ _; rfl
  | succ n ih =>
    intro s h hr
    by_cases hc : s.finish_queue_rr.length < s.processes.length
    · simp only [rrLoop32, rrLoop, if_pos hc]
      rw [rrStep32_eq Q M hQ s h hr hc]
      exact ih _ (rrStep_inv Q M hQ s h) (rrStep_range Q M hQ s h hr hc)
    · simp only [rrLoop32, rrLoop, if_neg hc]

theorem rrInit_range (sim : Simulator)
    (hv : ∀ p ∈ sim.processes, 0 ≤ p.arrival_time ∧ 0 ≤ p.cpu_time)
    (hb : maxArrival sim.processes + 3 * (sim.processes.map (fun p => p.cpu_time)).sum
      + SWITCH_TIME * (sim.processes.length : Int) ≤ 2147483647) :
    RRRange (maxArrival sim.processes) (rrInit sim) := by
  have hM : 0 ≤ maxArrival sim.processes := by
    unfold maxArrival
    cases sim.processes with
    | nil => simp
    | cons a rest => simp only [List.foldr_cons]; exact le_max_of_le_right (by
        induction rest with
        | nil => simp
        | cons b r ih => simp only [List.foldr_cons]; exact le_max_of_le_right ih)
  apply runAdmission_range
  refine ⟨le_refl _, le_refl _, le_refl _, ?_, ?_⟩
  · intro i p hp
    dsimp only at hp
    rw [List.getElem?_map] at hp
    obtain ⟨p0, hp0, hpe⟩ := Option.map_eq_some'.mp hp
    subst hpe
    simpa [rrReset] using (hv p0 (List.mem_iff_getElem?.mpr ⟨i, hp0⟩)).1
  · dsimp only
    have hsum : ((sim.processes.map rrReset).map (fun p => p.remaining_burst)).sum
        = (sim.processes.map (fun p => p.cpu_time)).sum := by
      simp [List.map_map, Function.comp_def, rrReset]
    rw [hsum, List.length_map, max_eq_right hM]
    simpa using hb

/-- In range, `runRR` in `int` arithmetic is `runRR` in exact arithmetic: for
every `Q > 0`, every workload with arrival times and service times `≥ 0` such
that `max arrival + 3 * sum(service_time) + SWITCH_TIME * n ≤ INT_MAX`, and
every budget, the two give the same result. -/
theorem runRR32_eq_runRR (Q : Int) (hQ : 0 < Q) (sim : Simulator)
    (hv : ∀ p ∈ sim.processes, 0 ≤ p.arrival_time ∧ 0 ≤ p.cpu_time)
    (hb : maxArrival sim.processes + 3 * (sim.processes.map (fun p => p.cpu_time)).sum
      + SWITCH_TIME * (sim.processes.length : Int) ≤ 2147483647)
    (fuel : Nat) :
    runRR32 Q fuel sim = runRR Q fuel sim := by
  unfold runRR32 runRR
  rw [rrLoop32_eq Q (maxArrival sim.processes) hQ fuel (rrInit sim)
    (rrInit_inv sim (fun p hp => (hv p hp).2)).1 (rrInit_range sim hv hb)]

/-! ## Claims where `int` overflow decides -/

/-- C7, as stated, fails at service time 0.  For the single process with arrival
time 3 and service time 0, `runFCFS` leaves `total_execution_time = 0` and
`total_switch_time = 0`, so the quotient of line 97 is `0 / 0`: `displayResults`
prints `nan`, not 100%. -/
theorem runFCFS32_single_efficiency_counterexample :
    cpuEfficiencyOperands (runFCFS32 stdSort (Simulator.load [(1, 3, 0)])) = (0, 0) ∧
    (runFCFS32 stdSort (Simulator.load [(1, 3, 0)])).processes.map
      (fun p => (p.execution_time, p.finish_time, p.waiting_time, p.turnaround_time))
      = [(3, 3, 0, 0)] := by
  constructor <;> decide

/-- C7 (amended): for a workload of exactly one process with arrival time
`A ≥ 0` and service time `S ≥ 0` such that `A + S ≤ 2147483647`, `runFCFS` (in
the program's `int` arithmetic, for every sorting function meeting the
`std::sort` contract) yields `execution_time = A`, `finish_time = A + S`,
`waiting_time = 0`, `turnaround_time = S` and `total_switch_time = 0`, and the
cpu efficiency is computed as `S / (S + 0) * 100`: 100% when `S > 0`, and the
quotient `0 / 0` when `S = 0`. -/
theorem runFCFS32_single (sort : List Process → List Process)
    (hsort : StdSortContract sort) (s : Simulator) (p0 : Process)
    (hs : s.processes = [p0]) (hA : 0 ≤ p0.arrival_time) (hS : 0 ≤ p0.cpu_time)
    (hrange : p0.arrival_time + p0.cpu_time ≤ 2147483647) :
    (∃ p, (runFCFS32 sort s).processes = [p] ∧ p.static = p0.static ∧
      p.execution_time = p0.arrival_time ∧
      p.finish_time = p0.arrival_time + p0.cpu_time ∧
      p.waiting_time = 0 ∧ p.turnaround_time = p0.cpu_time) ∧
    (runFCFS32 sort s).total_switch_time = 0 ∧
    cpuEfficiencyOperands (runFCFS32 sort s) = (p0.cpu_time, p0.cpu_time) := by
  have h1 : sort (s.processes.map fcfsReset) = [fcfsReset p0] := by
    have := (hsort (s.processes.map fcfsReset)).1
    rw [hs] at this ⊢
    simpa using this
  have hd : fcfsDispatchTime 0 (fcfsReset p0) = p0.arrival_time := by
    rw [fcfsDispatchTime_eq_max]
    simpa [fcfsReset] using hA
  have hrun : fcfsRun32 p0.arrival_time (fcfsReset p0)
      = fcfsRun p0.arrival_time (fcfsReset p0) :=
    fcfsRun32_eq _ _ hA (le_refl _) hS hrange
  have hp : (runFCFS32 sort s).processes = [fcfsRun p0.arrival_time (fcfsReset p0)] := by
    simp [runFCFS32, h1, fcfsLoop32, hd, hrun]
  have hsw : (runFCFS32 sort s).total_switch_time = 0 := by
    simp [runFCFS32, h1, fcfsLoop32]
  refine ⟨⟨fcfsRun p0.arrival_time (fcfsReset p0), hp, ?_, ?_, ?_, ?_, ?_⟩, hsw, ?_⟩
  · simp [fcfsRun, fcfsReset, Process.static]
  · simp [fcfsRun]
  · simp [fcfsRun, fcfsReset]
  · simp [fcfsRun, fcfsReset]
  · simp [fcfsRun, fcfsReset]
  · simp [cpuEfficiencyOperands, hp, hsw, displayTotals, fcfsRun, fcfsReset]

/-- Evaluation of the amended C7 on the single process (number 7, arrival 3,
service 4): the operands of the efficiency quotient are 4 and 4. -/
theorem runFCFS32_single_witness :
    (∃ p, (runFCFS32 insertionSortByArrival (Simulator.load [(7, 3, 4)])).processes = [p] ∧
      p.static = (Process.new 7 3 4).static ∧
      p.execution_time = (Process.new 7 3 4).arrival_time ∧
      p.finish_time = (Process.new 7 3 4).arrival_time + (Process.new 7 3 4).cpu_time ∧
      p.waiting_time = 0 ∧ p.turnaround_time = (Process.new 7 3 4).cpu_time) ∧
    (runFCFS32 insertionSortByArrival (Simulator.load [(7, 3, 4)])).total_switch_time = 0 ∧
    cpuEfficiencyOperands (runFCFS32 insertionSortByArrival (Simulator.load [(7, 3, 4)]))
      = ((Process.new 7 3 4).cpu_time, (Process.new 7 3 4).cpu_time) :=
  runFCFS32_single insertionSortByArrival insertionSortByArrival_contract
    (Simulator.load [(7, 3, 4)]) (Process.new 7 3 4) (by decide) (by decide) (by decide)
    (by decide)

/-- C1: the program's `int` arithmetic breaks the recurrence.  For the workload
of one process with arrival time 2147483647 and service time 5, `runFCFS`
stores `execution_time = 2147483647` and `finish_time = -2147483648`, where the
claim gives `finish_time = execution_time + service_time = 2147483652`.  On the
example of the claim, (arrival 0, service 5), (arrival 0, service 3), the
program gives process 1 `finish_time` 5 and process 2 `execution_time` 7 and
`finish_time` 10, as claimed. -/
theorem runFCFS32_schedule_overflow :
    (runFCFS32 stdSort (Simulator.load [(1, 2147483647, 5)])).processes.map
        (fun p => (p.execution_time, p.cpu_time, p.finish_time))
      = [(2147483647, 5, -2147483648)] ∧
    ¬ (∀ p ∈ (runFCFS32 stdSort (Simulator.load [(1, 2147483647, 5)])).processes,
        p.finish_time = p.execution_time + p.cpu_time) ∧
    (runFCFS32 stdSort (Simulator.load [(1, 0, 5), (2, 0, 3)])).processes.map
        (fun p => (p.process_number, p.execution_time, p.finish_time))
      = [(1, 0, 5), (2, 7, 10)] := by
  refine ⟨by decide, by decide, by decide⟩

/-- C10: the program's `int` arithmetic breaks the record metrics.  For the
workload of one process with arrival time 2147483647 and service time 5,
`runFCFS` stores `waiting_time = 0`, `finish_time = -2147483648` and
`turnaround_time = 1`: `turnaround_time` is not `waiting_time + service_time = 5`
and `finish_time` is below `arrival_time + service_time`. -/
theorem runFCFS32_record_metrics_overflow :
    (runFCFS32 stdSort (Simulator.load [(1, 2147483647, 5)])).processes.map
        (fun p => (p.finished, p.execution_time, p.waiting_time, p.finish_time,
          p.turnaround_time))
      = [(true, 2147483647, 0, -2147483648, 1)] ∧
    ¬ (∀ p ∈ (runFCFS32 stdSort (Simulator.load [(1, 2147483647, 5)])).processes,
        p.turnaround_time = p.waiting_time + p.cpu_time ∧
        p.arrival_time + p.cpu_time ≤ p.finish_time) := by
  refine ⟨by decide, by decide⟩

/-- C20: the program's `int` arithmetic breaks the total time.  For the workload
of one process with arrival time 2147483647 and service time 5, the last (and
only) record has `finish_time = -2147483648` after `runFCFS`, the maximum that
`displayResults` computes is 0, and
`sum(service_time) + total_switch_time + idle_gaps` is `5 + 0 + 2147483647`. -/
theorem runFCFS32_total_time_overflow :
    (runFCFS32 stdSort (Simulator.load [(1, 2147483647, 5)])).processes.getLast?.map
        (fun p => p.finish_time) = some (-2147483648) ∧
    (displayTotals (runFCFS32 stdSort (Simulator.load [(1, 2147483647, 5)])).processes).total_time
      = 0 ∧
    ((Simulator.load [(1, 2147483647, 5)]).processes.map (fun p => p.cpu_time)).sum
        + (runFCFS32 stdSort (Simulator.load [(1, 2147483647, 5)])).total_switch_time
        + fcfsIdleGaps 0 (runFCFS32 stdSort (Simulator.load [(1, 2147483647, 5)])).processes
      = 2147483652 := by
  refine ⟨by decide, by decide, by decide⟩

/-- C3: the program's `int` arithmetic breaks the record metrics of `runRR`.  For
`Q = 2147483647` and the workload (arrival 0, service 2147483647),
(arrival 0, service 5), the clock is 2147483647 after the first slice and wraps
when `SWITCH_TIME` is added: process 2 ends with `finish_time = -2147483642`,
`turnaround_time = -2147483642`, below its service time 5, and
`waiting_time = -2147483647`, below 0. -/
theorem runRR32_record_metrics_overflow :
    (runRR32 2147483647 (rrFuel (Simulator.load [(1, 0, 2147483647), (2, 0, 5)]))
        (Simulator.load [(1, 0, 2147483647), (2, 0, 5)])).map
      (fun s => s.processes.map
        (fun p => (p.cpu_time, p.finish_time, p.turnaround_time, p.waiting_time)))
      = some [(2147483647, 2147483647, 2147483647, 0),
              (5, -2147483642, -2147483642, -2147483647)] := by
  decide

/-- C13: the program's `int` arithmetic breaks the first-round finish time.  For
`Q = 2147483647` and the workload (arrival 0, service 2147483647),
(arrival 0, service 5), process 2 (position 1, service `5 ≤ Q`) finishes at its
first dispatch with `finish_time = -2147483642`, where the claim gives
`min Q 2147483647 + SWITCH_TIME + 5 = 2147483654`.  On the example of the claim,
`Q = 4` with (arrival 0, service 10), (arrival 0, service 4), the program gives
process 2 `finish_time` 10 and process 1 `finish_time` 20, as claimed. -/
theorem runRR32_first_round_overflow :
    (runRR32 2147483647 (rrFuel (Simulator.load [(1, 0, 2147483647), (2, 0, 5)]))
        (Simulator.load [(1, 0, 2147483647), (2, 0, 5)])).map
      (fun s => s.processes.map (fun p => (p.process_number, p.finished, p.finish_time)))
      = some [(1, true, 2147483647), (2, true, -2147483642)] ∧
    (((Simulator.load [(1, 0, 2147483647), (2, 0, 5)]).processes.take 1).map
        (fun q => min 2147483647 q.cpu_time + SWITCH_TIME)).sum + 5 = 2147483654 ∧
    (runRR32 4 (rrFuel (Simulator.load [(1, 0, 10), (2, 0, 4)]))
        (Simulator.load [(1, 0, 10), (2, 0, 4)])).map
      (fun s => s.processes.map (fun p => (p.process_number, p.finish_time)))
      = some [(1, 20), (2, 10)] := by
  refine ⟨by decide, by decide, by decide⟩

/-- C19: the program's `int` arithmetic breaks the total time of `runRR`.  For
`Q = 2147483647` and the workload (arrival 0, service 2147483647),
(arrival 0, service 5), `runRR` ends with `total_switch_time = 2`, which is
`SWITCH_TIME * (1 + 1 - 1)` as claimed, but the maximum `finish_time` is
2147483647 (process 2 has `finish_time = -2147483642`), where the claim gives
`sum(s_i) + total_switch_time = 2147483654`. -/
theorem runRR32_batch_totals_overflow :
    (runRR32 2147483647 (rrFuel (Simulator.load [(1, 0, 2147483647), (2, 0, 5)]))
        (Simulator.load [(1, 0, 2147483647), (2, 0, 5)])).map
      (fun s => (s.total_switch_time, (displayTotals s.processes).total_time))
      = some (2, 2147483647) ∧
    SWITCH_TIME * (((Simulator.load [(1, 0, 2147483647), (2, 0, 5)]).processes.map
        (fun p => ceilDiv p.cpu_time 2147483647)).sum - 1) = 2 ∧
    ((Simulator.load [(1, 0, 2147483647), (2, 0, 5)]).processes.map
        (fun p => p.cpu_time)).sum + 2 = 2147483654 := by
  refine ⟨by decide, by decide, by decide⟩

end EventDrivenSchedulingAlgo
